import Mathlib

/-!
# Meta Ads daily spend by region: the upsert engine and the fetch layer

A shallow embedding of `meta-ads-daily-spend-by-region.js`.

* JavaScript strings are lists of characters (`Str`), numbers are `JSNum`
  (the three non-finite doubles plus finite values carried as rationals),
  values read from or written to a sheet are `JSVal`.
* The host functions the script calls but does not define (`String(n)` on a
  number or a `Date`, `new Date(s)`, `Utilities.formatDate`, `Number(s)`) are
  the fields of a `Platform`; every general theorem quantifies over all
  platforms.
* A sheet is the list of its rows `1 .. getLastRow()`, each row being the
  eight cells of columns A..H.  `setNumberFormat` changes no cell value and is
  not modelled.
* The remote service is a state machine `Web`; `backoffFetch` and
  `fetchInsightsForAccounts` pass its state along and record the URLs they
  request and the durations they sleep.  The page loop takes fuel, since a
  service may link its pages in a cycle.
-/

namespace MetaAds

/-! ## JavaScript values -/

/-- A JavaScript string. -/
abbrev Str := List Char

/-- A JavaScript number: a finite value or one of the non-finite doubles. -/
inductive JSNum where
  | nan
  | posInf
  | negInf
  | fin (q : ℚ)
  deriving DecidableEq

/-- The host function `isFinite(x)` on a number. -/
def JSNum.isFinite : JSNum → Bool
  | .fin _ => true
  | _ => false

/-- The comparison `x <= 0`; it is false on `NaN`. -/
def JSNum.leZero : JSNum → Bool
  | .fin q => decide (q ≤ 0)
  | .negInf => true
  | _ => false

/-- Truthiness of a number: everything but `0` and `NaN`. -/
def JSNum.truthy : JSNum → Bool
  | .fin q => decide (q ≠ 0)
  | .nan => false
  | _ => true

/-- A JavaScript value as it occurs in a cell, a raw record or a fact:
`date t` is a valid `Date` with time value `t` (milliseconds). -/
inductive JSVal where
  | undefined
  | str (s : Str)
  | num (x : JSNum)
  | bool (b : Bool)
  | date (t : Int)
  deriving DecidableEq

/-- Truthiness, as used by `!v` and `v || w`. -/
def JSVal.truthy : JSVal → Bool
  | .undefined => false
  | .str s => !s.isEmpty
  | .num x => x.truthy
  | .bool b => b
  | .date _ => true

/-- The expression `a || b`. -/
def JSVal.or (a b : JSVal) : JSVal := if a.truthy then a else b

/-- The host functions the script relies on. -/
structure Platform where
  /-- `String(x)` for a number. -/
  numToString : JSNum → Str
  /-- `String(d)` for a `Date`. -/
  dateToString : Int → Str
  /-- `new Date(s)`; `none` when the time value is `NaN`. -/
  parseDate : Str → Option Int
  /-- `Utilities.formatDate(d, CONFIG.TIMEZONE, 'yyyy-MM-dd')`. -/
  formatDate : Int → Str
  /-- `Number(s)` for a string. -/
  strToNumber : Str → JSNum

/-- The conversion `String(v)`. -/
def toStr (P : Platform) : JSVal → Str
  | .undefined => "undefined".toList
  | .str s => s
  | .num x => P.numToString x
  | .bool true => "true".toList
  | .bool false => "false".toList
  | .date t => P.dateToString t

/-- White space and line terminators, the characters `trim` removes. -/
def isJSSpace (c : Char) : Bool :=
  let n := c.toNat
  n = 9 || n = 10 || n = 11 || n = 12 || n = 13 || n = 32 || n = 160 || n = 5760 ||
  (8192 ≤ n && n ≤ 8202) || n = 8232 || n = 8233 || n = 8239 || n = 8287 ||
  n = 12288 || n = 65279

/-- The method `String.prototype.trim`. -/
def trim (s : Str) : Str :=
  ((s.dropWhile isJSSpace).reverse.dropWhile isJSSpace).reverse

/-- The replacement `.replace(/^act_/, '')`. -/
def stripAct : Str → Str
  | 'a' :: 'c' :: 't' :: '_' :: rest => rest
  | s => s

/-- Source: `normalizeAccountId(id)`, `String(id || '').trim().replace(/^act_/, '')`. -/
def normalizeAccountId (P : Platform) (id : JSVal) : Str :=
  stripAct (trim (toStr P (id.or (.str []))))

/-- The class `\d` of the regular expression. -/
def isDigit (c : Char) : Bool := 48 ≤ c.toNat && c.toNat ≤ 57

/-- The test `/^\d{4}-\d{2}-\d{2}$/.test(s)`. -/
def isDayISO : Str → Bool
  | [a, b, c, d, m1, e, f, m2, g, h] =>
      isDigit a && isDigit b && isDigit c && isDigit d && m1 = '-' &&
      isDigit e && isDigit f && m2 = '-' && isDigit g && isDigit h
  | _ => false

/-- Source: `toDayISO(v)`. -/
def toDayISO (P : Platform) (v : JSVal) : Str :=
  if !v.truthy then []
  else
    match v with
    | .date t => P.formatDate t
    | _ =>
      let s := trim (toStr P v)
      if isDayISO s then s
      else
        match P.parseDate s with
        | some d => P.formatDate d
        | none => s

/-- The template literal with three parts joined by a vertical bar. -/
def joinKey (a b c : Str) : Str := a ++ '|' :: b ++ '|' :: c

/-! ## Rows, facts and raw records -/

/-- The eight cells of a sheet row (columns A..H), also the `values` array of
a fact; the fields follow `COL`. -/
structure Row where
  accountId : JSVal
  accountName : JSVal
  region : JSVal
  day : JSVal
  currency : JSVal
  amount : JSVal
  start : JSVal
  stop : JSVal
  deriving DecidableEq

/-- A normalized fact, the object literal built in `runDailyRegionSpend`. -/
structure Fact where
  key : Str
  spend : JSNum
  values : Row
  deriving DecidableEq

/-- A raw record of the insights API. -/
structure Record where
  account_id : JSVal
  account_name : JSVal
  account_currency : JSVal
  spend : JSVal
  date_start : JSVal
  date_stop : JSVal
  region : JSVal
  deriving DecidableEq

/-- The conversion `Number(v)`. -/
def toNumber (P : Platform) : JSVal → JSNum
  | .undefined => .nan
  | .str s => P.strToNumber s
  | .num x => x
  | .bool true => .fin 1
  | .bool false => .fin 0
  | .date t => .fin t

/-- The call `v.trim()`, which throws unless `v` is a string. -/
def trimVal : JSVal → Option Str
  | .str s => some (trim s)
  | _ => none

/-- Source: the callback of `rows.map` in `runDailyRegionSpend`; `none` when a
`.trim()` call throws. -/
def normalize (P : Platform) (r : Record) : Option Fact :=
  let dayISO := toDayISO P r.date_start
  match trimVal (r.region.or (.str "Unknown".toList)) with
  | none => none
  | some region =>
    match trimVal (r.account_id.or (.str [])) with
    | none => none
    | some rawId =>
      let accountId := normalizeAccountId P (.str rawId)
      let spend := toNumber P (r.spend.or (.num (.fin 0)))
      some
        { key := joinKey accountId region dayISO
          spend := spend
          values :=
            { accountId := .str accountId
              accountName := (r.account_name.or (.str rawId)).or (.str [])
              region := .str region
              day := .str dayISO
              currency := r.account_currency.or (.str [])
              amount := .num spend
              start := (JSVal.str (toDayISO P r.date_start)).or (.str [])
              stop := (JSVal.str (toDayISO P r.date_stop)).or (.str []) } }

/-- The normalization of a whole response, record by record. -/
def normalizeAll (P : Platform) : List Record → Option (List Fact)
  | [] => some []
  | r :: rs =>
    match normalize P r, normalizeAll P rs with
    | some f, some fs => some (f :: fs)
    | _, _ => none

/-! ## Maps with insertion order -/

/-- A JavaScript `Map` with string keys: the entries in insertion order. -/
abbrev JSMap (V : Type) := List (Str × V)

/-- The method `Map.prototype.get`. -/
def JSMap.get {V : Type} : JSMap V → Str → Option V
  | [], _ => none
  | (k', v) :: rest, k => if k' = k then some v else JSMap.get rest k

/-- The method `Map.prototype.set`: an existing key keeps its position. -/
def JSMap.set {V : Type} : JSMap V → Str → V → JSMap V
  | [], k, v => [(k, v)]
  | (k', v') :: rest, k, v =>
    if k' = k then (k, v) :: rest else (k', v') :: JSMap.set rest k v

/-- The method `Map.prototype.delete`. -/
def JSMap.delete {V : Type} : JSMap V → Str → JSMap V
  | [], _ => []
  | (k', v') :: rest, k =>
    if k' = k then JSMap.delete rest k else (k', v') :: JSMap.delete rest k

/-- The iterator `Map.prototype.values`, as an array. -/
def JSMap.values {V : Type} (m : JSMap V) : List V := m.map Prod.snd

/-- Source: `dedupeIncoming(rows)`. -/
def dedupeIncoming (rows : List Fact) : List Fact :=
  JSMap.values (rows.foldl (fun seen r => JSMap.set seen r.key r) [])

/-! ## The sheet -/

/-- A sheet: row `n` of the sheet is the entry at position `n - 1`, and the
list ends at the last row with content. -/
abbrev Sheet := List Row

/-- The array `targetHeader` of `ensureSheetHeader`, equal to `HEADER` of
`upsertToSheet`. -/
def HEADER : Row :=
  { accountId := .str "Account ID".toList
    accountName := .str "Account name".toList
    region := .str "Region".toList
    day := .str "Day".toList
    currency := .str "Currency".toList
    amount := .str "Amount spent (USD)".toList
    start := .str "Reporting starts".toList
    stop := .str "Reporting ends".toList }

/-- A row of empty cells, as `getValues` reports cells never written. -/
def blankRow : Row :=
  { accountId := .str [], accountName := .str [], region := .str [], day := .str []
    currency := .str [], amount := .str [], start := .str [], stop := .str [] }

/-- The method `sh.getLastRow()`. -/
def getLastRow (sh : Sheet) : Nat := sh.length

/-- The call `sh.getRange(rowNum, 1, 1, 8).setValues([values])`.  Rows between
the last row and `rowNum` come into being blank.  Row `0` does not exist (the
host throws); the classification loop never asks for it, see
`classify_targets`. -/
def writeRow (sh : Sheet) (rowNum : Nat) (values : Row) : Sheet :=
  if rowNum = 0 then sh
  else if rowNum ≤ sh.length then sh.set (rowNum - 1) values
  else sh ++ List.replicate (rowNum - 1 - sh.length) blankRow ++ [values]

/-- The effect of `sh.insertColumnBefore(1)` on the eight cells of a row: the
cells move one column right and column A is empty. -/
def shiftRight (r : Row) : Row :=
  { accountId := .str [], accountName := r.accountId, region := r.accountName
    day := r.region, currency := r.day, amount := r.currency, start := r.amount
    stop := r.start }

/-- Source: `ensureSheetHeader(ss, sheetName)`, on the sheet it finds or
inserts. -/
def ensureSheetHeader (P : Platform) (sh : Sheet) : Sheet :=
  if getLastRow sh = 0 then writeRow sh 1 HEADER
  else
    match sh with
    | [] => writeRow sh 1 HEADER
    | first :: _ =>
      if toStr P first.accountId ≠ "Account ID".toList then
        writeRow (sh.map shiftRight) 1 HEADER
      else writeRow sh 1 HEADER

/-! ## The reconciler -/

/-- The state of the loops of `upsertToSheet`: the two indexes and the two
queues. -/
structure LoopState where
  byId : JSMap Nat
  byName : JSMap Nat
  toAppend : List Row
  toUpdate : List (Nat × Row)
  deriving DecidableEq

/-- The identifier key the reconciler computes from eight values. -/
def idKeyOf (P : Platform) (v : Row) : Str :=
  joinKey (normalizeAccountId P v.accountId)
    (trim (toStr P (v.region.or (.str [])))) (toDayISO P v.day)

/-- The name key the reconciler computes from eight values. -/
def nameKeyOf (P : Platform) (v : Row) : Str :=
  joinKey (trim (toStr P (v.accountName.or (.str []))))
    (trim (toStr P (v.region.or (.str [])))) (toDayISO P v.day)

/-- The body of the indexing loop for the data row `r` at sheet row `rowNum`. -/
def indexRow (P : Platform) (st : LoopState) (r : Row) (rowNum : Nat) : LoopState :=
  let accountId := normalizeAccountId P r.accountId
  let accountName := trim (toStr P (r.accountName.or (.str [])))
  let region := trim (toStr P (r.region.or (.str [])))
  let dayISO := toDayISO P r.day
  if !dayISO.isEmpty then
    if !accountId.isEmpty then
      { st with byId := st.byId.set (joinKey accountId region dayISO) rowNum }
    else if !accountName.isEmpty && !region.isEmpty then
      { st with byName := st.byName.set (joinKey accountName region dayISO) rowNum }
    else st
  else st

/-- The indexing loop `for (let i = 0; i < data.length; i++)`, from index `i`
on. -/
def indexLoop (P : Platform) : List Row → Nat → LoopState → LoopState
  | [], _, st => st
  | r :: rs, i, st => indexLoop P rs (i + 1) (indexRow P st r (i + 2))

/-- The state before the classification loop: both maps filled from the data
rows when `lastRow > 1`, both queues empty. -/
def buildIndex (P : Platform) (sh : Sheet) : LoopState :=
  let st0 : LoopState := { byId := [], byName := [], toAppend := [], toUpdate := [] }
  if getLastRow sh > 1 then indexLoop P (sh.drop 1) 0 st0 else st0

/-- Truthiness of a row number read from a map (`undefined`, `null` and `0`
are falsy). -/
def rowTruthy : Option Nat → Bool
  | some n => decide (n ≠ 0)
  | none => false

/-- The test `!isFinite(r.spend) || r.spend <= 0`. -/
def dropped (f : Fact) : Bool := !f.spend.isFinite || f.spend.leZero

/-- The array `write` of the promotion branch: a copy of the values whose
first cell, when falsy, is replaced by `accountId`. -/
def promoteWrite (P : Platform) (v : Row) : Row :=
  if !v.accountId.truthy then { v with accountId := .str (normalizeAccountId P v.accountId) }
  else v

/-- The body of the classification loop `for (const r of batch)`. -/
def classifyStep (P : Platform) (st : LoopState) (r : Fact) : LoopState :=
  if dropped r then st
  else
    let idKey := idKeyOf P r.values
    let nameKey := nameKeyOf P r.values
    let rowNum := st.byId.get idKey
    if !rowTruthy rowNum then
      let rowNum2 := if rowTruthy (st.byName.get nameKey) then st.byName.get nameKey else none
      match rowNum2 with
      | some n =>
        if n ≠ 0 then
          { byId := st.byId.set idKey n
            byName := st.byName.delete nameKey
            toAppend := st.toAppend
            toUpdate := st.toUpdate ++ [(n, promoteWrite P r.values)] }
        else { st with toAppend := st.toAppend ++ [r.values] }
      | none => { st with toAppend := st.toAppend ++ [r.values] }
    else
      match rowNum with
      | some n => { st with toUpdate := st.toUpdate ++ [(n, r.values)] }
      | none => { st with toAppend := st.toAppend ++ [r.values] }

/-- The classification loop over the deduplicated batch. -/
def classify (P : Platform) (st : LoopState) (batch : List Fact) : LoopState :=
  batch.foldl (classifyStep P) st

/-- The loop `for (const u of toUpdate)`. -/
def applyUpdates (sh : Sheet) (toUpdate : List (Nat × Row)) : Sheet :=
  toUpdate.foldl (fun s u => writeRow s u.1 u.2) sh

/-- The block `if (toAppend.length) sh.getRange(sh.getLastRow()+1, ...).setValues(toAppend)`. -/
def applyAppends (sh : Sheet) (toAppend : List Row) : Sheet :=
  if toAppend.length ≠ 0 then sh ++ toAppend else sh

/-- The part of `upsertToSheet` after `ensureSheetHeader`. -/
def upsertCore (P : Platform) (sh : Sheet) (rows : List Fact) : Sheet :=
  let batch := dedupeIncoming rows
  let st := classify P (buildIndex P sh) batch
  applyAppends (applyUpdates sh st.toUpdate) st.toAppend

/-- Source: `upsertToSheet(sheetName, rows)`, as a function of the sheet
found under that name. -/
def upsertToSheet (P : Platform) (sh : Sheet) (rows : List Fact) : Sheet :=
  upsertCore P (ensureSheetHeader P sh) rows

/-! ## A small host, used to evaluate the definitions on concrete inputs

The general theorems hold for every `Platform`.  The one below runs in UTC,
prints integers and terminating decimals, and parses only the date form
`yyyy/MM/dd`; it gives the concrete runs a host to run on. -/

/-- The decimal digits of a natural number, most significant first. -/
def natDigits : Nat → Nat → List Char
  | 0, _ => []
  | fuel + 1, n =>
    if n < 10 then [Char.ofNat (48 + n)]
    else natDigits fuel (n / 10) ++ [Char.ofNat (48 + n % 10)]

/-- A natural number in decimal. -/
def showNat (n : Nat) : Str := natDigits (n + 1) n

/-- A natural number in decimal, padded with zeros to `w` digits. -/
def showPadded (w n : Nat) : Str :=
  List.replicate (w - (showNat n).length) '0' ++ showNat n

/-- The digits after the decimal point of `r / d`, by long division. -/
def fracDigits : Nat → Nat → Nat → List Char
  | 0, _, _ => []
  | fuel + 1, r, d =>
    if r = 0 then [] else Char.ofNat (48 + r * 10 / d) :: fracDigits fuel (r * 10 % d) d

/-- A finite number in decimal, at most twenty digits after the point. -/
def showRat (q : ℚ) : Str :=
  let n := q.num.natAbs
  let sign : Str := if q.num < 0 then ['-'] else []
  let frac := fracDigits 20 (n % q.den) q.den
  sign ++ showNat (n / q.den) ++ (if frac.isEmpty then [] else '.' :: frac)

/-- String form of a number on the small host. -/
def showNum : JSNum → Str
  | .nan => "NaN".toList
  | .posInf => "Infinity".toList
  | .negInf => "-Infinity".toList
  | .fin q => showRat q

/-- The value of a string of decimal digits, `none` if another character
occurs. -/
def readNat : Str → Nat → Option Nat
  | [], acc => some acc
  | c :: cs, acc => if isDigit c then readNat cs (acc * 10 + (c.toNat - 48)) else none

/-- Days since 1970-01-01 of a civil date (proleptic Gregorian calendar). -/
def daysFromCivil (y m d : Int) : Int :=
  let y1 := if m ≤ 2 then y - 1 else y
  let era := y1 / 400
  let yoe := y1 - era * 400
  let doy := (153 * (m + (if m > 2 then -3 else 9)) + 2) / 5 + d - 1
  let doe := yoe * 365 + yoe / 4 - yoe / 100 + doy
  era * 146097 + doe - 719468

/-- The civil date, as year, month and day, of a number of days since
1970-01-01. -/
def civilFromDays (z0 : Int) : Int × Int × Int :=
  let z := z0 + 719468
  let era := z / 146097
  let doe := z - era * 146097
  let yoe := (doe - doe / 1460 + doe / 36524 - doe / 146096) / 365
  let doy := doe - (365 * yoe + yoe / 4 - yoe / 100)
  let mp := (5 * doy + 2) / 153
  let d := doy - (153 * mp + 2) / 5 + 1
  let m := if mp < 10 then mp + 3 else mp - 9
  let y := yoe + era * 400
  (if m ≤ 2 then y + 1 else y, m, d)

/-- The form `yyyy-MM-dd` of a time value, in UTC. -/
def showDay (t : Int) : Str :=
  let (y, m, d) := civilFromDays (t / 86400000)
  showPadded 4 y.toNat ++ '-' :: showPadded 2 m.toNat ++ '-' :: showPadded 2 d.toNat

/-- The time value of a string of the form `yyyy/MM/dd`, midnight UTC. -/
def readSlashDate : Str → Option Int
  | [a, b, c, d, '/', e, f, '/', g, h] =>
    match readNat [a, b, c, d] 0, readNat [e, f] 0, readNat [g, h] 0 with
    | some y, some m, some dd =>
      if 1 ≤ m ∧ m ≤ 12 ∧ 1 ≤ dd ∧ dd ≤ 31 then
        some (daysFromCivil y m dd * 86400000)
      else none
    | _, _, _ => none
  | _ => none

/-- The number a string of the form `digits` or `digits.digits`, with an
optional minus sign, denotes; an empty string is `0`, anything else `NaN`. -/
def readNum (s : Str) : JSNum :=
  let t := trim s
  if t.isEmpty then .fin 0
  else
    let neg := t.head? = some '-'
    let body := if neg then t.drop 1 else t
    let ip := body.takeWhile (fun c => c ≠ '.')
    let fp := (body.dropWhile (fun c => c ≠ '.')).drop 1
    if ip.isEmpty && fp.isEmpty then .nan
    else
      match readNat ip 0, readNat fp 0 with
      | some i, some f =>
        let q : ℚ := (i : ℚ) + (f : ℚ) / (10 : ℚ) ^ fp.length
        .fin (if neg then -q else q)
      | _, _ => .nan

/-- The small host. -/
def host : Platform :=
  { numToString := showNum
    dateToString := fun t => showDay t ++ "T00:00:00.000Z".toList
    parseDate := readSlashDate
    formatDate := showDay
    strToNumber := readNum }

/-! ## The fetch layer

The remote service is a state machine: `fetch` is one call of
`UrlFetchApp.fetch(url, params)`.  A response carries its status, its content
text and what `JSON.parse` makes of that text, as far as the script reads it. -/

/-- The parsed body of a response, as far as the script reads it. -/
structure Body where
  /-- The value of `body?.error?.code`. -/
  errorCode : JSVal
  /-- The array `body.data`; `none` when it is absent. -/
  data : Option (List Record)
  /-- The string `body.paging?.next`; `none` when it is absent. -/
  next : Option Str
  deriving DecidableEq

/-- An HTTP response: `getResponseCode()`, `getContentText()` and the value of
`JSON.parse(getContentText())`, `none` when parsing throws or yields `null`. -/
structure Response where
  code : Nat
  text : Str
  body : Option Body
  deriving DecidableEq

/-- The remote service with states `σ`. -/
structure Web (σ : Type) where
  fetch : σ → Str → Response × σ

/-- What calls have done so far: the state of the service, the URLs requested
and the durations slept, both in order. -/
structure Effects (σ : Type) where
  state : σ
  requests : List Str
  sleeps : List Nat
  deriving DecidableEq

/-- How a call ends: it returns a value or throws an `Error` with a message. -/
inductive Outcome (α : Type) where
  | returned (a : α)
  | thrown (msg : Str)
  deriving DecidableEq

/-- The array `waits` of `backoffFetch`, in milliseconds. -/
def WAITS : List Nat := [0, 500, 1500, 3000, 6000]

/-- The test `xs.includes(v)` for an array of integers. -/
def includesNum (xs : List Nat) : JSVal → Bool
  | .num (.fin q) => xs.any (fun n => decide ((n : ℚ) = q))
  | _ => false

/-- The value `err` of `backoffFetch`: `safeJson(text)?.error?.code`. -/
def errOf (res : Response) : JSVal :=
  match res.body with
  | some b => b.errorCode
  | none => .undefined

/-- The retry test `[4,17,32].includes(err) || [500,502,503,504].includes(code)`. -/
def isTransient (res : Response) : Bool :=
  includesNum [4, 17, 32] (errOf res) || [500, 502, 503, 504].contains res.code

/-- The message of the error thrown for a response that is not retried. -/
def httpError (P : Platform) (res : Response) : Str :=
  "HTTP ".toList ++ P.numToString (.fin res.code) ++ ' ' :: res.text

/-- The message of the error thrown after the last attempt. -/
def exhaustedError (url : Str) : Str := "Retries exhausted: ".toList ++ url

/-- The loop `for (let i=0;i<waits.length;i++)` of `backoffFetch`, over the
waits that are left. -/
def backoffLoop {σ : Type} (P : Platform) (W : Web σ) (url : Str) :
    List Nat → Effects σ → Outcome Response × Effects σ
  | [], e => (.thrown (exhaustedError url), e)
  | w :: ws, e =>
    let res := (W.fetch e.state url).1
    let e1 : Effects σ :=
      { state := (W.fetch e.state url).2, requests := e.requests ++ [url], sleeps := e.sleeps }
    if res.code = 200 then (.returned res, e1)
    else if isTransient res then
      backoffLoop P W url ws { e1 with sleeps := e1.sleeps ++ [w] }
    else (.thrown (httpError P res), e1)

/-- Source: `backoffFetch(url, opts)`, continuing from the effects `e`. -/
def backoffFetch {σ : Type} (P : Platform) (W : Web σ) (url : Str) (e : Effects σ) :
    Outcome Response × Effects σ :=
  backoffLoop P W url WAITS e

/-- The records a page adds to `out`: `body.data` when its length is truthy. -/
def pageData (b : Body) : List Record :=
  match b.data with
  | some d => if d.length ≠ 0 then d else []
  | none => []

/-- The next URL `body.paging?.next || null`, the empty string standing for
`null`. -/
def nextUrl (b : Body) : Str :=
  match b.next with
  | some s => s
  | none => []

/-- The loop `while (url)` of `fetchInsightsForAccounts`; `none` when the fuel
runs out.  A body that does not parse ends the run with an exception, whose
message stands for that of the host's `SyntaxError`. -/
def pageLoop {σ : Type} (P : Platform) (W : Web σ) :
    Nat → Str → List Record → Effects σ → Option (Outcome (List Record) × Effects σ)
  | 0, _, _, _ => none
  | fuel + 1, url, out, e =>
    if url.isEmpty then some (.returned out, e)
    else
      match backoffFetch P W url e with
      | (.thrown msg, e1) => some (.thrown msg, e1)
      | (.returned res, e1) =>
        match res.body with
        | none => some (.thrown "JSON.parse".toList, e1)
        | some b => pageLoop P W fuel (nextUrl b) (out ++ pageData b) e1

/-- The loop `for (const acct of accounts)`; `firstUrl` gives the URL
`base + '?' + toQuery(q)` of an account id. -/
def accountsLoop {σ : Type} (P : Platform) (W : Web σ) (firstUrl : Str → Str) (fuel : Nat) :
    List Str → List Record → Effects σ → Option (Outcome (List Record) × Effects σ)
  | [], out, e => some (.returned out, e)
  | acct :: rest, out, e =>
    match pageLoop P W fuel (firstUrl acct) out e with
    | none => none
    | some (.thrown msg, e1) => some (.thrown msg, e1)
    | some (.returned out1, e1) => accountsLoop P W firstUrl fuel rest out1 e1

/-- Source: `fetchInsightsForAccounts(accounts, range)`, from the state `s` of
the service, with `fuel` rounds of the page loop per account. -/
def fetchInsightsForAccounts {σ : Type} (P : Platform) (W : Web σ) (firstUrl : Str → Str)
    (fuel : Nat) (accounts : List Str) (s : σ) :
    Option (Outcome (List Record) × Effects σ) :=
  accountsLoop P W firstUrl fuel accounts [] { state := s, requests := [], sleeps := [] }

/-- A service that answers the successive requests with the responses of a
list, whatever the URL, and with `last` once the list is used up. -/
def scripted (last : Response) : Web (List Response) :=
  { fetch := fun s _ =>
      match s with
      | [] => (last, [])
      | r :: rs => (r, rs) }

/-- A service without state: the response is a function of the URL. -/
def stateless (api : Str → Response) : Web Unit :=
  { fetch := fun s url => (api url, s) }

/-! ## Notions used to state the properties -/

/-- The keys of a map, in insertion order. -/
def JSMap.keys {V : Type} (m : JSMap V) : List Str := m.map Prod.fst

/-- The last fact of a sequence that carries the key `k`. -/
def lastWithKey : List Fact → Str → Option Fact
  | [], _ => none
  | f :: fs, k =>
    match lastWithKey fs k with
    | some g => some g
    | none => if f.key = k then some f else none

/-- The map `seen` of `dedupeIncoming` after the loop over `rows`. -/
def seenAfter (seen : JSMap Fact) (rows : List Fact) : JSMap Fact :=
  rows.foldl (fun seen r => JSMap.set seen r.key r) seen

/-- The key under which the indexing loop enters a row into `byId`: the row
needs a non-empty day and a non-empty account id. -/
def rowIdKey (P : Platform) (r : Row) : Option Str :=
  if (toDayISO P r.day).isEmpty then none
  else if (normalizeAccountId P r.accountId).isEmpty then none
  else some (idKeyOf P r)

/-- The key under which the indexing loop enters a row into `byName`: the row
needs a non-empty day, an empty account id, a non-empty name and a non-empty
region. -/
def rowNameKey (P : Platform) (r : Row) : Option Str :=
  if (toDayISO P r.day).isEmpty then none
  else if !(normalizeAccountId P r.accountId).isEmpty then none
  else if (trim (toStr P (r.accountName.or (.str [])))).isEmpty then none
  else if (trim (toStr P (r.region.or (.str [])))).isEmpty then none
  else some (nameKeyOf P r)

/-- The position of the last entry equal to `some k`. -/
def lastIdx (k : Str) : List (Option Str) → Option Nat
  | [] => none
  | x :: xs =>
    match lastIdx k xs with
    | some j => some (j + 1)
    | none => if x = some k then some 0 else none

/-- The state with empty maps and empty queues. -/
def emptyState : LoopState := { byId := [], byName := [], toAppend := [], toUpdate := [] }

/-- The data rows after the writes of `toUpdate`, each at position
`rowNum - 2`. -/
def applyData (data : List Row) (toUpdate : List (Nat × Row)) : List Row :=
  toUpdate.foldl (fun d u => d.set (u.1 - 2) u.2) data

/-- Row number `n` is the sheet row of a data row that the indexing loop
enters into one of the two maps. -/
def Indexed (P : Platform) (data : List Row) (n : Nat) : Prop :=
  ∃ j r, n = j + 2 ∧ data[j]? = some r ∧ (rowIdKey P r ≠ none ∨ rowNameKey P r ≠ none)

/-- Every row number held by the maps or queued for an update is the row of
an indexed data row. -/
def TargetsIndexed (P : Platform) (data : List Row) (st : LoopState) : Prop :=
  (∀ k n, JSMap.get st.byId k = some n → Indexed P data n) ∧
  (∀ k n, JSMap.get st.byName k = some n → Indexed P data n) ∧
  (∀ u ∈ st.toUpdate, Indexed P data u.1)

/-- The facts the classification loop queues for appending: those that are
not dropped and, at their turn, find neither their identifier key in `byId`
nor their name key in `byName`. -/
def appendedFacts (P : Platform) : LoopState → List Fact → List Fact
  | _, [] => []
  | st, f :: fs =>
    if dropped f = false ∧ JSMap.get st.byId (idKeyOf P f.values) = none ∧
        JSMap.get st.byName (nameKeyOf P f.values) = none then
      f :: appendedFacts P (classifyStep P st f) fs
    else appendedFacts P (classifyStep P st f) fs

/-! ## Concrete rows and facts for the runs below -/

/-- The rational `100.5`. -/
def q100_5 : ℚ := ⟨201, 2, by decide, by decide⟩

/-- A stored row for account `1`, region `US`, day `2024-03-01`, amount `100.5`. -/
def rowUS : Row :=
  { accountId := .str "1".toList, accountName := .str "Acme".toList
    region := .str "US".toList, day := .str "2024-03-01".toList
    currency := .str "USD".toList, amount := .num (.fin q100_5)
    start := .str "2024-03-01".toList, stop := .str "2024-03-01".toList }

/-- A raw record for account `act_1`, region `US`, day `2024-03-01` with the
given spend. -/
def recUS (spend : JSVal) : Record :=
  { account_id := .str "act_1".toList, account_name := .str "Acme".toList
    account_currency := .str "USD".toList, spend := spend
    date_start := .str "2024-03-01".toList, date_stop := .str "2024-03-01".toList
    region := .str "US".toList }

/-- The fact the normalizer builds from `recUS` on the small host, as a
literal. -/
def factUS (spend : ℚ) : Fact :=
  { key := "1|US|2024-03-01".toList
    spend := .fin spend
    values :=
      { accountId := .str "1".toList, accountName := .str "Acme".toList
        region := .str "US".toList, day := .str "2024-03-01".toList
        currency := .str "USD".toList, amount := .num (.fin spend)
        start := .str "2024-03-01".toList, stop := .str "2024-03-01".toList } }

/-- A stored row without account id: name `Acme`, region `CA`, day
`2024-01-01`. -/
def rowAcme : Row :=
  { accountId := .str [], accountName := .str "Acme".toList
    region := .str "CA".toList, day := .str "2024-01-01".toList
    currency := .str "USD".toList, amount := .num (.fin 3)
    start := .str "2024-01-01".toList, stop := .str "2024-01-01".toList }

/-- A raw record for account `act_42`, name `Acme`, region `CA`, day
`2024-01-01`, spend `9`. -/
def rec42 : Record :=
  { account_id := .str "act_42".toList, account_name := .str "Acme".toList
    account_currency := .str "USD".toList, spend := .num (.fin 9)
    date_start := .str "2024-01-01".toList, date_stop := .str "2024-01-01".toList
    region := .str "CA".toList }

/-- The fact the normalizer builds from `rec42` on the small host, as a
literal, with the given spend. -/
def fact42 (spend : ℚ) : Fact :=
  { key := "42|CA|2024-01-01".toList
    spend := .fin spend
    values :=
      { accountId := .str "42".toList, accountName := .str "Acme".toList
        region := .str "CA".toList, day := .str "2024-01-01".toList
        currency := .str "USD".toList, amount := .num (.fin spend)
        start := .str "2024-01-01".toList, stop := .str "2024-01-01".toList } }

/-- No two positions of a list of row keys carry the same key. -/
def UniqueKeys (ks : List (Option Str)) : Prop :=
  ∀ (i j : Nat) (k : Str), ks[i]? = some (some k) → ks[j]? = some (some k) → i = j

/-- Key uniqueness of a store: no two data rows that the reconciler indexes by
identifier (non-empty account id, non-empty day) share the identifier key
`accountId|region|day`. -/
def KeyUnique (P : Platform) (data : List Row) : Prop :=
  UniqueKeys (data.map (rowIdKey P))

/-- A fact is canonical when, unless it is dropped, its account id and its day
are non-empty after the reconciler's normalization and the identifier key the
reconciler recomputes from its values is its own key. -/
def Canonical (P : Platform) (f : Fact) : Prop :=
  dropped f = false →
    normalizeAccountId P f.values.accountId ≠ [] ∧ toDayISO P f.values.day ≠ [] ∧
      idKeyOf P f.values = f.key

/-- The invariant of the classification loop on canonical facts with pairwise
distinct keys: `done` are the facts classified so far. -/
structure RunInv (P : Platform) (data : List Row) (done : List Fact) (st : LoopState) :
    Prop where
  byId_eq : ∀ k, JSMap.get st.byId k =
    (lastIdx k ((applyData data st.toUpdate).map (rowIdKey P))).map (· + 2)
  byName_row : ∀ n m, JSMap.get st.byName n = some m →
    ∃ j r, m = j + 2 ∧ (applyData data st.toUpdate)[j]? = some r ∧ rowNameKey P r = some n
  done_row : ∀ f ∈ done, dropped f = false →
    ∃ j, lastIdx f.key ((applyData data st.toUpdate ++ st.toAppend).map (rowIdKey P)) = some j ∧
      (applyData data st.toUpdate ++ st.toAppend)[j]? = some f.values
  app_src : ∀ row ∈ st.toAppend, ∃ f ∈ done, dropped f = false ∧ row = f.values ∧
    rowIdKey P row = some f.key
  unique : UniqueKeys (data.map (rowIdKey P)) →
    UniqueKeys ((applyData data st.toUpdate ++ st.toAppend).map (rowIdKey P))

instance (P : Platform) (f : Fact) : Decidable (Canonical P f) := by
  unfold Canonical
  infer_instance

/-- A raw record without `date_start`: account `act_1`, region `US`, spend `5`. -/
def recNoDay : Record :=
  { account_id := .str "act_1".toList, account_name := .str "Acme".toList
    account_currency := .str "USD".toList, spend := .num (.fin 5)
    date_start := .undefined, date_stop := .undefined
    region := .str "US".toList }

/-- The fact the normalizer builds from `recNoDay` on the small host, as a
literal: its day is the empty string. -/
def factNoDay : Fact :=
  { key := "1|US|".toList
    spend := .fin 5
    values :=
      { accountId := .str "1".toList, accountName := .str "Acme".toList
        region := .str "US".toList, day := .str []
        currency := .str "USD".toList, amount := .num (.fin 5)
        start := .str [], stop := .str [] } }

/-- A stored row without account id: name `Acme`, region `US`, day
`2024-03-01`. -/
def rowAcmeUS : Row :=
  { accountId := .str [], accountName := .str "Acme".toList
    region := .str "US".toList, day := .str "2024-03-01".toList
    currency := .str "USD".toList, amount := .num (.fin 3)
    start := .str "2024-03-01".toList, stop := .str "2024-03-01".toList }

/-- A raw record whose account id carries the prefix twice, `act_act_1`,
under the name `Other`. -/
def recTwice : Record :=
  { account_id := .str "act_act_1".toList, account_name := .str "Other".toList
    account_currency := .str "USD".toList, spend := .num (.fin 7)
    date_start := .str "2024-03-01".toList, date_stop := .str "2024-03-01".toList
    region := .str "US".toList }

/-- The fact the normalizer builds from `recTwice` on the small host, as a
literal: one prefix is left in the account id and in the key. -/
def factTwice : Fact :=
  { key := "act_1|US|2024-03-01".toList
    spend := .fin 7
    values :=
      { accountId := .str "act_1".toList, accountName := .str "Other".toList
        region := .str "US".toList, day := .str "2024-03-01".toList
        currency := .str "USD".toList, amount := .num (.fin 7)
        start := .str "2024-03-01".toList, stop := .str "2024-03-01".toList } }

/-! ## Notions used to state the properties of the fetch layer -/

/-- The response to request number `i` (from `0`) of a call that keeps
requesting `url`, the service being in state `s` at the start. -/
def responseAt {σ : Type} (W : Web σ) (url : Str) : Nat → σ → Response
  | 0, s => (W.fetch s url).1
  | i + 1, s => responseAt W url i (W.fetch s url).2

/-- The state of the service after `i` requests of `url` from state `s`. -/
def stateAfter {σ : Type} (W : Web σ) (url : Str) : Nat → σ → σ
  | 0, s => s
  | i + 1, s => stateAfter W url i (W.fetch s url).2

/-- The effects before any call. -/
def fresh {σ : Type} (s : σ) : Effects σ := { state := s, requests := [], sleeps := [] }

/-- A response with the given status, an empty text and no parsed body. -/
def statusOnly (code : Nat) : Response := { code := code, text := [], body := none }

/-- A response with status `400` whose JSON body carries the error code `17`. -/
def rateLimited : Response :=
  { code := 400, text := "rate".toList
    body := some { errorCode := .num (.fin 17), data := none, next := none } }

/-- A response with status `401` and a body that is not JSON. -/
def denied : Response := { code := 401, text := "denied".toList, body := none }

/-- The pages of one account on a service without state: from `url` on, every
page answers with status 200 and a body that parses, each page but the last
carries `paging.next`, the URL of the page after it, and the last carries
none.  The list holds the URL and the body of each page, in order. -/
inductive Chain (api : Str → Response) : Str → List (Str × Body) → Prop where
  | stop : Chain api [] []
  | page (url : Str) (b : Body) (rest : List (Str × Body)) (hurl : url ≠ [])
      (hcode : (api url).code = 200) (hbody : (api url).body = some b)
      (hrest : Chain api (nextUrl b) rest) : Chain api url ((url, b) :: rest)

/-- A record reduced to its account id, for the runs below. -/
def recOf (id : Str) : Record :=
  { account_id := .str id, account_name := .undefined, account_currency := .undefined
    spend := .undefined, date_start := .undefined, date_stop := .undefined
    region := .undefined }

/-- A page response with status 200, the given records and the given next
link. -/
def pageOf (data : Option (List Record)) (next : Option Str) : Response :=
  { code := 200, text := [], body := some { errorCode := .undefined, data := data, next := next } }

/-- A small service: account `a` has the pages `a1` (one record), `a2` (no
`data`) and `a3` (two records); account `b` has the page `b1` (empty `data`). -/
def sampleApi (url : Str) : Response :=
  if url = "a1".toList then pageOf (some [recOf "r1".toList]) (some "a2".toList)
  else if url = "a2".toList then pageOf none (some "a3".toList)
  else if url = "a3".toList then pageOf (some [recOf "r2".toList, recOf "r3".toList]) none
  else if url = "b1".toList then pageOf (some []) none
  else statusOnly 404

/-- The first URL of an account on the small service. -/
def sampleUrl (acct : Str) : Str := acct ++ ['1']

/-- The pages of an account of the small service. -/
def samplePages (acct : Str) : List (Str × Body) :=
  if acct = "a".toList then
    [("a1".toList, ⟨.undefined, some [recOf "r1".toList], some "a2".toList⟩),
     ("a2".toList, ⟨.undefined, none, some "a3".toList⟩),
     ("a3".toList, ⟨.undefined, some [recOf "r2".toList, recOf "r3".toList], none⟩)]
  else [("b1".toList, ⟨.undefined, some [], none⟩)]

/-- The distinct entries of a list of keys, in the order of their first
occurrence. -/
def firstKeys : List Str → List Str
  | [] => []
  | k :: ks => k :: (firstKeys ks).filter (fun x => decide (x ≠ k))

/-- Two properties of the maps that hold all along a run: no row number is
held by `byName` under two keys, and no row number is held by both maps. -/
structure NameInv (st : LoopState) : Prop where
  inj : ∀ k k' n, JSMap.get st.byName k = some n → JSMap.get st.byName k' = some n → k = k'
  disj : ∀ k k' n, JSMap.get st.byId k = some n → JSMap.get st.byName k' ≠ some n

/-- Row `n` has been promoted under the identifier key `kf`: `byName` no
longer holds it, and `byId` holds it under `kf` only. -/
structure Retired (n : Nat) (kf : Str) (st : LoopState) : Prop where
  noName : ∀ k, JSMap.get st.byName k ≠ some n
  onlyId : ∀ k, JSMap.get st.byId k = some n → k = kf

/-- A stored row for account `43`, name `Acme`, region `CA`, day
`2024-01-01`. -/
def row43 : Row :=
  { accountId := .str "43".toList, accountName := .str "Acme".toList
    region := .str "CA".toList, day := .str "2024-01-01".toList
    currency := .str "USD".toList, amount := .num (.fin 4)
    start := .str "2024-01-01".toList, stop := .str "2024-01-01".toList }

/-- The fact the normalizer builds for account `act_43`, name `Acme`, region
`CA`, day `2024-01-01` on the small host, as a literal, with the given
spend. -/
def fact43 (spend : ℚ) : Fact :=
  { key := "43|CA|2024-01-01".toList
    spend := .fin spend
    values := { row43 with amount := .num (.fin spend) } }

/-! ## Maps: lookup after update -/

theorem JSMap.get_set {V : Type} (m : JSMap V) (k k' : Str) (v : V) :
    JSMap.get (JSMap.set m k v) k' = if k = k' then some v else JSMap.get m k' := by
  induction m with
  | nil => simp [JSMap.set, JSMap.get]
  | cons a rest ih =>
    obtain ⟨k0, v0⟩ := a
    by_cases h : k0 = k
    · subst h
      by_cases h' : k0 = k' <;> simp [JSMap.set, JSMap.get, h']
    · by_cases h' : k0 = k'
      · subst h'
        have : ¬ k = k0 := fun e => h e.symm
        simp [JSMap.set, JSMap.get, h, this]
      · simp [JSMap.set, JSMap.get, h, h', ih]

theorem JSMap.get_delete {V : Type} (m : JSMap V) (k k' : Str) :
    JSMap.get (JSMap.delete m k) k' = if k = k' then none else JSMap.get m k' := by
  induction m with
  | nil => simp [JSMap.delete, JSMap.get]
  | cons a rest ih =>
    obtain ⟨k0, v0⟩ := a
    by_cases h : k0 = k
    · subst h
      by_cases h' : k0 = k'
      · subst h'
        simpa [JSMap.delete] using ih
      · simp [JSMap.delete, JSMap.get, h', ih]
    · by_cases h' : k0 = k'
      · subst h'
        have : ¬ k = k0 := fun e => h e.symm
        simp [JSMap.delete, JSMap.get, h, this]
      · simp [JSMap.delete, JSMap.get, h, h', ih]

@[simp] theorem JSMap.keys_nil {V : Type} : JSMap.keys ([] : JSMap V) = [] := rfl

@[simp] theorem JSMap.keys_cons {V : Type} (a : Str × V) (m : JSMap V) :
    JSMap.keys (a :: m) = a.1 :: JSMap.keys m := rfl

theorem JSMap.keys_set {V : Type} (m : JSMap V) (k : Str) (v : V) :
    JSMap.keys (JSMap.set m k v) = if k ∈ JSMap.keys m then JSMap.keys m else JSMap.keys m ++ [k] := by
  induction m with
  | nil => rfl
  | cons a rest ih =>
    obtain ⟨k0, v0⟩ := a
    by_cases h : k0 = k
    · subst h
      simp only [JSMap.set, if_true, JSMap.keys_cons, List.mem_cons, true_or]
    · have h2 : ¬ k = k0 := fun e => h e.symm
      simp only [JSMap.set, if_neg h, JSMap.keys_cons, List.mem_cons, h2, false_or, ih]
      by_cases hm : k ∈ JSMap.keys rest
      · simp only [if_pos hm]
      · simp only [if_neg hm, List.cons_append]

theorem JSMap.get_eq_none {V : Type} (m : JSMap V) (k : Str) :
    JSMap.get m k = none ↔ k ∉ JSMap.keys m := by
  induction m with
  | nil => simp [JSMap.get]
  | cons a rest ih =>
    obtain ⟨k0, v0⟩ := a
    by_cases h : k0 = k
    · simp [JSMap.get, h]
    · have h2 : ¬ k = k0 := fun e => h e.symm
      simp [JSMap.get, h, h2, ih]

theorem JSMap.get_of_mem {V : Type} (m : JSMap V) (hn : (JSMap.keys m).Nodup) (k : Str) (v : V)
    (h : (k, v) ∈ m) : JSMap.get m k = some v := by
  induction m with
  | nil => simp at h
  | cons a rest ih =>
    obtain ⟨k0, v0⟩ := a
    simp only [JSMap.keys_cons, List.nodup_cons] at hn
    rcases List.mem_cons.mp h with h | h
    · cases h
      simp [JSMap.get]
    · have : k0 ≠ k := by
        intro e
        subst e
        exact hn.1 (List.mem_map_of_mem Prod.fst h)
      simp [JSMap.get, this, ih hn.2 h]

theorem JSMap.mem_of_get {V : Type} (m : JSMap V) (k : Str) (v : V)
    (h : JSMap.get m k = some v) : (k, v) ∈ m := by
  induction m with
  | nil => simp [JSMap.get] at h
  | cons a rest ih =>
    obtain ⟨k0, v0⟩ := a
    by_cases e : k0 = k
    · subst e
      simp [JSMap.get] at h
      simp [h]
    · simp [JSMap.get, e] at h
      exact List.mem_cons_of_mem _ (ih h)

theorem JSMap.ext_of_keys {V : Type} (m m' : JSMap V) (hk : JSMap.keys m = JSMap.keys m')
    (hn : (JSMap.keys m).Nodup) (hg : ∀ k, JSMap.get m k = JSMap.get m' k) : m = m' := by
  induction m generalizing m' with
  | nil =>
    cases m' with
    | nil => rfl
    | cons b rest' => simp at hk
  | cons a rest ih =>
    cases m' with
    | nil => simp at hk
    | cons b rest' =>
      obtain ⟨k0, v0⟩ := a
      obtain ⟨k1, v1⟩ := b
      simp only [JSMap.keys_cons, List.cons.injEq] at hk
      obtain ⟨e, hk'⟩ := hk
      subst e
      simp only [JSMap.keys_cons, List.nodup_cons] at hn
      have hv : v0 = v1 := by
        have := hg k0
        simpa [JSMap.get] using this
      subst hv
      have hrest : rest = rest' := by
        apply ih rest' hk' hn.2
        intro k
        by_cases e : k0 = k
        · subst e
          have h1 : JSMap.get rest k0 = none := (JSMap.get_eq_none rest k0).2 hn.1
          have h2 : JSMap.get rest' k0 = none :=
            (JSMap.get_eq_none rest' k0).2 (hk' ▸ hn.1)
          rw [h1, h2]
        · have := hg k
          simpa [JSMap.get, e] using this
      rw [hrest]

theorem JSMap.keys_set_nodup {V : Type} (m : JSMap V) (k : Str) (v : V)
    (hn : (JSMap.keys m).Nodup) : (JSMap.keys (JSMap.set m k v)).Nodup := by
  rw [JSMap.keys_set]
  by_cases h : k ∈ JSMap.keys m
  · simpa [h] using hn
  · simp only [h, if_false]
    exact List.Nodup.append hn (List.nodup_singleton k) (by simpa using h)

/-! ## The deduplicator -/

theorem seenAfter_cons (seen : JSMap Fact) (f : Fact) (fs : List Fact) :
    seenAfter seen (f :: fs) = seenAfter (JSMap.set seen f.key f) fs := rfl

theorem dedupeIncoming_eq (rows : List Fact) :
    dedupeIncoming rows = JSMap.values (seenAfter [] rows) := rfl

theorem seenAfter_get (rows : List Fact) (seen : JSMap Fact) (k : Str) :
    JSMap.get (seenAfter seen rows) k =
      match lastWithKey rows k with
      | some g => some g
      | none => JSMap.get seen k := by
  induction rows generalizing seen with
  | nil => rfl
  | cons f fs ih =>
    rw [seenAfter_cons, ih, JSMap.get_set]
    simp only [lastWithKey]
    cases h : lastWithKey fs k with
    | some g => rfl
    | none =>
      by_cases e : f.key = k <;> simp [e]

theorem seenAfter_keys_nodup (rows : List Fact) (seen : JSMap Fact)
    (hn : (JSMap.keys seen).Nodup) : (JSMap.keys (seenAfter seen rows)).Nodup := by
  induction rows generalizing seen with
  | nil => exact hn
  | cons f fs ih =>
    rw [seenAfter_cons]
    exact ih _ (JSMap.keys_set_nodup seen f.key f hn)

theorem seenAfter_mem_keys (rows : List Fact) (seen : JSMap Fact) (k : Str) :
    k ∈ JSMap.keys (seenAfter seen rows) ↔ k ∈ JSMap.keys seen ∨ k ∈ rows.map Fact.key := by
  induction rows generalizing seen with
  | nil => simp [seenAfter]
  | cons f fs ih =>
    rw [seenAfter_cons, ih, JSMap.keys_set]
    by_cases h : f.key ∈ JSMap.keys seen
    · simp only [if_pos h, List.map_cons, List.mem_cons]
      constructor
      · rintro (h1 | h1)
        · exact Or.inl h1
        · exact Or.inr (Or.inr h1)
      · rintro (h1 | h1 | h1)
        · exact Or.inl h1
        · exact Or.inl (h1 ▸ h)
        · exact Or.inr h1
    · simp only [if_neg h, List.mem_append, List.mem_singleton, List.map_cons, List.mem_cons]
      tauto

theorem seenAfter_entry_key (rows : List Fact) (seen : JSMap Fact)
    (hs : ∀ e ∈ seen, e.2.key = e.1) : ∀ e ∈ seenAfter seen rows, e.2.key = e.1 := by
  induction rows generalizing seen with
  | nil => exact hs
  | cons f fs ih =>
    rw [seenAfter_cons]
    apply ih
    intro e he
    have hg : JSMap.get (JSMap.set seen f.key f) e.1 = some e.2 ∨ e ∈ seen := by
      clear ih
      induction seen with
      | nil =>
        simp only [JSMap.set, List.mem_singleton] at he
        subst he
        left
        simp [JSMap.get]
      | cons a rest ih2 =>
        obtain ⟨k0, v0⟩ := a
        by_cases e0 : k0 = f.key
        · simp only [JSMap.set, if_pos e0, List.mem_cons] at he
          rcases he with he | he
          · subst he
            left
            simp [JSMap.get, JSMap.set, e0]
          · right
            exact List.mem_cons_of_mem _ he
        · simp only [JSMap.set, if_neg e0, List.mem_cons] at he
          rcases he with he | he
          · right
            subst he
            exact List.mem_cons_self _ _
          · rcases ih2 (fun x hx => hs x (List.mem_cons_of_mem _ hx)) he with h3 | h3
            · by_cases e1 : k0 = e.1
              · right
                rw [JSMap.get_set] at h3
                by_cases e2 : f.key = e.1
                · exact absurd (e1.trans e2.symm) e0
                · rw [if_neg e2] at h3
                  exact List.mem_cons_of_mem _ (JSMap.mem_of_get rest e.1 e.2 h3)
              · left
                rw [JSMap.get_set] at h3 ⊢
                by_cases e2 : f.key = e.1
                · rw [if_pos e2] at h3 ⊢
                  exact h3
                · rw [if_neg e2] at h3 ⊢
                  simp [JSMap.get, e1, h3]
            · right
              exact List.mem_cons_of_mem _ h3
    rcases hg with hg | hg
    · rw [JSMap.get_set] at hg
      by_cases e2 : f.key = e.1
      · rw [if_pos e2] at hg
        cases hg
        exact e2
      · rw [if_neg e2] at hg
        exact hs e (JSMap.mem_of_get seen e.1 e.2 hg)
    · exact hs e hg

theorem lastWithKey_none (rows : List Fact) (k : Str) :
    lastWithKey rows k = none ↔ ∀ g ∈ rows, g.key ≠ k := by
  induction rows with
  | nil => simp [lastWithKey]
  | cons a fs ih =>
    simp only [lastWithKey, List.mem_cons, forall_eq_or_imp]
    cases h2 : lastWithKey fs k with
    | some g =>
      constructor
      · intro h
        cases h
      · rintro ⟨_, hall⟩
        rw [ih.2 hall] at h2
        cases h2
    | none =>
      by_cases e : a.key = k
      · simp [e]
      · simp only [if_neg e, true_iff]
        exact ⟨e, ih.1 h2⟩

theorem lastWithKey_some (rows : List Fact) (k : Str) (f : Fact)
    (h : lastWithKey rows k = some f) :
    f.key = k ∧ ∃ pre post, rows = pre ++ f :: post ∧ ∀ g ∈ post, g.key ≠ k := by
  induction rows with
  | nil => simp [lastWithKey] at h
  | cons a fs ih =>
    simp only [lastWithKey] at h
    cases h2 : lastWithKey fs k with
    | some g =>
      rw [h2] at h
      cases h
      obtain ⟨hk, pre, post, he, hp⟩ := ih h2
      exact ⟨hk, a :: pre, post, by rw [he]; rfl, hp⟩
    | none =>
      rw [h2] at h
      by_cases e : a.key = k
      · simp only [if_pos e] at h
        cases h
        exact ⟨e, [], fs, rfl, (lastWithKey_none fs k).1 h2⟩
      · simp [e] at h

theorem lastWithKey_append_cons (pre post : List Fact) (f : Fact)
    (hp : ∀ g ∈ post, g.key ≠ f.key) : lastWithKey (pre ++ f :: post) f.key = some f := by
  induction pre with
  | nil =>
    simp only [List.nil_append, lastWithKey, (lastWithKey_none post f.key).2 hp, if_true]
  | cons a pre ih =>
    show lastWithKey (a :: (pre ++ f :: post)) f.key = some f
    simp only [lastWithKey, ih]

theorem seenAfter_keys (rows : List Fact) (seen : JSMap Fact) :
    JSMap.keys (seenAfter seen rows) =
      (rows.map Fact.key).foldl (fun ks k => if k ∈ ks then ks else ks ++ [k])
        (JSMap.keys seen) := by
  induction rows generalizing seen with
  | nil => rfl
  | cons f fs ih =>
    rw [seenAfter_cons, ih, JSMap.keys_set]
    rfl

theorem values_map_key (m : JSMap Fact) (hm : ∀ e ∈ m, e.2.key = e.1) :
    (JSMap.values m).map Fact.key = JSMap.keys m := by
  induction m with
  | nil => rfl
  | cons a rest ih =>
    have h1 := hm a (List.mem_cons_self _ _)
    have h2 := ih (fun e he => hm e (List.mem_cons_of_mem _ he))
    simp only [JSMap.values, List.map_cons, JSMap.keys_cons] at h2 ⊢
    rw [h1]
    exact congrArg _ h2

theorem dedupeIncoming_keys (rows : List Fact) :
    (dedupeIncoming rows).map Fact.key = JSMap.keys (seenAfter [] rows) :=
  values_map_key _ (seenAfter_entry_key rows [] (by intro e he; cases he))

theorem dedupeIncoming_mem (rows : List Fact) (f : Fact) :
    f ∈ dedupeIncoming rows ↔ lastWithKey rows f.key = some f := by
  have hn : (JSMap.keys (seenAfter [] rows)).Nodup :=
    seenAfter_keys_nodup rows [] List.nodup_nil
  have hk := seenAfter_entry_key rows [] (by intro e he; cases he)
  have hget := seenAfter_get rows [] f.key
  constructor
  · intro hf
    rw [dedupeIncoming_eq] at hf
    obtain ⟨e, he, hef⟩ := List.mem_map.mp hf
    have h1 := hk e he
    have h2 := JSMap.get_of_mem _ hn e.1 e.2 he
    rw [hef] at h1 h2
    rw [← h1] at h2
    rw [h2] at hget
    cases h3 : lastWithKey rows f.key with
    | some g =>
      rw [h3] at hget
      exact hget.symm
    | none =>
      rw [h3] at hget
      simp [JSMap.get] at hget
  · intro hl
    rw [hl] at hget
    rw [dedupeIncoming_eq]
    exact List.mem_map.mpr ⟨(f.key, f), JSMap.mem_of_get _ _ _ hget, rfl⟩

theorem dedupeIncoming_congr (rows rows' : List Fact)
    (hk : rows.map Fact.key = rows'.map Fact.key)
    (hl : ∀ k, lastWithKey rows k = lastWithKey rows' k) :
    dedupeIncoming rows = dedupeIncoming rows' := by
  rw [dedupeIncoming_eq, dedupeIncoming_eq]
  congr 1
  apply JSMap.ext_of_keys
  · rw [seenAfter_keys, seenAfter_keys, hk]
  · exact seenAfter_keys_nodup rows [] List.nodup_nil
  · intro k
    rw [seenAfter_get, seenAfter_get, hl]

theorem lastWithKey_append (xs ys : List Fact) (k : Str) :
    lastWithKey (xs ++ ys) k =
      match lastWithKey ys k with
      | some g => some g
      | none => lastWithKey xs k := by
  induction xs with
  | nil =>
    rw [List.nil_append]
    cases h : lastWithKey ys k with
    | some g => rfl
    | none => rfl
  | cons a xs ih =>
    show lastWithKey (a :: (xs ++ ys)) k = _
    simp only [lastWithKey, ih]
    cases h : lastWithKey ys k with
    | some g => rfl
    | none => rfl

theorem dedupeIncoming_shadowed (pre mid post : List Fact) (e e' l : Fact)
    (hk : e.key = l.key) (hk' : e'.key = e.key) :
    dedupeIncoming (pre ++ e' :: (mid ++ l :: post)) =
      dedupeIncoming (pre ++ e :: (mid ++ l :: post)) := by
  apply dedupeIncoming_congr
  · simp [hk']
  · intro k
    rw [lastWithKey_append, lastWithKey_append]
    simp only [lastWithKey]
    cases h : lastWithKey (mid ++ l :: post) k with
    | some g => rfl
    | none =>
      have hl : l.key ≠ k := by
        have := (lastWithKey_none _ k).1 h l (by simp)
        exact this
      have h1 : ¬ e.key = k := by rw [hk]; exact hl
      have h2 : ¬ e'.key = k := by rw [hk', hk]; exact hl
      simp [h1, h2]

/-! ## The indexing loop -/

theorem indexRow_eq (P : Platform) (st : LoopState) (r : Row) (n : Nat) :
    indexRow P st r n =
      match rowIdKey P r with
      | some k => { st with byId := JSMap.set st.byId k n }
      | none =>
        match rowNameKey P r with
        | some k => { st with byName := JSMap.set st.byName k n }
        | none => st := by
  unfold indexRow rowIdKey rowNameKey idKeyOf nameKeyOf
  by_cases hd : (toDayISO P r.day).isEmpty = true
  · simp [hd]
  · by_cases hi : (normalizeAccountId P r.accountId).isEmpty = true
    · by_cases hn : (trim (toStr P (r.accountName.or (.str [])))).isEmpty = true
      · simp [hd, hi, hn]
      · by_cases hr : (trim (toStr P (r.region.or (.str [])))).isEmpty = true
        · simp [hd, hi, hn, hr]
        · simp [hd, hi, hn, hr]
    · simp [hd, hi]

theorem rowIdKey_some_nameKey_none (P : Platform) (r : Row) (k : Str)
    (h : rowIdKey P r = some k) : rowNameKey P r = none := by
  unfold rowIdKey at h
  unfold rowNameKey
  by_cases hd : (toDayISO P r.day).isEmpty = true
  · simp [hd]
  · by_cases hi : (normalizeAccountId P r.accountId).isEmpty = true
    · simp [hd, hi] at h
    · simp [hd, hi]

theorem rowNameKey_some_idKey_none (P : Platform) (r : Row) (k : Str)
    (h : rowNameKey P r = some k) : rowIdKey P r = none := by
  cases h2 : rowIdKey P r with
  | none => rfl
  | some k2 =>
    rw [rowIdKey_some_nameKey_none P r k2 h2] at h
    cases h

theorem lastIdx_none (k : Str) (ks : List (Option Str)) :
    lastIdx k ks = none ↔ ∀ x ∈ ks, x ≠ some k := by
  induction ks with
  | nil => simp [lastIdx]
  | cons x xs ih =>
    simp only [lastIdx, List.mem_cons, forall_eq_or_imp]
    cases h : lastIdx k xs with
    | some j =>
      constructor
      · intro h2
        cases h2
      · rintro ⟨_, hall⟩
        rw [ih.2 hall] at h
        cases h
    | none =>
      by_cases e : x = some k
      · simp [e]
      · simp only [if_neg e, true_iff]
        exact ⟨e, ih.1 h⟩

theorem lastIdx_some (k : Str) (ks : List (Option Str)) (j : Nat) :
    lastIdx k ks = some j ↔
      ks[j]? = some (some k) ∧ ∀ j', j < j' → ks[j']? ≠ some (some k) := by
  induction ks generalizing j with
  | nil => simp [lastIdx]
  | cons x xs ih =>
    simp only [lastIdx]
    cases h : lastIdx k xs with
    | some i =>
      have hi := (ih i).1 h
      constructor
      · intro e
        cases e
        refine ⟨by simpa using hi.1, ?_⟩
        intro j' hj'
        cases j' with
        | zero => omega
        | succ j'' =>
          simpa using hi.2 j'' (by omega)
      · rintro ⟨h1, h2⟩
        cases j with
        | zero =>
          exact absurd (by simpa using hi.1) (h2 (i + 1) (by omega))
        | succ j0 =>
          have := (ih j0).2 ⟨by simpa using h1, fun j' hj' => by simpa using h2 (j' + 1) (by omega)⟩
          rw [h] at this
          cases this
          rfl
    | none =>
      have hn := (lastIdx_none k xs).1 h
      by_cases e : x = some k
      · simp only [if_pos e]
        constructor
        · intro e2
          cases e2
          refine ⟨by simp [e], ?_⟩
          intro j' hj' hc
          cases j' with
          | zero => omega
          | succ j'' =>
            simp only [List.getElem?_cons_succ] at hc
            exact hn _ (List.getElem?_mem hc) rfl
        · rintro ⟨h1, _⟩
          cases j with
          | zero => rfl
          | succ j0 =>
            simp only [List.getElem?_cons_succ] at h1
            exact absurd rfl (hn _ (List.getElem?_mem h1))
      · simp only [if_neg e]
        constructor
        · intro e2
          cases e2
        · rintro ⟨h1, _⟩
          cases j with
          | zero =>
            simp at h1
            exact absurd h1 e
          | succ j0 =>
            simp only [List.getElem?_cons_succ] at h1
            exact absurd rfl (hn _ (List.getElem?_mem h1))

theorem indexLoop_queues (P : Platform) (data : List Row) (i : Nat) (st : LoopState) :
    (indexLoop P data i st).toAppend = st.toAppend ∧
    (indexLoop P data i st).toUpdate = st.toUpdate := by
  induction data generalizing i st with
  | nil => exact ⟨rfl, rfl⟩
  | cons r rs ih =>
    simp only [indexLoop]
    rw [(ih (i + 1) _).1, (ih (i + 1) _).2, indexRow_eq]
    cases rowIdKey P r with
    | some k => exact ⟨rfl, rfl⟩
    | none =>
      cases rowNameKey P r with
      | some k => exact ⟨rfl, rfl⟩
      | none => exact ⟨rfl, rfl⟩

theorem indexLoop_byId (P : Platform) (data : List Row) (i : Nat) (st : LoopState) (k : Str) :
    JSMap.get (indexLoop P data i st).byId k =
      match lastIdx k (data.map (rowIdKey P)) with
      | some j => some (i + j + 2)
      | none => JSMap.get st.byId k := by
  induction data generalizing i st with
  | nil => rfl
  | cons r rs ih =>
    simp only [indexLoop, List.map_cons, lastIdx]
    rw [ih]
    cases h : lastIdx k (rs.map (rowIdKey P)) with
    | some j =>
      simp only
      congr 1
      omega
    | none =>
      simp only
      rw [indexRow_eq]
      cases h2 : rowIdKey P r with
      | some k2 =>
        simp only [JSMap.get_set]
        by_cases e : k2 = k
        · simp [e]
        · have : ¬ (some k2 = some k) := fun h => e (Option.some.inj h)
          simp [e, this]
      | none =>
        simp only [reduceCtorEq, if_false]
        cases rowNameKey P r with
        | some k3 => rfl
        | none => rfl

theorem indexLoop_byName (P : Platform) (data : List Row) (i : Nat) (st : LoopState) (k : Str) :
    JSMap.get (indexLoop P data i st).byName k =
      match lastIdx k (data.map (rowNameKey P)) with
      | some j => some (i + j + 2)
      | none => JSMap.get st.byName k := by
  induction data generalizing i st with
  | nil => rfl
  | cons r rs ih =>
    simp only [indexLoop, List.map_cons, lastIdx]
    rw [ih]
    cases h : lastIdx k (rs.map (rowNameKey P)) with
    | some j =>
      simp only
      congr 1
      omega
    | none =>
      simp only
      rw [indexRow_eq]
      cases h2 : rowIdKey P r with
      | some k2 =>
        rw [rowIdKey_some_nameKey_none P r k2 h2]
        simp
      | none =>
        cases h3 : rowNameKey P r with
        | some k3 =>
          simp only [JSMap.get_set]
          by_cases e : k3 = k
          · simp [e]
          · have : ¬ (some k3 = some k) := fun h => e (Option.some.inj h)
            simp [e, this]
        | none => simp

/-! ## Writing rows -/

theorem ensureSheetHeader_header (P : Platform) (data : List Row) :
    ensureSheetHeader P (HEADER :: data) = HEADER :: data := by
  simp [ensureSheetHeader, getLastRow, writeRow, HEADER, toStr]

theorem ensureSheetHeader_cons (P : Platform) (sh : Sheet) :
    ∃ data, ensureSheetHeader P sh = HEADER :: data := by
  cases sh with
  | nil => exact ⟨[], by simp [ensureSheetHeader, getLastRow, writeRow]⟩
  | cons first rest =>
    by_cases h : toStr P first.accountId = "Account ID".toList
    · refine ⟨rest, ?_⟩
      unfold ensureSheetHeader
      simp only [getLastRow, List.length_cons]
      rw [if_neg (by omega)]
      simp only [ne_eq, h, not_true_eq_false, if_false]
      simp [writeRow]
    · refine ⟨rest.map shiftRight, ?_⟩
      unfold ensureSheetHeader
      simp only [getLastRow, List.length_cons]
      rw [if_neg (by omega)]
      simp only [ne_eq, h, not_false_eq_true, if_true]
      simp [writeRow]

theorem buildIndex_header (P : Platform) (data : List Row) :
    buildIndex P (HEADER :: data) = indexLoop P data 0 emptyState := by
  cases data with
  | nil => simp [buildIndex, getLastRow, indexLoop, emptyState]
  | cons r rs => simp [buildIndex, getLastRow, emptyState]

theorem writeRow_data (data : List Row) (j : Nat) (v : Row) (hj : j < data.length) :
    writeRow (HEADER :: data) (j + 2) v = HEADER :: data.set j v := by
  have h1 : j + 2 ≤ (HEADER :: data).length := by simp; omega
  simp only [writeRow, h1, if_true]
  simp

theorem applyData_append (data : List Row) (us : List (Nat × Row)) (u : Nat × Row) :
    applyData data (us ++ [u]) = (applyData data us).set (u.1 - 2) u.2 := by
  simp [applyData, List.foldl_append]

theorem applyData_length (data : List Row) (us : List (Nat × Row)) :
    (applyData data us).length = data.length := by
  induction us generalizing data with
  | nil => rfl
  | cons u us ih =>
    simp only [applyData, List.foldl_cons] at ih ⊢
    rw [ih]
    simp

theorem applyUpdates_data (data : List Row) (us : List (Nat × Row))
    (hb : ∀ u ∈ us, 2 ≤ u.1 ∧ u.1 ≤ data.length + 1) :
    applyUpdates (HEADER :: data) us = HEADER :: applyData data us := by
  induction us generalizing data with
  | nil => rfl
  | cons u us ih =>
    have hu := hb u (List.mem_cons_self _ _)
    obtain ⟨j, hj⟩ : ∃ j, u.1 = j + 2 := ⟨u.1 - 2, by omega⟩
    simp only [applyUpdates, applyData, List.foldl_cons] at ih ⊢
    rw [hj, writeRow_data data j u.2 (by omega)]
    have := ih (data.set j u.2) (by
      intro u' hu'
      simpa using hb u' (List.mem_cons_of_mem _ hu'))
    simpa using this

theorem applyAppends_eq (sh : Sheet) (rows : List Row) : applyAppends sh rows = sh ++ rows := by
  cases rows with
  | nil => simp [applyAppends]
  | cons r rs => simp [applyAppends]

/-! ## The classification step, branch by branch -/

theorem classifyStep_dropped (P : Platform) (st : LoopState) (f : Fact)
    (h : dropped f = true) : classifyStep P st f = st := by
  simp [classifyStep, h]

theorem classifyStep_update (P : Platform) (st : LoopState) (f : Fact) (n : Nat)
    (hd : dropped f = false) (hg : JSMap.get st.byId (idKeyOf P f.values) = some n)
    (hn : n ≠ 0) :
    classifyStep P st f = { st with toUpdate := st.toUpdate ++ [(n, f.values)] } := by
  simp [classifyStep, hd, hg, rowTruthy, hn]

theorem classifyStep_promote (P : Platform) (st : LoopState) (f : Fact) (n : Nat)
    (hd : dropped f = false) (hg : rowTruthy (JSMap.get st.byId (idKeyOf P f.values)) = false)
    (hm : JSMap.get st.byName (nameKeyOf P f.values) = some n) (hn : n ≠ 0) :
    classifyStep P st f =
      { byId := JSMap.set st.byId (idKeyOf P f.values) n
        byName := JSMap.delete st.byName (nameKeyOf P f.values)
        toAppend := st.toAppend
        toUpdate := st.toUpdate ++ [(n, promoteWrite P f.values)] } := by
  have h2 : rowTruthy (some n) = true := by simp [rowTruthy, hn]
  simp only [classifyStep, hd, hg, hm, h2]
  simp [hn]

theorem classifyStep_append (P : Platform) (st : LoopState) (f : Fact)
    (hd : dropped f = false) (hg : rowTruthy (JSMap.get st.byId (idKeyOf P f.values)) = false)
    (hm : rowTruthy (JSMap.get st.byName (nameKeyOf P f.values)) = false) :
    classifyStep P st f = { st with toAppend := st.toAppend ++ [f.values] } := by
  simp only [classifyStep, hd, hg, hm]
  simp

theorem classify_cons (P : Platform) (st : LoopState) (f : Fact) (fs : List Fact) :
    classify P st (f :: fs) = classify P (classifyStep P st f) fs := rfl

theorem classify_append (P : Platform) (st : LoopState) (fs gs : List Fact) :
    classify P st (fs ++ gs) = classify P (classify P st fs) gs := by
  simp [classify, List.foldl_append]

/-- The four possible outcomes of one classification step. -/
theorem classifyStep_cases (P : Platform) (st : LoopState) (f : Fact) :
    (dropped f = true ∧ classifyStep P st f = st) ∨
    (dropped f = false ∧ ∃ n, n ≠ 0 ∧ JSMap.get st.byId (idKeyOf P f.values) = some n ∧
      classifyStep P st f = { st with toUpdate := st.toUpdate ++ [(n, f.values)] }) ∨
    (dropped f = false ∧ rowTruthy (JSMap.get st.byId (idKeyOf P f.values)) = false ∧
      ∃ n, n ≠ 0 ∧ JSMap.get st.byName (nameKeyOf P f.values) = some n ∧
      classifyStep P st f =
        { byId := JSMap.set st.byId (idKeyOf P f.values) n
          byName := JSMap.delete st.byName (nameKeyOf P f.values)
          toAppend := st.toAppend
          toUpdate := st.toUpdate ++ [(n, promoteWrite P f.values)] }) ∨
    (dropped f = false ∧ rowTruthy (JSMap.get st.byId (idKeyOf P f.values)) = false ∧
      rowTruthy (JSMap.get st.byName (nameKeyOf P f.values)) = false ∧
      classifyStep P st f = { st with toAppend := st.toAppend ++ [f.values] }) := by
  by_cases hd : dropped f = true
  · exact Or.inl ⟨hd, classifyStep_dropped P st f hd⟩
  · have hd' : dropped f = false := by simpa using hd
    right
    cases hg : JSMap.get st.byId (idKeyOf P f.values) with
    | some n =>
      by_cases hn : n = 0
      · subst hn
        have hg' : rowTruthy (JSMap.get st.byId (idKeyOf P f.values)) = false := by
          simp [hg, rowTruthy]
        rw [← hg]
        right
        cases hm : JSMap.get st.byName (nameKeyOf P f.values) with
        | some m =>
          by_cases hm0 : m = 0
          · right
            have hm' : rowTruthy (JSMap.get st.byName (nameKeyOf P f.values)) = false := by
              simp [hm, rowTruthy, hm0]
            rw [← hm]
            exact ⟨hd', hg', hm', classifyStep_append P st f hd' hg' hm'⟩
          · left
            exact ⟨hd', hg', m, hm0, rfl, classifyStep_promote P st f m hd' hg' hm hm0⟩
        | none =>
          right
          have hm' : rowTruthy (JSMap.get st.byName (nameKeyOf P f.values)) = false := by
            simp [hm, rowTruthy]
          rw [← hm]
          exact ⟨hd', hg', hm', classifyStep_append P st f hd' hg' hm'⟩
      · left
        exact ⟨hd', n, hn, rfl, classifyStep_update P st f n hd' hg hn⟩
    | none =>
      have hg' : rowTruthy (JSMap.get st.byId (idKeyOf P f.values)) = false := by
        simp [hg, rowTruthy]
      rw [← hg]
      right
      cases hm : JSMap.get st.byName (nameKeyOf P f.values) with
      | some m =>
        by_cases hm0 : m = 0
        · right
          have hm' : rowTruthy (JSMap.get st.byName (nameKeyOf P f.values)) = false := by
            simp [hm, rowTruthy, hm0]
          rw [← hm]
          exact ⟨hd', hg', hm', classifyStep_append P st f hd' hg' hm'⟩
        · left
          exact ⟨hd', hg', m, hm0, rfl, classifyStep_promote P st f m hd' hg' hm hm0⟩
      | none =>
        right
        have hm' : rowTruthy (JSMap.get st.byName (nameKeyOf P f.values)) = false := by
          simp [hm, rowTruthy]
        rw [← hm]
        exact ⟨hd', hg', hm', classifyStep_append P st f hd' hg' hm'⟩

/-! ## Row numbers stay inside the indexed data rows -/

theorem buildIndex_byId (P : Platform) (data : List Row) (k : Str) :
    JSMap.get (buildIndex P (HEADER :: data)).byId k =
      (lastIdx k (data.map (rowIdKey P))).map (· + 2) := by
  rw [buildIndex_header, indexLoop_byId]
  cases lastIdx k (data.map (rowIdKey P)) with
  | some j => simp
  | none => rfl

theorem buildIndex_byName (P : Platform) (data : List Row) (k : Str) :
    JSMap.get (buildIndex P (HEADER :: data)).byName k =
      (lastIdx k (data.map (rowNameKey P))).map (· + 2) := by
  rw [buildIndex_header, indexLoop_byName]
  cases lastIdx k (data.map (rowNameKey P)) with
  | some j => simp
  | none => rfl

theorem buildIndex_queues (P : Platform) (data : List Row) :
    (buildIndex P (HEADER :: data)).toAppend = [] ∧
    (buildIndex P (HEADER :: data)).toUpdate = [] := by
  rw [buildIndex_header]
  exact indexLoop_queues P data 0 emptyState

theorem getElem?_map_some {α β : Type} (f : α → β) (l : List α) (j : Nat) (b : β)
    (h : (l.map f)[j]? = some b) : ∃ a, l[j]? = some a ∧ f a = b := by
  rw [List.getElem?_map] at h
  cases h2 : l[j]? with
  | none => rw [h2] at h; cases h
  | some a =>
    rw [h2] at h
    exact ⟨a, rfl, Option.some.inj h⟩

theorem Indexed.bounds {P : Platform} {data : List Row} {n : Nat} (h : Indexed P data n) :
    2 ≤ n ∧ n ≤ data.length + 1 := by
  obtain ⟨j, r, hn, hj, _⟩ := h
  have := (List.getElem?_eq_some.mp hj).1
  omega

theorem buildIndex_targets (P : Platform) (data : List Row) :
    TargetsIndexed P data (buildIndex P (HEADER :: data)) := by
  refine ⟨?_, ?_, ?_⟩
  · intro k n h
    rw [buildIndex_byId] at h
    cases h2 : lastIdx k (data.map (rowIdKey P)) with
    | none => rw [h2] at h; cases h
    | some j =>
      rw [h2] at h
      obtain ⟨r, hr, hk⟩ := getElem?_map_some _ _ _ _ ((lastIdx_some k _ j).1 h2).1
      exact ⟨j, r, (Option.some.inj h).symm, hr, Or.inl (by simp [hk])⟩
  · intro k n h
    rw [buildIndex_byName] at h
    cases h2 : lastIdx k (data.map (rowNameKey P)) with
    | none => rw [h2] at h; cases h
    | some j =>
      rw [h2] at h
      obtain ⟨r, hr, hk⟩ := getElem?_map_some _ _ _ _ ((lastIdx_some k _ j).1 h2).1
      exact ⟨j, r, (Option.some.inj h).symm, hr, Or.inr (by simp [hk])⟩
  · intro u hu
    rw [(buildIndex_queues P data).2] at hu
    cases hu

theorem classifyStep_targets (P : Platform) (data : List Row) (st : LoopState) (f : Fact)
    (h : TargetsIndexed P data st) : TargetsIndexed P data (classifyStep P st f) := by
  obtain ⟨h1, h2, h3⟩ := h
  rcases classifyStep_cases P st f with ⟨_, e⟩ | ⟨_, n, _, hg, e⟩ | ⟨_, _, n, _, hm, e⟩ | ⟨_, _, _, e⟩
  · rw [e]; exact ⟨h1, h2, h3⟩
  · rw [e]
    refine ⟨h1, h2, ?_⟩
    intro u hu
    rcases List.mem_append.mp hu with hu | hu
    · exact h3 u hu
    · simp only [List.mem_singleton] at hu
      subst hu
      exact h1 _ _ hg
  · rw [e]
    refine ⟨?_, ?_, ?_⟩
    · intro k m hk
      simp only [JSMap.get_set] at hk
      by_cases e2 : idKeyOf P f.values = k
      · rw [if_pos e2] at hk
        cases hk
        exact h2 _ _ hm
      · rw [if_neg e2] at hk
        exact h1 _ _ hk
    · intro k m hk
      simp only [JSMap.get_delete] at hk
      by_cases e2 : nameKeyOf P f.values = k
      · rw [if_pos e2] at hk
        cases hk
      · rw [if_neg e2] at hk
        exact h2 _ _ hk
    · intro u hu
      rcases List.mem_append.mp hu with hu | hu
      · exact h3 u hu
      · simp only [List.mem_singleton] at hu
        subst hu
        exact h2 _ _ hm
  · rw [e]; exact ⟨h1, h2, h3⟩

theorem classify_targets (P : Platform) (data : List Row) (fs : List Fact) (st : LoopState)
    (h : TargetsIndexed P data st) : TargetsIndexed P data (classify P st fs) := by
  induction fs generalizing st with
  | nil => exact h
  | cons f fs ih =>
    rw [classify_cons]
    exact ih _ (classifyStep_targets P data st f h)

theorem rowTruthy_false_of_indexed (P : Platform) (data : List Row) (o : Option Nat)
    (h : ∀ n, o = some n → Indexed P data n) : rowTruthy o = false ↔ o = none := by
  cases o with
  | none => simp [rowTruthy]
  | some n =>
    have := (h n rfl).bounds
    simp [rowTruthy]
    omega

/-- The sheet after a run, in terms of the data rows: updates in place, then
the appended rows. -/
theorem upsertCore_data (P : Platform) (data : List Row) (rows : List Fact) :
    upsertCore P (HEADER :: data) rows =
      HEADER :: (applyData data
          (classify P (buildIndex P (HEADER :: data)) (dedupeIncoming rows)).toUpdate ++
        (classify P (buildIndex P (HEADER :: data)) (dedupeIncoming rows)).toAppend) := by
  have ht := classify_targets P data (dedupeIncoming rows) _ (buildIndex_targets P data)
  simp only [upsertCore]
  rw [applyAppends_eq, applyUpdates_data data _ (fun u hu => (ht.2.2 u hu).bounds)]
  rfl

theorem upsertToSheet_header (P : Platform) (data : List Row) (rows : List Fact) :
    upsertToSheet P (HEADER :: data) rows = upsertCore P (HEADER :: data) rows := by
  simp only [upsertToSheet, ensureSheetHeader_header]

/-! ## Frame lemmas -/

theorem applyData_getElem?_of_not_target (data : List Row) (us : List (Nat × Row)) (j : Nat)
    (h : ∀ u ∈ us, u.1 - 2 ≠ j) : (applyData data us)[j]? = data[j]? := by
  induction us generalizing data with
  | nil => rfl
  | cons u us ih =>
    simp only [applyData, List.foldl_cons] at ih ⊢
    rw [ih (data.set (u.1 - 2) u.2) (fun u' hu' => h u' (List.mem_cons_of_mem _ hu'))]
    exact List.getElem?_set_ne (h u (List.mem_cons_self _ _))

theorem classify_all_dropped (P : Platform) (st : LoopState) (fs : List Fact)
    (h : ∀ g ∈ fs, dropped g = true) : classify P st fs = st := by
  induction fs generalizing st with
  | nil => rfl
  | cons f fs ih =>
    rw [classify_cons, classifyStep_dropped P st f (h f (List.mem_cons_self _ _))]
    exact ih st (fun g hg => h g (List.mem_cons_of_mem _ hg))

theorem classify_filter (P : Platform) (st : LoopState) (fs : List Fact) :
    classify P st fs = classify P st (fs.filter (fun g => !dropped g)) := by
  induction fs generalizing st with
  | nil => rfl
  | cons f fs ih =>
    by_cases hd : dropped f = true
    · rw [classify_cons, classifyStep_dropped P st f hd, ih]
      simp [List.filter, hd]
    · have hd' : dropped f = false := by simpa using hd
      have : (f :: fs).filter (fun g => !dropped g) = f :: fs.filter (fun g => !dropped g) := by
        simp [List.filter, hd']
      rw [this, classify_cons, classify_cons, ih]

theorem dedupeIncoming_subset (rows : List Fact) (f : Fact) (h : f ∈ dedupeIncoming rows) :
    f ∈ rows := by
  obtain ⟨_, pre, post, he, _⟩ := lastWithKey_some rows f.key f ((dedupeIncoming_mem rows f).1 h)
  rw [he]
  simp

theorem classify_toAppend (P : Platform) (data : List Row) (fs : List Fact) (st : LoopState)
    (h : TargetsIndexed P data st) :
    (classify P st fs).toAppend = st.toAppend ++ (appendedFacts P st fs).map Fact.values := by
  induction fs generalizing st with
  | nil => simp [classify, appendedFacts]
  | cons f fs ih =>
    rw [classify_cons, ih _ (classifyStep_targets P data st f h)]
    have hid := rowTruthy_false_of_indexed P data
      (JSMap.get st.byId (idKeyOf P f.values)) (fun n hn => h.1 _ n hn)
    have hnm := rowTruthy_false_of_indexed P data
      (JSMap.get st.byName (nameKeyOf P f.values)) (fun n hn => h.2.1 _ n hn)
    rcases classifyStep_cases P st f with ⟨hd, e⟩ | ⟨hd, n, _, hg, e⟩ | ⟨hd, hg, n, _, hm, e⟩ |
      ⟨hd, hg, hm, e⟩
    · simp only [appendedFacts, hd]
      rw [e]
      simp
    · simp only [appendedFacts, hg]
      rw [e]
      simp
    · simp only [appendedFacts, hm]
      rw [e]
      simp
    · have c : dropped f = false ∧ JSMap.get st.byId (idKeyOf P f.values) = none ∧
          JSMap.get st.byName (nameKeyOf P f.values) = none := ⟨hd, hid.1 hg, hnm.1 hm⟩
      simp only [appendedFacts, if_pos c]
      rw [e]
      simp

theorem upsertToSheet_untouched (P : Platform) (data : List Row) (rows : List Fact)
    (j : Nat) (r : Row) (hj : data[j]? = some r)
    (hnt : ∀ u ∈ (classify P (buildIndex P (HEADER :: data)) (dedupeIncoming rows)).toUpdate,
      u.1 ≠ j + 2) :
    (upsertToSheet P (HEADER :: data) rows)[j + 1]? = some r := by
  have ht := classify_targets P data (dedupeIncoming rows) _ (buildIndex_targets P data)
  rw [upsertToSheet_header, upsertCore_data]
  have hlt : j < data.length := (List.getElem?_eq_some.mp hj).1
  simp only [List.getElem?_cons_succ]
  rw [List.getElem?_append_left (by rw [applyData_length]; exact hlt)]
  rw [applyData_getElem?_of_not_target data _ j]
  · exact hj
  · intro u hu e
    have := (ht.2.2 u hu).bounds
    exact hnt u hu (by omega)

/-! ## Single steps against the initial index -/

theorem dedupeIncoming_singleton (f : Fact) : dedupeIncoming [f] = [f] := rfl

theorem lastIdx_of_last (k : Str) (ks : List (Option Str)) (j : Nat)
    (hj : ks[j]? = some (some k)) (hl : ∀ j', j < j' → ks[j']? ≠ some (some k)) :
    lastIdx k ks = some j := (lastIdx_some k ks j).2 ⟨hj, hl⟩

theorem lastIdx_map_of_last (key : Row → Option Str) (k : Str) (data : List Row) (j : Nat)
    (r : Row) (hj : data[j]? = some r) (hk : key r = some k)
    (hl : ∀ j' r', j < j' → data[j']? = some r' → key r' ≠ some k) :
    lastIdx k (data.map key) = some j := by
  apply lastIdx_of_last
  · rw [List.getElem?_map, hj]
    simp [hk]
  · intro j' hlt hc
    obtain ⟨r', hr', hk'⟩ := getElem?_map_some _ _ _ _ hc
    exact hl j' r' hlt hr' hk'

theorem classifyStep_byId_stable (P : Platform) (st : LoopState) (f : Fact) (k : Str) (n : Nat)
    (hn : n ≠ 0) (hg : JSMap.get st.byId k = some n) :
    JSMap.get (classifyStep P st f).byId k = some n := by
  rcases classifyStep_cases P st f with ⟨_, e⟩ | ⟨_, m, _, _, e⟩ | ⟨_, hid, m, _, _, e⟩ | ⟨_, _, _, e⟩
  · rw [e]; exact hg
  · rw [e]; exact hg
  · rw [e]
    simp only [JSMap.get_set]
    by_cases e2 : idKeyOf P f.values = k
    · rw [e2, hg] at hid
      simp [rowTruthy, hn] at hid
    · rw [if_neg e2]
      exact hg
  · rw [e]; exact hg

theorem classify_byId_stable (P : Platform) (fs : List Fact) (st : LoopState) (k : Str) (n : Nat)
    (hn : n ≠ 0) (hg : JSMap.get st.byId k = some n) :
    JSMap.get (classify P st fs).byId k = some n := by
  induction fs generalizing st with
  | nil => exact hg
  | cons f fs ih =>
    rw [classify_cons]
    exact ih _ (classifyStep_byId_stable P st f k n hn hg)

theorem normalizeAccountId_empty (P : Platform) : normalizeAccountId P (.str []) = [] := by
  simp [normalizeAccountId, JSVal.or, JSVal.truthy, toStr, trim, stripAct]

theorem promoteWrite_of_str (P : Platform) (v : Row) (s : Str) (h : v.accountId = .str s) :
    promoteWrite P v = v := by
  unfold promoteWrite
  cases s with
  | nil =>
    obtain ⟨a, b, c, d, e, f, g, i⟩ := v
    simp only at h
    subst h
    simp [JSVal.truthy, normalizeAccountId_empty]
  | cons c cs =>
    simp [h, JSVal.truthy]

/-! ## Positions of keys in a list of row keys -/

theorem lastIdx_none_getElem? (k : Str) (ks : List (Option Str)) :
    lastIdx k ks = none ↔ ∀ i : Nat, ks[i]? ≠ some (some k) := by
  rw [lastIdx_none]
  constructor
  · intro h i hi
    exact h _ (List.getElem?_mem hi) rfl
  · intro h x hx e
    obtain ⟨i, hi⟩ := List.mem_iff_getElem?.mp hx
    exact h i (e ▸ hi)

theorem lastIdx_congr (k : Str) (ks ks' : List (Option Str))
    (h : ∀ i : Nat, ks[i]? = some (some k) ↔ ks'[i]? = some (some k)) :
    lastIdx k ks = lastIdx k ks' := by
  cases h1 : lastIdx k ks with
  | none =>
    symm
    rw [lastIdx_none_getElem?] at h1 ⊢
    intro i hi
    exact h1 i ((h i).2 hi)
  | some j =>
    symm
    rw [lastIdx_some] at h1 ⊢
    exact ⟨(h j).1 h1.1, fun j' hj' hc => h1.2 j' hj' ((h j').2 hc)⟩

theorem lastIdx_lt (k : Str) (ks : List (Option Str)) (j : Nat) (h : lastIdx k ks = some j) :
    j < ks.length :=
  (List.getElem?_eq_some.mp ((lastIdx_some k ks j).1 h).1).1

theorem lastIdx_append_of_none (k : Str) (ks ks2 : List (Option Str))
    (h2 : lastIdx k ks2 = none) : lastIdx k (ks ++ ks2) = lastIdx k ks := by
  apply lastIdx_congr
  intro i
  rw [lastIdx_none_getElem?] at h2
  rw [List.getElem?_append]
  by_cases hi : i < ks.length
  · rw [if_pos hi]
  · rw [if_neg hi]
    constructor
    · intro hc
      exact absurd hc (h2 _)
    · intro hc
      rw [List.getElem?_eq_none (by omega)] at hc
      cases hc

theorem lastIdx_concat_self (k : Str) (ks : List (Option Str)) :
    lastIdx k (ks ++ [some k]) = some ks.length := by
  rw [lastIdx_some]
  refine ⟨List.getElem?_concat_length ks (some k), ?_⟩
  intro j' hj'
  rw [List.getElem?_eq_none (by simp; omega)]
  simp

theorem set_eq_self {α : Type} (l : List α) (j : Nat) (a : α) (h : l[j]? = some a) :
    l.set j a = l := by
  induction l generalizing j with
  | nil => rfl
  | cons x xs ih =>
    cases j with
    | zero =>
      simp at h
      simp [h]
    | succ j0 =>
      simp at h
      simp [ih j0 h]

theorem getElem?_set_eq_some {α : Type} (l : List α) (j i : Nat) (a b : α) :
    (l.set j a)[i]? = some b ↔ (i = j ∧ j < l.length ∧ a = b) ∨ (i ≠ j ∧ l[i]? = some b) := by
  rw [List.getElem?_set]
  by_cases e : j = i
  · subst e
    rw [if_pos rfl]
    by_cases hl : j < l.length
    · rw [if_pos hl]
      constructor
      · intro h
        exact Or.inl ⟨rfl, hl, Option.some.inj h⟩
      · rintro (⟨_, _, h⟩ | ⟨h, _⟩)
        · rw [h]
        · exact absurd rfl h
    · rw [if_neg hl]
      constructor
      · intro h; cases h
      · rintro (⟨_, h, _⟩ | ⟨h, _⟩)
        · exact absurd h hl
        · exact absurd rfl h
  · rw [if_neg e]
    constructor
    · intro h
      exact Or.inr ⟨fun e2 => e e2.symm, h⟩
    · rintro (⟨h, _, _⟩ | ⟨_, h⟩)
      · exact absurd h.symm e
      · exact h

/-! ## The loop invariant on canonical facts -/

theorem Canonical.rowIdKey_eq {P : Platform} {f : Fact} (hc : Canonical P f)
    (hd : dropped f = false) : rowIdKey P f.values = some f.key := by
  obtain ⟨h1, h2, h3⟩ := hc hd
  unfold rowIdKey
  have e1 : (toDayISO P f.values.day).isEmpty = false := by
    cases h : toDayISO P f.values.day with
    | nil => exact absurd h h2
    | cons c cs => rfl
  have e2 : (normalizeAccountId P f.values.accountId).isEmpty = false := by
    cases h : normalizeAccountId P f.values.accountId with
    | nil => exact absurd h h1
    | cons c cs => rfl
  simp [e1, e2, h3]

theorem rowIdKey_some_idKeyOf (P : Platform) (v : Row) (k : Str) (h : rowIdKey P v = some k) :
    idKeyOf P v = k := by
  unfold rowIdKey at h
  by_cases e1 : (toDayISO P v.day).isEmpty = true
  · simp [e1] at h
  · by_cases e2 : (normalizeAccountId P v.accountId).isEmpty = true
    · simp [e1, e2] at h
    · simpa [e1, e2] using h

theorem promoteWrite_of_rowIdKey (P : Platform) (v : Row) (k : Str)
    (h : rowIdKey P v = some k) : promoteWrite P v = v := by
  unfold promoteWrite
  by_cases ht : v.accountId.truthy = true
  · simp [ht]
  · exfalso
    have hn : normalizeAccountId P v.accountId = [] := by
      simp [normalizeAccountId, JSVal.or, ht, toStr, trim, stripAct]
    unfold rowIdKey at h
    by_cases e1 : (toDayISO P v.day).isEmpty = true
    · simp [e1] at h
    · simp [e1, hn] at h

theorem RunInv.byId_some {P : Platform} {data : List Row} {done : List Fact} {st : LoopState}
    (h : RunInv P data done st) (k : Str) (n : Nat) (hg : JSMap.get st.byId k = some n) :
    ∃ j, n = j + 2 ∧ lastIdx k ((applyData data st.toUpdate).map (rowIdKey P)) = some j := by
  rw [h.byId_eq] at hg
  cases h2 : lastIdx k ((applyData data st.toUpdate).map (rowIdKey P)) with
  | none => rw [h2] at hg; cases hg
  | some j =>
    rw [h2] at hg
    exact ⟨j, (Option.some.inj hg).symm, rfl⟩

theorem RunInv.byId_none {P : Platform} {data : List Row} {done : List Fact} {st : LoopState}
    (h : RunInv P data done st) (k : Str) (hg : rowTruthy (JSMap.get st.byId k) = false) :
    lastIdx k ((applyData data st.toUpdate).map (rowIdKey P)) = none := by
  rw [h.byId_eq] at hg
  cases h2 : lastIdx k ((applyData data st.toUpdate).map (rowIdKey P)) with
  | none => rfl
  | some j =>
    rw [h2] at hg
    simp [rowTruthy] at hg

theorem RunInv.no_key_in_appends {P : Platform} {data : List Row} {done : List Fact}
    {st : LoopState} (h : RunInv P data done st) (k : Str)
    (hnew : ∀ g ∈ done, dropped g = false → g.key ≠ k) :
    lastIdx k (st.toAppend.map (rowIdKey P)) = none := by
  rw [lastIdx_none]
  intro x hx e
  obtain ⟨row, hrow, hk⟩ := List.mem_map.mp hx
  obtain ⟨g, hg, hd, _, hkey⟩ := h.app_src row hrow
  rw [hkey] at hk
  rw [← hk] at e
  exact hnew g hg hd (Option.some.inj e)

theorem buildIndex_runInv (P : Platform) (data : List Row) :
    RunInv P data [] (buildIndex P (HEADER :: data)) := by
  have hq := buildIndex_queues P data
  refine ⟨?_, ?_, ?_, ?_, ?_⟩
  · intro k
    rw [buildIndex_byId, hq.2]
    rfl
  · intro n m hm
    rw [buildIndex_byName] at hm
    rw [hq.2]
    cases h2 : lastIdx n (data.map (rowNameKey P)) with
    | none => rw [h2] at hm; cases hm
    | some j =>
      rw [h2] at hm
      obtain ⟨r, hr, hk⟩ := getElem?_map_some _ _ _ _ ((lastIdx_some n _ j).1 h2).1
      exact ⟨j, r, (Option.some.inj hm).symm, hr, hk⟩
  · intro f hf
    cases hf
  · intro row hrow
    rw [hq.1] at hrow
    cases hrow
  · intro hu
    rw [hq.1, hq.2]
    simpa [applyData] using hu

theorem set_key_pointwise (ks : List (Option Str)) (j : Nat) (x : Option Str) (kf k : Str)
    (hj : ks[j]? = some x) (hx : x ≠ some k) (hne : k ≠ kf) (i : Nat) :
    (ks.set j (some kf))[i]? = some (some k) ↔ ks[i]? = some (some k) := by
  rw [getElem?_set_eq_some]
  constructor
  · rintro (⟨_, _, e⟩ | ⟨_, h⟩)
    · exact absurd (Option.some.inj e).symm hne
    · exact h
  · intro h
    refine Or.inr ⟨?_, h⟩
    intro e
    subst e
    rw [hj] at h
    exact hx (Option.some.inj h)

/-- The invariant survives a write of the values of `f` into the data row at
position `j`, when that row carries the key of `f` or no identifier key. -/
theorem RunInv.write {P : Platform} {data : List Row} {done : List Fact} {st st' : LoopState}
    (h : RunInv P data done st) (f : Fact) (hkey : rowIdKey P f.values = some f.key)
    (hnew : ∀ g ∈ done, dropped g = false → g.key ≠ f.key)
    (j : Nat) (x : Option Str)
    (hj : ((applyData data st.toUpdate).map (rowIdKey P))[j]? = some x)
    (hx : x = some f.key ∨
      (x = none ∧ lastIdx f.key ((applyData data st.toUpdate).map (rowIdKey P)) = none))
    (hafter : ∀ j', j < j' →
      ((applyData data st.toUpdate).map (rowIdKey P))[j']? ≠ some (some f.key))
    (hU : st'.toUpdate = st.toUpdate ++ [(j + 2, f.values)])
    (hA : st'.toAppend = st.toAppend)
    (hb : ∀ k, JSMap.get st'.byId k = if f.key = k then some (j + 2) else JSMap.get st.byId k)
    (hn : ∀ n m, JSMap.get st'.byName n = some m → JSMap.get st.byName n = some m ∧ m ≠ j + 2) :
    RunInv P data (f :: done) st' := by
  have hjlt : j < (applyData data st.toUpdate).length := by
    have := (List.getElem?_eq_some.mp hj).1
    simpa using this
  have hV : applyData data st'.toUpdate = (applyData data st.toUpdate).set j f.values := by
    rw [hU, applyData_append]
    simp
  have hKV : (applyData data st'.toUpdate).map (rowIdKey P) =
      ((applyData data st.toUpdate).map (rowIdKey P)).set j (some f.key) := by
    rw [hV, List.map_set, hkey]
  have hW : applyData data st'.toUpdate ++ st'.toAppend =
      (applyData data st.toUpdate ++ st.toAppend).set j f.values := by
    rw [hV, hA, List.set_append_left _ _ hjlt]
  have hKW : (applyData data st'.toUpdate ++ st'.toAppend).map (rowIdKey P) =
      ((applyData data st.toUpdate ++ st.toAppend).map (rowIdKey P)).set j (some f.key) := by
    rw [hW, List.map_set, hkey]
  have hjW : ((applyData data st.toUpdate ++ st.toAppend).map (rowIdKey P))[j]? = some x := by
    rw [List.map_append, List.getElem?_append_left (by simpa using hjlt)]
    exact hj
  have hxne : ∀ k, k ≠ f.key → x ≠ some k := by
    intro k hk e
    rcases hx with hx | ⟨hx, _⟩
    · rw [hx] at e
      exact hk (Option.some.inj e).symm
    · rw [hx] at e
      cases e
  have hnoA := h.no_key_in_appends f.key hnew
  have hlastV : lastIdx f.key ((applyData data st'.toUpdate).map (rowIdKey P)) = some j := by
    rw [hKV, lastIdx_some]
    refine ⟨List.getElem?_set_self (by simpa using hjlt), ?_⟩
    intro j' hj'
    rw [List.getElem?_set_ne (by omega)]
    exact hafter j' hj'
  refine ⟨?_, ?_, ?_, ?_, ?_⟩
  · intro k
    rw [hb]
    by_cases e : f.key = k
    · subst e
      rw [if_pos rfl, hlastV]
      rfl
    · rw [if_neg e, h.byId_eq, hKV]
      congr 1
      apply lastIdx_congr
      intro i
      exact (set_key_pointwise _ j x f.key k hj (hxne k (fun e2 => e e2.symm))
        (fun e2 => e e2.symm) i).symm
  · intro n m hm
    obtain ⟨hm0, hne⟩ := hn n m hm
    obtain ⟨j2, r2, e, hr2, hk2⟩ := h.byName_row n m hm0
    refine ⟨j2, r2, e, ?_, hk2⟩
    rw [hV, List.getElem?_set_ne (by omega)]
    exact hr2
  · intro g hg hd
    rcases List.mem_cons.mp hg with e | hg'
    · subst e
      refine ⟨j, ?_, ?_⟩
      · rw [List.map_append, hA, lastIdx_append_of_none _ _ _ hnoA]
        exact hlastV
      · rw [hW]
        exact List.getElem?_set_self (by simp; omega)
    · obtain ⟨jg, hl, hv⟩ := h.done_row g hg' hd
      have hgk := hnew g hg' hd
      refine ⟨jg, ?_, ?_⟩
      · rw [hKW, ← hl]
        apply lastIdx_congr
        intro i
        exact set_key_pointwise _ j x f.key g.key hjW (hxne g.key hgk) hgk i
      · rw [hW, List.getElem?_set_ne]
        · exact hv
        · intro e
          subst e
          have := ((lastIdx_some _ _ _).1 hl).1
          rw [hjW] at this
          exact hxne g.key hgk (Option.some.inj this)
  · intro row hrow
    rw [hA] at hrow
    obtain ⟨g, hg, hd, e, hk⟩ := h.app_src row hrow
    exact ⟨g, List.mem_cons_of_mem _ hg, hd, e, hk⟩
  · intro hu0
    have hu := h.unique hu0
    rw [hKW]
    rcases hx with hx | ⟨hx, hnone⟩
    · rw [set_eq_self _ j (some f.key) (hx ▸ hjW)]
      exact hu
    · have hnoW : ∀ i : Nat,
          ((applyData data st.toUpdate ++ st.toAppend).map (rowIdKey P))[i]? ≠
            some (some f.key) := by
        rw [← lastIdx_none_getElem?, List.map_append, lastIdx_append_of_none _ _ _ hnoA]
        exact hnone
      intro i1 i2 k h1 h2
      rw [getElem?_set_eq_some] at h1 h2
      rcases h1 with ⟨e1, _, k1⟩ | ⟨n1, h1⟩
      · rcases h2 with ⟨e2, _, _⟩ | ⟨_, h2⟩
        · rw [e1, e2]
        · rw [← Option.some.inj k1] at h2
          exact absurd h2 (hnoW i2)
      · rcases h2 with ⟨_, _, k2⟩ | ⟨_, h2⟩
        · rw [← Option.some.inj k2] at h1
          exact absurd h1 (hnoW i1)
        · exact hu i1 i2 k h1 h2

/-- The invariant survives the queueing of the values of `f` for appending,
when no data row carries the key of `f`. -/
theorem RunInv.append {P : Platform} {data : List Row} {done : List Fact} {st : LoopState}
    (h : RunInv P data done st) (f : Fact) (hkey : rowIdKey P f.values = some f.key)
    (hnew : ∀ g ∈ done, dropped g = false → g.key ≠ f.key) (hd : dropped f = false)
    (hnone : lastIdx f.key ((applyData data st.toUpdate).map (rowIdKey P)) = none) :
    RunInv P data (f :: done) { st with toAppend := st.toAppend ++ [f.values] } := by
  have hnoA := h.no_key_in_appends f.key hnew
  have hKW : (applyData data st.toUpdate ++ (st.toAppend ++ [f.values])).map (rowIdKey P) =
      (applyData data st.toUpdate ++ st.toAppend).map (rowIdKey P) ++ [some f.key] := by
    rw [← List.append_assoc, List.map_append, List.map_cons, hkey]
    rfl
  have hnoW : ∀ i : Nat,
      ((applyData data st.toUpdate ++ st.toAppend).map (rowIdKey P))[i]? ≠
        some (some f.key) := by
    rw [← lastIdx_none_getElem?, List.map_append, lastIdx_append_of_none _ _ _ hnoA]
    exact hnone
  refine ⟨h.byId_eq, h.byName_row, ?_, ?_, ?_⟩
  · intro g hg hdg
    simp only
    rw [hKW]
    rcases List.mem_cons.mp hg with e | hg'
    · subst e
      refine ⟨_, lastIdx_concat_self _ _, ?_⟩
      rw [← List.append_assoc, List.length_map]
      exact List.getElem?_concat_length _ _
    · obtain ⟨jg, hl, hv⟩ := h.done_row g hg' hdg
      have hgk := hnew g hg' hdg
      refine ⟨jg, ?_, ?_⟩
      · rw [lastIdx_append_of_none _ _ _ (by
          rw [lastIdx_none]
          intro y hy e
          simp only [List.mem_singleton] at hy
          rw [hy] at e
          exact hgk (Option.some.inj e).symm)]
        exact hl
      · rw [← List.append_assoc, List.getElem?_append_left]
        · exact hv
        · exact (List.getElem?_eq_some.mp hv).1
  · intro row hrow
    rcases List.mem_append.mp hrow with hr | hr
    · obtain ⟨g, hg, hdg, e, hk⟩ := h.app_src row hr
      exact ⟨g, List.mem_cons_of_mem _ hg, hdg, e, hk⟩
    · simp only [List.mem_singleton] at hr
      subst hr
      exact ⟨f, List.mem_cons_self _ _, hd, rfl, hkey⟩
  · intro hu0
    have hu := h.unique hu0
    simp only
    rw [hKW]
    intro i1 i2 k h1 h2
    rw [List.getElem?_append] at h1 h2
    by_cases c1 : i1 < ((applyData data st.toUpdate ++ st.toAppend).map (rowIdKey P)).length
    · rw [if_pos c1] at h1
      by_cases c2 : i2 < ((applyData data st.toUpdate ++ st.toAppend).map (rowIdKey P)).length
      · rw [if_pos c2] at h2
        exact hu i1 i2 k h1 h2
      · rw [if_neg c2] at h2
        have e2 : k = f.key := by
          have := List.getElem?_mem h2
          simp only [List.mem_singleton] at this
          exact (Option.some.inj this)
        rw [e2] at h1
        exact absurd h1 (hnoW i1)
    · rw [if_neg c1] at h1
      have e1 : k = f.key := by
        have := List.getElem?_mem h1
        simp only [List.mem_singleton] at this
        exact (Option.some.inj this)
      have l1 : i1 = ((applyData data st.toUpdate ++ st.toAppend).map (rowIdKey P)).length := by
        have := (List.getElem?_eq_some.mp h1).1
        simp only [List.length_singleton] at this
        omega
      by_cases c2 : i2 < ((applyData data st.toUpdate ++ st.toAppend).map (rowIdKey P)).length
      · rw [if_pos c2] at h2
        rw [e1] at h2
        exact absurd h2 (hnoW i2)
      · rw [if_neg c2] at h2
        have := (List.getElem?_eq_some.mp h2).1
        simp only [List.length_singleton] at this
        omega

theorem RunInv.skip {P : Platform} {data : List Row} {done : List Fact} {st : LoopState}
    (h : RunInv P data done st) (f : Fact) (hd : dropped f = true) :
    RunInv P data (f :: done) st := by
  refine ⟨h.byId_eq, h.byName_row, ?_, ?_, h.unique⟩
  · intro g hg hdg
    rcases List.mem_cons.mp hg with e | hg'
    · subst e
      rw [hd] at hdg
      cases hdg
    · exact h.done_row g hg' hdg
  · intro row hrow
    obtain ⟨g, hg, hdg, e, hk⟩ := h.app_src row hrow
    exact ⟨g, List.mem_cons_of_mem _ hg, hdg, e, hk⟩

theorem RunInv.step {P : Platform} {data : List Row} {done : List Fact} {st : LoopState}
    (h : RunInv P data done st) (f : Fact) (hc : Canonical P f)
    (hnew : ∀ g ∈ done, dropped g = false → g.key ≠ f.key) :
    RunInv P data (f :: done) (classifyStep P st f) := by
  rcases classifyStep_cases P st f with ⟨hd, e⟩ | ⟨hd, n, _, hg, e⟩ | ⟨hd, hid, n, _, hm, e⟩ |
    ⟨hd, hid, _, e⟩
  · rw [e]
    exact h.skip f hd
  · have hkey := hc.rowIdKey_eq hd
    have hik := rowIdKey_some_idKeyOf P f.values f.key hkey
    rw [hik] at hg
    obtain ⟨j, hnj, hl⟩ := h.byId_some f.key n hg
    subst hnj
    have hl2 := (lastIdx_some _ _ _).1 hl
    rw [e]
    refine h.write f hkey hnew j (some f.key) hl2.1 (Or.inl rfl) hl2.2 rfl rfl ?_ ?_
    · intro k
      by_cases e2 : f.key = k
      · subst e2
        rw [if_pos rfl]
        exact hg
      · rw [if_neg e2]
    · intro n' m hm'
      refine ⟨hm', ?_⟩
      intro em
      obtain ⟨j2, r2, e2, hr2, hk2⟩ := h.byName_row n' m hm'
      have : j2 = j := by omega
      subst this
      have h3 := hl2.1
      rw [List.getElem?_map, hr2] at h3
      have h4 : rowIdKey P r2 = some f.key := Option.some.inj h3
      rw [rowNameKey_some_idKey_none P r2 n' hk2] at h4
      cases h4
  · have hkey := hc.rowIdKey_eq hd
    have hik := rowIdKey_some_idKeyOf P f.values f.key hkey
    rw [hik] at hid
    have hnone := h.byId_none f.key hid
    obtain ⟨j, r, hnj, hr, hk⟩ := h.byName_row _ n hm
    subst hnj
    rw [e, promoteWrite_of_rowIdKey P f.values f.key hkey, hik]
    have hjx : ((applyData data st.toUpdate).map (rowIdKey P))[j]? = some none := by
      rw [List.getElem?_map, hr]
      simp [rowNameKey_some_idKey_none P r _ hk]
    refine h.write f hkey hnew j none hjx (Or.inr ⟨rfl, hnone⟩) ?_ rfl rfl ?_ ?_
    · intro j' _
      exact (lastIdx_none_getElem? _ _).1 hnone j'
    · intro k
      exact JSMap.get_set _ _ _ _
    · intro n' m hm'
      simp only [JSMap.get_delete] at hm'
      by_cases e2 : nameKeyOf P f.values = n'
      · rw [if_pos e2] at hm'
        cases hm'
      · rw [if_neg e2] at hm'
        refine ⟨hm', ?_⟩
        intro em
        obtain ⟨j2, r2, e3, hr2, hk2⟩ := h.byName_row n' m hm'
        have : j2 = j := by omega
        subst this
        rw [hr] at hr2
        cases hr2
        rw [hk] at hk2
        exact e2 (Option.some.inj hk2)
  · have hkey := hc.rowIdKey_eq hd
    have hik := rowIdKey_some_idKeyOf P f.values f.key hkey
    rw [hik] at hid
    rw [e]
    exact h.append f hkey hnew hd (h.byId_none f.key hid)

theorem RunInv.classify {P : Platform} {data : List Row} (fs : List Fact) (done : List Fact)
    (st : LoopState) (h : RunInv P data done st) (hc : ∀ f ∈ fs, Canonical P f)
    (hnd : (fs.map Fact.key).Nodup) (hnew : ∀ f ∈ fs, ∀ g ∈ done, g.key ≠ f.key) :
    RunInv P data (fs.reverse ++ done) (MetaAds.classify P st fs) := by
  induction fs generalizing done st with
  | nil => exact h
  | cons f fs ih =>
    rw [classify_cons, List.reverse_cons, List.append_assoc]
    simp only [List.map_cons, List.nodup_cons] at hnd
    apply ih (f :: done) _
      (h.step f (hc f (List.mem_cons_self _ _))
        (fun g hg _ => hnew f (List.mem_cons_self _ _) g hg))
      (fun g hg => hc g (List.mem_cons_of_mem _ hg)) hnd.2
    intro f' hf' g hg
    rcases List.mem_cons.mp hg with e | hg'
    · subst e
      intro e2
      exact hnd.1 (e2 ▸ List.mem_map_of_mem Fact.key hf')
    · exact hnew f' (List.mem_cons_of_mem _ hf') g hg'

/-- The invariant holds after a run on a batch of canonical facts. -/
theorem upsert_runInv (P : Platform) (data : List Row) (rows : List Fact)
    (hc : ∀ f ∈ rows, Canonical P f) :
    RunInv P data ((dedupeIncoming rows).reverse ++ [])
      (classify P (buildIndex P (HEADER :: data)) (dedupeIncoming rows)) := by
  apply RunInv.classify _ _ _ (buildIndex_runInv P data)
  · intro f hf
    exact hc f (dedupeIncoming_subset rows f hf)
  · rw [dedupeIncoming_keys]
    exact seenAfter_keys_nodup rows [] List.nodup_nil
  · intro f _ g hg
    cases hg

/-! ## A run against a store that already holds the batch -/

theorem classify_fixed (P : Platform) (W : List Row) (fs : List Fact) (st : LoopState)
    (hfix : ∀ f ∈ fs, dropped f = false →
      ∃ j, lastIdx (idKeyOf P f.values) (W.map (rowIdKey P)) = some j ∧ W[j]? = some f.values)
    (hb : ∀ k, JSMap.get st.byId k = (lastIdx k (W.map (rowIdKey P))).map (· + 2))
    (hA : st.toAppend = []) (hU : applyData W st.toUpdate = W) :
    (classify P st fs).toAppend = [] ∧ applyData W (classify P st fs).toUpdate = W := by
  induction fs generalizing st with
  | nil => exact ⟨hA, hU⟩
  | cons f fs ih =>
    rw [classify_cons]
    have hfix' : ∀ g ∈ fs, dropped g = false →
        ∃ j, lastIdx (idKeyOf P g.values) (W.map (rowIdKey P)) = some j ∧
          W[j]? = some g.values := fun g hg => hfix g (List.mem_cons_of_mem _ hg)
    by_cases hd : dropped f = true
    · rw [classifyStep_dropped P st f hd]
      exact ih st hfix' hb hA hU
    · have hd' : dropped f = false := by simpa using hd
      obtain ⟨j, hl, hv⟩ := hfix f (List.mem_cons_self _ _) hd'
      have hg : JSMap.get st.byId (idKeyOf P f.values) = some (j + 2) := by
        rw [hb, hl]
        rfl
      rw [classifyStep_update P st f (j + 2) hd' hg (by omega)]
      refine ih { st with toUpdate := st.toUpdate ++ [(j + 2, f.values)] } hfix' hb hA ?_
      show applyData W (st.toUpdate ++ [(j + 2, f.values)]) = W
      rw [applyData_append, hU]
      exact set_eq_self W j f.values hv

theorem upsertCore_fixed (P : Platform) (W : List Row) (rows : List Fact)
    (hfix : ∀ f ∈ dedupeIncoming rows, dropped f = false →
      ∃ j, lastIdx (idKeyOf P f.values) (W.map (rowIdKey P)) = some j ∧ W[j]? = some f.values) :
    upsertCore P (HEADER :: W) rows = HEADER :: W := by
  rw [upsertCore_data]
  have hq := buildIndex_queues P W
  obtain ⟨h1, h2⟩ := classify_fixed P W (dedupeIncoming rows) (buildIndex P (HEADER :: W)) hfix
    (buildIndex_byId P W) hq.1 (by rw [hq.2]; rfl)
  rw [h1, h2, List.append_nil]

/-- After a run on canonical facts, every kept fact of the deduplicated batch
sits in the row that a fresh index holds for its key. -/
theorem upsert_rows_of_batch (P : Platform) (data : List Row) (rows : List Fact)
    (hc : ∀ f ∈ rows, Canonical P f) :
    ∃ W, upsertToSheet P (HEADER :: data) rows = HEADER :: W ∧
      (KeyUnique P data → KeyUnique P W) ∧
      ∀ f ∈ dedupeIncoming rows, dropped f = false →
        ∃ j, lastIdx (idKeyOf P f.values) (W.map (rowIdKey P)) = some j ∧
          W[j]? = some f.values := by
  have h := upsert_runInv P data rows hc
  refine ⟨_, ?_, h.unique, ?_⟩
  · rw [upsertToSheet_header, upsertCore_data]
  · intro f hf hd
    have hkey := (hc f (dedupeIncoming_subset rows f hf)).rowIdKey_eq hd
    rw [rowIdKey_some_idKeyOf P f.values f.key hkey]
    exact h.done_row f (by simpa using hf) hd

/-! ## The retry loop -/

theorem includesNum_codes (v : JSVal) :
    includesNum [4, 17, 32] v = true ↔
      v = .num (.fin 4) ∨ v = .num (.fin 17) ∨ v = .num (.fin 32) := by
  cases v with
  | num x =>
    cases x with
    | fin q =>
      simp only [includesNum, List.any_cons, List.any_nil, Bool.or_false, Bool.or_eq_true,
        decide_eq_true_eq, JSVal.num.injEq, JSNum.fin.injEq]
      constructor
      · rintro (h | h | h)
        · left; rw [← h]; norm_num
        · right; left; rw [← h]; norm_num
        · right; right; rw [← h]; norm_num
      · rintro (h | h | h)
        · left; rw [h]; norm_num
        · right; left; rw [h]; norm_num
        · right; right; rw [h]; norm_num
    | nan => simp [includesNum]
    | posInf => simp [includesNum]
    | negInf => simp [includesNum]
  | undefined => simp [includesNum]
  | str s => simp [includesNum]
  | bool b => simp [includesNum]
  | date t => simp [includesNum]

theorem isTransient_iff (res : Response) :
    isTransient res = true ↔
      (errOf res = .num (.fin 4) ∨ errOf res = .num (.fin 17) ∨ errOf res = .num (.fin 32)) ∨
      (res.code = 500 ∨ res.code = 502 ∨ res.code = 503 ∨ res.code = 504) := by
  unfold isTransient
  rw [Bool.or_eq_true, includesNum_codes]
  have hc : [500, 502, 503, 504].contains res.code = true ↔
      (res.code = 500 ∨ res.code = 502 ∨ res.code = 503 ∨ res.code = 504) := by
    simp only [List.contains_cons, List.contains_nil, Bool.or_false, Bool.or_eq_true,
      beq_iff_eq]
  rw [hc]

theorem backoffLoop_returned {σ : Type} (P : Platform) (W : Web σ) (url : Str) (w : Nat)
    (ws : List Nat) (e : Effects σ) (h : (W.fetch e.state url).1.code = 200) :
    backoffLoop P W url (w :: ws) e =
      (.returned (W.fetch e.state url).1,
        { state := (W.fetch e.state url).2, requests := e.requests ++ [url],
          sleeps := e.sleeps }) := by
  simp [backoffLoop, h]

theorem backoffLoop_retry {σ : Type} (P : Platform) (W : Web σ) (url : Str) (w : Nat)
    (ws : List Nat) (e : Effects σ) (h : (W.fetch e.state url).1.code ≠ 200)
    (ht : isTransient (W.fetch e.state url).1 = true) :
    backoffLoop P W url (w :: ws) e =
      backoffLoop P W url ws
        { state := (W.fetch e.state url).2, requests := e.requests ++ [url],
          sleeps := e.sleeps ++ [w] } := by
  simp [backoffLoop, h, ht]

theorem backoffLoop_thrown {σ : Type} (P : Platform) (W : Web σ) (url : Str) (w : Nat)
    (ws : List Nat) (e : Effects σ) (h : (W.fetch e.state url).1.code ≠ 200)
    (ht : isTransient (W.fetch e.state url).1 = false) :
    backoffLoop P W url (w :: ws) e =
      (.thrown (httpError P (W.fetch e.state url).1),
        { state := (W.fetch e.state url).2, requests := e.requests ++ [url],
          sleeps := e.sleeps }) := by
  simp [backoffLoop, h, ht]

/-- After `k` transient responses the loop stands at the wait number `k`. -/
theorem backoffLoop_transient_run {σ : Type} (P : Platform) (W : Web σ) (url : Str) (k : Nat)
    (ws : List Nat) (e : Effects σ) (hk : k ≤ ws.length)
    (ht : ∀ i, i < k → (responseAt W url i e.state).code ≠ 200 ∧
      isTransient (responseAt W url i e.state) = true) :
    backoffLoop P W url ws e =
      backoffLoop P W url (ws.drop k)
        { state := stateAfter W url k e.state
          requests := e.requests ++ List.replicate k url
          sleeps := e.sleeps ++ ws.take k } := by
  induction k generalizing ws e with
  | zero => simp [stateAfter]
  | succ k ih =>
    cases ws with
    | nil => simp at hk
    | cons w ws =>
      have h0 := ht 0 (by omega)
      rw [backoffLoop_retry P W url w ws e h0.1 h0.2]
      rw [ih ws ⟨(W.fetch e.state url).2, e.requests ++ [url], e.sleeps ++ [w]⟩
        (by simpa using hk) (fun i hi => ht (i + 1) (by omega))]
      simp [stateAfter, List.replicate_succ]

theorem backoffLoop_requests_le {σ : Type} (P : Platform) (W : Web σ) (url : Str)
    (ws : List Nat) (e : Effects σ) :
    (backoffLoop P W url ws e).2.requests.length ≤ e.requests.length + ws.length := by
  induction ws generalizing e with
  | nil => simp [backoffLoop]
  | cons w ws ih =>
    by_cases h : (W.fetch e.state url).1.code = 200
    · rw [backoffLoop_returned P W url w ws e h]
      simp
    · by_cases ht : isTransient (W.fetch e.state url).1 = true
      · rw [backoffLoop_retry P W url w ws e h ht]
        have := ih ⟨(W.fetch e.state url).2, e.requests ++ [url], e.sleeps ++ [w]⟩
        simp at this ⊢
        omega
      · rw [backoffLoop_thrown P W url w ws e h (by simpa using ht)]
        simp

theorem responseAt_eq {σ : Type} (W : Web σ) (url : Str) (k : Nat) (s : σ) :
    responseAt W url k s = (W.fetch (stateAfter W url k s) url).1 := by
  induction k generalizing s with
  | zero => rfl
  | succ k ih => simp [responseAt, stateAfter, ih]

theorem stateAfter_succ {σ : Type} (W : Web σ) (url : Str) (k : Nat) (s : σ) :
    stateAfter W url (k + 1) s = (W.fetch (stateAfter W url k s) url).2 := by
  induction k generalizing s with
  | zero => rfl
  | succ k ih =>
    show stateAfter W url (k + 1) (W.fetch s url).2 = _
    rw [ih]
    rfl

/-! ## The page loop on a chain of pages -/

theorem backoffFetch_stateless_ok (P : Platform) (api : Str → Response) (url : Str)
    (e : Effects Unit) (h : (api url).code = 200) :
    backoffFetch P (stateless api) url e =
      (.returned (api url),
        { state := e.state, requests := e.requests ++ [url], sleeps := e.sleeps }) := by
  unfold backoffFetch WAITS
  rw [backoffLoop_returned P (stateless api) url _ _ e h]
  rfl

theorem pageLoop_chain (P : Platform) (api : Str → Response) (url : Str)
    (pages : List (Str × Body)) (hc : Chain api url pages) (fuel : Nat)
    (hf : pages.length < fuel) (out : List Record) (e : Effects Unit) :
    pageLoop P (stateless api) fuel url out e =
      some (.returned (out ++ pages.flatMap (fun p => pageData p.2)),
        { state := e.state, requests := e.requests ++ pages.map Prod.fst,
          sleeps := e.sleeps }) := by
  induction hc generalizing fuel out e with
  | stop =>
    cases fuel with
    | zero => simp at hf
    | succ fuel => simp [pageLoop]
  | page url b rest hurl hcode hbody hrest ih =>
    cases fuel with
    | zero => simp at hf
    | succ fuel =>
      have hne : url.isEmpty = false := by
        cases url with
        | nil => exact absurd rfl hurl
        | cons c cs => rfl
      simp only [pageLoop, hne, Bool.false_eq_true, if_false]
      rw [backoffFetch_stateless_ok P api url e hcode]
      simp only [hbody]
      rw [ih fuel (by simpa using hf)]
      simp [List.append_assoc]

theorem accountsLoop_chain (P : Platform) (api : Str → Response) (firstUrl : Str → Str)
    (pagesOf : Str → List (Str × Body)) (fuel : Nat) (accounts : List Str)
    (hc : ∀ a ∈ accounts, Chain api (firstUrl a) (pagesOf a))
    (hf : ∀ a ∈ accounts, (pagesOf a).length < fuel) (out : List Record) (e : Effects Unit) :
    accountsLoop P (stateless api) firstUrl fuel accounts out e =
      some (.returned
          (out ++ accounts.flatMap (fun a => (pagesOf a).flatMap (fun p => pageData p.2))),
        { state := e.state
          requests := e.requests ++ accounts.flatMap (fun a => (pagesOf a).map Prod.fst)
          sleeps := e.sleeps }) := by
  induction accounts generalizing out e with
  | nil => simp [accountsLoop]
  | cons a rest ih =>
    simp only [accountsLoop]
    rw [pageLoop_chain P api _ _ (hc a (List.mem_cons_self _ _)) fuel
      (hf a (List.mem_cons_self _ _))]
    simp only
    rw [ih (fun x hx => hc x (List.mem_cons_of_mem _ hx))
      (fun x hx => hf x (List.mem_cons_of_mem _ hx))]
    simp [List.append_assoc]

theorem Chain.url_of_nil {api : Str → Response} {url : Str} (hc : Chain api url []) :
    url = [] := by
  cases hc
  rfl

theorem Chain.last_has_no_next {api : Str → Response} {url : Str} {pages : List (Str × Body)}
    (hc : Chain api url pages) : ∀ p, pages.getLast? = some p → nextUrl p.2 = [] := by
  induction hc with
  | stop => intro p hp; simp at hp
  | page url b rest hurl hcode hbody hrest ih =>
    intro p hp
    cases rest with
    | nil =>
      simp at hp
      rw [← hp]
      exact hrest.url_of_nil
    | cons q qs =>
      apply ih p
      simpa [List.getLast?_cons_cons] using hp

/-! ## The normalizer -/

theorem normalize_some (P : Platform) (r : Record) (f : Fact) (h : normalize P r = some f) :
    ∃ region rawId, trimVal (r.region.or (.str "Unknown".toList)) = some region ∧
      trimVal (r.account_id.or (.str [])) = some rawId ∧
      f.key = joinKey (normalizeAccountId P (.str rawId)) region (toDayISO P r.date_start) ∧
      f.spend = toNumber P (r.spend.or (.num (.fin 0))) ∧
      f.values.accountId = .str (normalizeAccountId P (.str rawId)) ∧
      f.values.region = .str region ∧
      f.values.day = .str (toDayISO P r.date_start) ∧
      f.values.amount = .num f.spend := by
  unfold normalize at h
  cases h1 : trimVal (r.region.or (.str "Unknown".toList)) with
  | none =>
    rw [h1] at h
    cases h
  | some region =>
    rw [h1] at h
    cases h2 : trimVal (r.account_id.or (.str [])) with
    | none =>
      rw [h2] at h
      cases h
    | some rawId =>
      rw [h2] at h
      cases h
      exact ⟨region, rawId, rfl, rfl, rfl, rfl, rfl, rfl, rfl, rfl⟩

/-! ## Trimming -/

theorem dropWhile_head_not (p : Char → Bool) (s : Str) (c : Char)
    (h : (s.dropWhile p).head? = some c) : p c = false := by
  induction s with
  | nil => simp at h
  | cons x xs ih =>
    by_cases hx : p x = true
    · rw [List.dropWhile_cons_of_pos hx] at h
      exact ih h
    · rw [List.dropWhile_cons_of_neg hx] at h
      simp at h
      rw [← h]
      simpa using hx

theorem dropWhile_of_head_not (p : Char → Bool) (s : Str)
    (h : ∀ c, s.head? = some c → p c = false) : s.dropWhile p = s := by
  cases s with
  | nil => rfl
  | cons x xs =>
    have := h x rfl
    rw [List.dropWhile_cons_of_neg (by simp [this])]

theorem trim_head_not (s : Str) (c : Char) (h : (trim s).head? = some c) :
    isJSSpace c = false := by
  have hp : trim s <+: s.dropWhile isJSSpace :=
    List.rdropWhile_prefix isJSSpace (s.dropWhile isJSSpace)
  obtain ⟨t, ht⟩ := hp
  apply dropWhile_head_not isJSSpace s c
  rw [← ht]
  cases hts : trim s with
  | nil => rw [hts] at h; simp at h
  | cons x xs =>
    rw [hts] at h
    simpa using h

theorem trim_getLast_not (s : Str) (c : Char) (h : (trim s).getLast? = some c) :
    isJSSpace c = false := by
  unfold trim at h
  rw [List.getLast?_reverse] at h
  exact dropWhile_head_not isJSSpace _ c h

theorem trim_of_clean (s : Str) (h1 : ∀ c, s.head? = some c → isJSSpace c = false)
    (h2 : ∀ c, s.getLast? = some c → isJSSpace c = false) : trim s = s := by
  unfold trim
  rw [dropWhile_of_head_not isJSSpace s h1]
  rw [dropWhile_of_head_not isJSSpace s.reverse (by
    intro c hc
    rw [List.head?_reverse] at hc
    exact h2 c hc)]
  exact List.reverse_reverse s

theorem trim_trim (s : Str) : trim (trim s) = trim s :=
  trim_of_clean (trim s) (trim_head_not s) (trim_getLast_not s)

theorem stripAct_cases (t : Str) : stripAct t = t ∨ t = "act_".toList ++ stripAct t := by
  unfold stripAct
  split
  · right
    rfl
  · left
    rfl

theorem stripAct_getLast (t : Str) (c : Char) (h : (stripAct t).getLast? = some c) :
    t.getLast? = some c := by
  rcases stripAct_cases t with e | e
  · rw [e] at h
    exact h
  · rw [e]
    cases hs : stripAct t with
    | nil => rw [hs] at h; simp at h
    | cons x xs =>
      rw [hs] at h
      simpa [List.getLast?_cons_cons] using h

theorem normalizeAccountId_str (P : Platform) (s : Str) :
    normalizeAccountId P (.str s) = stripAct (trim s) := by
  cases s with
  | nil => simp [normalizeAccountId, JSVal.or, JSVal.truthy, toStr]
  | cons c cs => simp [normalizeAccountId, JSVal.or, JSVal.truthy, toStr]

theorem trimVal_some (v : JSVal) (t : Str) (h : trimVal v = some t) :
    ∃ x, v = .str x ∧ t = trim x := by
  cases v with
  | str x =>
    simp only [trimVal, Option.some.injEq] at h
    exact ⟨x, rfl, h.symm⟩
  | undefined => simp [trimVal] at h
  | num x => simp [trimVal] at h
  | bool b => simp [trimVal] at h
  | date d => simp [trimVal] at h

theorem isDigit_not_space (c : Char) (h : isDigit c = true) : isJSSpace c = false := by
  unfold isDigit at h
  unfold isJSSpace
  simp only [Bool.and_eq_true, decide_eq_true_eq] at h
  obtain ⟨h1, h2⟩ := h
  simp only [Bool.or_eq_false_iff, Bool.and_eq_false_iff, decide_eq_false_iff_not]
  refine ⟨⟨⟨⟨⟨⟨⟨⟨⟨⟨⟨⟨⟨⟨?_, ?_⟩, ?_⟩, ?_⟩, ?_⟩, ?_⟩, ?_⟩, ?_⟩, ?_⟩, ?_⟩, ?_⟩, ?_⟩, ?_⟩, ?_⟩, ?_⟩ <;>
    omega
theorem isDayISO_clean (d : Str) (h : isDayISO d = true) :
    d ≠ [] ∧ (∀ c, d.head? = some c → isJSSpace c = false) ∧
      (∀ c, d.getLast? = some c → isJSSpace c = false) := by
  unfold isDayISO at h
  split at h
  · rename_i a b c d' m1 e f m2 g k
    simp only [Bool.and_eq_true] at h
    refine ⟨by simp, ?_, ?_⟩
    · intro x hx
      simp at hx
      rw [← hx]
      exact isDigit_not_space a h.1.1.1.1.1.1.1.1.1
    · intro x hx
      simp [List.getLast?_cons_cons] at hx
      rw [← hx]
      exact isDigit_not_space k h.2
  · cases h

theorem toDayISO_iso (P : Platform) (d : Str) (h : isDayISO d = true) :
    toDayISO P (.str d) = d := by
  obtain ⟨hne, h1, h2⟩ := isDayISO_clean d h
  have ht : (JSVal.str d).truthy = true := by
    cases d with
    | nil => exact absurd rfl hne
    | cons c cs => rfl
  simp only [toDayISO, ht, Bool.not_true, Bool.false_eq_true, if_false, toStr]
  rw [trim_of_clean d h1 h2]
  simp [h]

theorem idKeyOf_normalized (P : Platform) (r : Record) (f : Fact) (a d : Str)
    (h : normalize P r = some f) (ha : f.values.accountId = .str a)
    (hd : f.values.day = .str d) (hna : normalizeAccountId P (.str a) = a)
    (hnd : toDayISO P (.str d) = d) : idKeyOf P f.values = f.key := by
  obtain ⟨region, rawId, h1, _, h3, _, h5, h6, h7, _⟩ := normalize_some P r f h
  obtain ⟨x, _, hx⟩ := trimVal_some _ _ h1
  rw [ha] at h5
  rw [hd] at h7
  have ea : a = normalizeAccountId P (.str rawId) := JSVal.str.inj h5
  have ed : d = toDayISO P r.date_start := JSVal.str.inj h7
  have hreg : trim (toStr P ((JSVal.str region).or (.str []))) = region := by
    have : toStr P ((JSVal.str region).or (.str [])) = region := by
      cases region with
      | nil => simp [JSVal.or, JSVal.truthy, toStr]
      | cons c cs => simp [JSVal.or, JSVal.truthy, toStr]
    rw [this, hx, trim_trim]
  unfold idKeyOf
  rw [ha, hd, h6, hna, hnd, hreg, h3, ← ea, ← ed]

/-! ## The order of the deduplicated batch -/

theorem foldl_keys_eq (l init : List Str) :
    l.foldl (fun ks k => if k ∈ ks then ks else ks ++ [k]) init =
      init ++ (firstKeys l).filter (fun x => decide (x ∉ init)) := by
  induction l generalizing init with
  | nil => simp [firstKeys]
  | cons k l ih =>
    simp only [List.foldl_cons, firstKeys]
    by_cases hk : k ∈ init
    · rw [if_pos hk, ih]
      congr 1
      rw [List.filter_cons_of_neg (by simpa using hk), List.filter_filter]
      apply List.filter_congr
      intro x _
      by_cases hx : x ∈ init
      · simp [hx]
      · have : x ≠ k := fun e => hx (e ▸ hk)
        simp [hx, this]
    · rw [if_neg hk, ih]
      rw [List.filter_cons_of_pos (by simpa using hk), List.filter_filter]
      rw [List.append_assoc]
      congr 1
      simp only [List.singleton_append]
      congr 1
      apply List.filter_congr
      intro x _
      by_cases hx : x ∈ init
      · simp [hx]
      · by_cases e : x = k
        · simp [e]
        · simp [hx, e]

theorem dedupeIncoming_keys_order (rows : List Fact) :
    (dedupeIncoming rows).map Fact.key = firstKeys (rows.map Fact.key) := by
  rw [dedupeIncoming_keys, seenAfter_keys, foldl_keys_eq]
  simp

theorem JSMap.set_of_not_mem {V : Type} (m : JSMap V) (k : Str) (v : V)
    (h : k ∉ JSMap.keys m) : JSMap.set m k v = m ++ [(k, v)] := by
  induction m with
  | nil => rfl
  | cons a rest ih =>
    obtain ⟨k0, v0⟩ := a
    simp only [JSMap.keys_cons, List.mem_cons, not_or] at h
    have h0 : ¬ k0 = k := fun e => h.1 e.symm
    simp only [JSMap.set, if_neg h0, List.cons_append, ih h.2]

theorem seenAfter_of_nodup (rows : List Fact) (m : JSMap Fact)
    (h : (JSMap.keys m ++ rows.map Fact.key).Nodup) :
    seenAfter m rows = m ++ rows.map (fun f => (f.key, f)) := by
  induction rows generalizing m with
  | nil => simp [seenAfter]
  | cons f fs ih =>
    have hf : f.key ∉ JSMap.keys m := by
      intro hm
      rw [List.nodup_append] at h
      exact h.2.2 hm (by simp) 
    rw [seenAfter_cons, JSMap.set_of_not_mem m f.key f hf, ih]
    · simp
    · have : JSMap.keys (m ++ [(f.key, f)]) = JSMap.keys m ++ [f.key] := by
        simp [JSMap.keys]
      rw [this]
      simpa using h

theorem dedupeIncoming_of_nodup (rows : List Fact) (h : (rows.map Fact.key).Nodup) :
    dedupeIncoming rows = rows := by
  rw [dedupeIncoming_eq, seenAfter_of_nodup rows [] (by simpa using h)]
  simp only [JSMap.values, List.nil_append, List.map_map]
  have : (Prod.snd ∘ fun f : Fact => (f.key, f)) = id := rfl
  rw [this, List.map_id]

theorem dedupeIncoming_idem (rows : List Fact) :
    dedupeIncoming (dedupeIncoming rows) = dedupeIncoming rows := by
  apply dedupeIncoming_of_nodup
  rw [dedupeIncoming_keys]
  exact seenAfter_keys_nodup rows [] List.nodup_nil

theorem appendedFacts_sublist (P : Platform) (fs : List Fact) (st : LoopState) :
    (appendedFacts P st fs).Sublist fs := by
  induction fs generalizing st with
  | nil => simp [appendedFacts]
  | cons f fs ih =>
    simp only [appendedFacts]
    split
    · exact (ih _).cons₂ f
    · exact (ih _).cons f

/-! ## A single fact that matches by identifier -/

theorem upsert_single_update (P : Platform) (data : List Row) (f : Fact) (j : Nat) (r : Row)
    (hd : dropped f = false) (hj : data[j]? = some r)
    (hk : rowIdKey P r = some (idKeyOf P f.values))
    (hlast : ∀ j' r', j < j' → data[j']? = some r' →
      rowIdKey P r' ≠ some (idKeyOf P f.values)) :
    upsertToSheet P (HEADER :: data) [f] = HEADER :: data.set j f.values := by
  have hg : JSMap.get (buildIndex P (HEADER :: data)).byId (idKeyOf P f.values) = some (j + 2) := by
    rw [buildIndex_byId, lastIdx_map_of_last (rowIdKey P) _ data j r hj hk hlast]
    rfl
  have hs := classifyStep_update P (buildIndex P (HEADER :: data)) f (j + 2) hd hg (by omega)
  rw [(buildIndex_queues P data).2, List.nil_append] at hs
  rw [upsertToSheet_header, upsertCore_data, dedupeIncoming_singleton]
  have hc : classify P (buildIndex P (HEADER :: data)) [f] =
      classifyStep P (buildIndex P (HEADER :: data)) f := rfl
  rw [hc, hs]
  simp [applyData, (buildIndex_queues P data).1]

/-! ## Name keys are used once -/

theorem buildIndex_nameInv (P : Platform) (data : List Row) :
    NameInv (buildIndex P (HEADER :: data)) := by
  constructor
  · intro k k' n h1 h2
    rw [buildIndex_byName] at h1 h2
    cases e1 : lastIdx k (data.map (rowNameKey P)) with
    | none => rw [e1] at h1; cases h1
    | some j1 =>
      cases e2 : lastIdx k' (data.map (rowNameKey P)) with
      | none => rw [e2] at h2; cases h2
      | some j2 =>
        rw [e1] at h1
        rw [e2] at h2
        have hj : j1 = j2 := by
          have a := Option.some.inj h1
          have b := Option.some.inj h2
          simp only at a b
          omega
        subst hj
        have a := ((lastIdx_some _ _ _).1 e1).1
        have b := ((lastIdx_some _ _ _).1 e2).1
        rw [a] at b
        exact Option.some.inj (Option.some.inj b)
  · intro k k' n h1 h2
    rw [buildIndex_byId] at h1
    rw [buildIndex_byName] at h2
    cases e1 : lastIdx k (data.map (rowIdKey P)) with
    | none => rw [e1] at h1; cases h1
    | some j1 =>
      cases e2 : lastIdx k' (data.map (rowNameKey P)) with
      | none => rw [e2] at h2; cases h2
      | some j2 =>
        rw [e1] at h1
        rw [e2] at h2
        have hj : j1 = j2 := by
          have a := Option.some.inj h1
          have b := Option.some.inj h2
          simp only at a b
          omega
        subst hj
        obtain ⟨r1, hr1, hk1⟩ := getElem?_map_some _ _ _ _ ((lastIdx_some _ _ _).1 e1).1
        obtain ⟨r2, hr2, hk2⟩ := getElem?_map_some _ _ _ _ ((lastIdx_some _ _ _).1 e2).1
        rw [hr1] at hr2
        cases hr2
        rw [rowIdKey_some_nameKey_none P r1 k hk1] at hk2
        cases hk2

theorem classifyStep_nameInv (P : Platform) (st : LoopState) (f : Fact) (h : NameInv st) :
    NameInv (classifyStep P st f) := by
  rcases classifyStep_cases P st f with ⟨_, e⟩ | ⟨_, n, _, _, e⟩ | ⟨_, _, n, _, hm, e⟩ | ⟨_, _, _, e⟩
  · rw [e]; exact h
  · rw [e]; exact ⟨h.inj, h.disj⟩
  · rw [e]
    constructor
    · intro k k' m h1 h2
      simp only [JSMap.get_delete] at h1 h2
      by_cases e1 : nameKeyOf P f.values = k
      · rw [if_pos e1] at h1; cases h1
      · by_cases e2 : nameKeyOf P f.values = k'
        · rw [if_pos e2] at h2; cases h2
        · rw [if_neg e1] at h1
          rw [if_neg e2] at h2
          exact h.inj k k' m h1 h2
    · intro k k' m h1 h2
      simp only [JSMap.get_set] at h1
      simp only [JSMap.get_delete] at h2
      by_cases e2 : nameKeyOf P f.values = k'
      · rw [if_pos e2] at h2; cases h2
      · rw [if_neg e2] at h2
        by_cases e1 : idKeyOf P f.values = k
        · rw [if_pos e1] at h1
          cases h1
          exact e2 (h.inj _ _ _ hm h2)
        · rw [if_neg e1] at h1
          exact h.disj k k' m h1 h2
  · rw [e]; exact ⟨h.inj, h.disj⟩

theorem classify_nameInv (P : Platform) (fs : List Fact) (st : LoopState) (h : NameInv st) :
    NameInv (classify P st fs) := by
  induction fs generalizing st with
  | nil => exact h
  | cons f fs ih =>
    rw [classify_cons]
    exact ih _ (classifyStep_nameInv P st f h)

theorem classifyStep_retired (P : Platform) (st : LoopState) (g : Fact) (n : Nat) (kf : Str)
    (h : Retired n kf st) : Retired n kf (classifyStep P st g) := by
  rcases classifyStep_cases P st g with ⟨_, e⟩ | ⟨_, m, _, _, e⟩ | ⟨_, _, m, _, hm, e⟩ | ⟨_, _, _, e⟩
  · rw [e]; exact h
  · rw [e]; exact ⟨h.noName, h.onlyId⟩
  · rw [e]
    constructor
    · intro k hk
      simp only [JSMap.get_delete] at hk
      by_cases e1 : nameKeyOf P g.values = k
      · rw [if_pos e1] at hk; cases hk
      · rw [if_neg e1] at hk
        exact h.noName k hk
    · intro k hk
      simp only [JSMap.get_set] at hk
      by_cases e1 : idKeyOf P g.values = k
      · rw [if_pos e1] at hk
        cases hk
        exact absurd hm (h.noName _)
      · rw [if_neg e1] at hk
        exact h.onlyId k hk
  · rw [e]; exact ⟨h.noName, h.onlyId⟩

theorem classify_retired (P : Platform) (fs : List Fact) (st : LoopState) (n : Nat) (kf : Str)
    (h : Retired n kf st) : Retired n kf (classify P st fs) := by
  induction fs generalizing st with
  | nil => exact h
  | cons f fs ih =>
    rw [classify_cons]
    exact ih _ (classifyStep_retired P st f n kf h)

theorem promote_retires (P : Platform) (st : LoopState) (f : Fact) (n : Nat)
    (hinv : NameInv st) (hd : dropped f = false)
    (hid : rowTruthy (JSMap.get st.byId (idKeyOf P f.values)) = false)
    (hm : JSMap.get st.byName (nameKeyOf P f.values) = some n) (hn : n ≠ 0) :
    Retired n (idKeyOf P f.values) (classifyStep P st f) := by
  rw [classifyStep_promote P st f n hd hid hm hn]
  constructor
  · intro k hk
    simp only [JSMap.get_delete] at hk
    by_cases e1 : nameKeyOf P f.values = k
    · rw [if_pos e1] at hk; cases hk
    · rw [if_neg e1] at hk
      exact e1 (hinv.inj _ _ _ hm hk)
  · intro k hk
    simp only [JSMap.get_set] at hk
    by_cases e1 : idKeyOf P f.values = k
    · exact e1.symm
    · rw [if_neg e1] at hk
      exact absurd hm (hinv.disj k _ n hk)

theorem classifyStep_byName_none (P : Platform) (st : LoopState) (f : Fact) (k : Str)
    (h : JSMap.get st.byName k = none) : JSMap.get (classifyStep P st f).byName k = none := by
  rcases classifyStep_cases P st f with ⟨_, e⟩ | ⟨_, n, _, _, e⟩ | ⟨_, _, n, _, _, e⟩ | ⟨_, _, _, e⟩
  · rw [e]; exact h
  · rw [e]; exact h
  · rw [e]
    simp only [JSMap.get_delete]
    by_cases e1 : nameKeyOf P f.values = k
    · rw [if_pos e1]
    · rw [if_neg e1]; exact h
  · rw [e]; exact h

theorem classify_byName_none (P : Platform) (fs : List Fact) (st : LoopState) (k : Str)
    (h : JSMap.get st.byName k = none) : JSMap.get (classify P st fs).byName k = none := by
  induction fs generalizing st with
  | nil => exact h
  | cons f fs ih =>
    rw [classify_cons]
    exact ih _ (classifyStep_byName_none P st f k h)

/-! ## Keys no earlier fact carries, and the last write of a row -/

theorem classifyStep_byName_keep (P : Platform) (st : LoopState) (f : Fact) (k : Str)
    (h : dropped f = false → nameKeyOf P f.values ≠ k) :
    JSMap.get (classifyStep P st f).byName k = JSMap.get st.byName k := by
  rcases classifyStep_cases P st f with ⟨_, e⟩ | ⟨_, n, _, _, e⟩ | ⟨hd, _, n, _, _, e⟩ | ⟨_, _, _, e⟩
  · rw [e]
  · rw [e]
  · rw [e]
    simp only [JSMap.get_delete]
    rw [if_neg (h hd)]
  · rw [e]

theorem classify_byName_keep (P : Platform) (fs : List Fact) (st : LoopState) (k : Str)
    (h : ∀ g ∈ fs, dropped g = false → nameKeyOf P g.values ≠ k) :
    JSMap.get (classify P st fs).byName k = JSMap.get st.byName k := by
  induction fs generalizing st with
  | nil => rfl
  | cons f fs ih =>
    rw [classify_cons, ih _ (fun g hg => h g (List.mem_cons_of_mem _ hg))]
    exact classifyStep_byName_keep P st f k (h f (List.mem_cons_self _ _))

theorem classifyStep_byId_keep (P : Platform) (st : LoopState) (f : Fact) (k : Str)
    (h : dropped f = false → idKeyOf P f.values ≠ k) :
    JSMap.get (classifyStep P st f).byId k = JSMap.get st.byId k := by
  rcases classifyStep_cases P st f with ⟨_, e⟩ | ⟨_, n, _, _, e⟩ | ⟨hd, _, n, _, _, e⟩ | ⟨_, _, _, e⟩
  · rw [e]
  · rw [e]
  · rw [e]
    simp only [JSMap.get_set]
    rw [if_neg (h hd)]
  · rw [e]

theorem classify_byId_keep (P : Platform) (fs : List Fact) (st : LoopState) (k : Str)
    (h : ∀ g ∈ fs, dropped g = false → idKeyOf P g.values ≠ k) :
    JSMap.get (classify P st fs).byId k = JSMap.get st.byId k := by
  induction fs generalizing st with
  | nil => rfl
  | cons f fs ih =>
    rw [classify_cons, ih _ (fun g hg => h g (List.mem_cons_of_mem _ hg))]
    exact classifyStep_byId_keep P st f k (h f (List.mem_cons_self _ _))

/-- Once row `n` is held by `byId` under the key `kf` only and by no name key,
the facts with another identifier key queue no update of row `n`. -/
theorem classify_toUpdate_retired (P : Platform) (fs : List Fact) (st : LoopState) (n : Nat)
    (kf : Str) (hr : Retired n kf st)
    (h : ∀ g ∈ fs, dropped g = false → idKeyOf P g.values ≠ kf) :
    ∃ vs, (classify P st fs).toUpdate = st.toUpdate ++ vs ∧ ∀ u ∈ vs, u.1 ≠ n := by
  induction fs generalizing st with
  | nil => exact ⟨[], by simp [classify], by simp⟩
  | cons f fs ih =>
    rw [classify_cons]
    obtain ⟨vs, hvs, hne⟩ := ih (classifyStep P st f) (classifyStep_retired P st f n kf hr)
      (fun g hg => h g (List.mem_cons_of_mem _ hg))
    have hf := h f (List.mem_cons_self _ _)
    rcases classifyStep_cases P st f with
      ⟨_, e⟩ | ⟨hd, m, _, hm, e⟩ | ⟨hd, _, m, _, hm, e⟩ | ⟨_, _, _, e⟩
    · have hu : (classifyStep P st f).toUpdate = st.toUpdate := by rw [e]
      rw [hu] at hvs
      exact ⟨vs, hvs, hne⟩
    · have hu : (classifyStep P st f).toUpdate = st.toUpdate ++ [(m, f.values)] := by rw [e]
      rw [hu] at hvs
      refine ⟨(m, f.values) :: vs, ?_, ?_⟩
      · rw [hvs]
        simp
      · intro u hu'
        rcases List.mem_cons.mp hu' with e1 | e1
        · rw [e1]
          intro hmn
          have hmn2 : m = n := hmn
          subst hmn2
          exact hf hd (hr.onlyId _ hm)
        · exact hne u e1
    · have hu : (classifyStep P st f).toUpdate =
          st.toUpdate ++ [(m, promoteWrite P f.values)] := by rw [e]
      rw [hu] at hvs
      refine ⟨(m, promoteWrite P f.values) :: vs, ?_, ?_⟩
      · rw [hvs]
        simp
      · intro u hu'
        rcases List.mem_cons.mp hu' with e1 | e1
        · rw [e1]
          intro hmn
          have hmn2 : m = n := hmn
          subst hmn2
          exact hr.noName _ hm
        · exact hne u e1
    · have hu : (classifyStep P st f).toUpdate = st.toUpdate := by rw [e]
      rw [hu] at hvs
      exact ⟨vs, hvs, hne⟩

theorem applyData_split (data : List Row) (us vs : List (Nat × Row)) :
    applyData data (us ++ vs) = applyData (applyData data us) vs := by
  simp [applyData, List.foldl_append]

/-- The row at position `j` after the updates holds the values of the last
update queued for row `j + 2`. -/
theorem applyData_last_target (data : List Row) (us vs : List (Nat × Row)) (j : Nat) (v : Row)
    (hj : j < data.length) (h : ∀ u ∈ vs, u.1 - 2 ≠ j) :
    (applyData data (us ++ (j + 2, v) :: vs))[j]? = some v := by
  have e : us ++ (j + 2, v) :: vs = (us ++ [(j + 2, v)]) ++ vs := by simp
  rw [e, applyData_split, applyData_getElem?_of_not_target _ vs j h, applyData_append]
  have hl : j < (applyData data us).length := by rw [applyData_length]; exact hj
  simp [hl]

/-! ## C1: running twice with the same batch -/

/-- C1, what the code does not do: (1) a record without `date_start` is
normalized to a fact with an empty day, which no index entry can match, so
each run appends it again; (2) with the identifiers `act_act_1` and `act_1`
in one batch and a row known by name only, the second run rewrites row 3
with other values. -/
theorem upsert_twice_differs :
    normalize host recNoDay = some factNoDay ∧
    upsertToSheet host [HEADER] [factNoDay] = [HEADER, factNoDay.values] ∧
    upsertToSheet host (upsertToSheet host [HEADER] [factNoDay]) [factNoDay] =
      [HEADER, factNoDay.values, factNoDay.values] ∧
    normalizeAll host [recTwice, recUS (.num (.fin 120))] = some [factTwice, factUS 120] ∧
    upsertToSheet host [HEADER, rowAcmeUS] [factTwice, factUS 120] =
      [HEADER, (factUS 120).values, factTwice.values] ∧
    upsertToSheet host (upsertToSheet host [HEADER, rowAcmeUS] [factTwice, factUS 120])
        [factTwice, factUS 120] =
      [HEADER, (factUS 120).values, (factUS 120).values] := by
  decide

/-- C1, amended: for every store and every batch whose facts are canonical
(each fact with finite positive spend has a non-empty account id and a
non-empty day after the reconciler's normalization, and its key is the
identifier key the reconciler recomputes from its values), a second run with
the same batch leaves the store exactly as the first run left it. -/
theorem upsertToSheet_idempotent (P : Platform) (sh : Sheet) (rows : List Fact)
    (hc : ∀ f ∈ rows, Canonical P f) :
    upsertToSheet P (upsertToSheet P sh rows) rows = upsertToSheet P sh rows := by
  obtain ⟨data, hdata⟩ := ensureSheetHeader_cons P sh
  have h1 : upsertToSheet P sh rows = upsertToSheet P (HEADER :: data) rows := by
    simp only [upsertToSheet, hdata, ensureSheetHeader_header]
  obtain ⟨W, hW, _, hfix⟩ := upsert_rows_of_batch P data rows hc
  rw [h1, hW, upsertToSheet_header]
  exact upsertCore_fixed P W rows hfix

/-- A run of the amended C1: the store holds account `1`, `US`, `2024-03-01`
and a row known by name only; the batch updates the first, promotes the
second, and a second run changes nothing. -/
theorem upsertToSheet_idempotent_witness :
    normalizeAll host [recUS (.num (.fin 120)), rec42] = some [factUS 120, fact42 9] ∧
    upsertToSheet host [HEADER, rowUS, rowAcme] [factUS 120, fact42 9] =
      [HEADER, (factUS 120).values, (fact42 9).values] ∧
    upsertToSheet host (upsertToSheet host [HEADER, rowUS, rowAcme] [factUS 120, fact42 9])
        [factUS 120, fact42 9] =
      upsertToSheet host [HEADER, rowUS, rowAcme] [factUS 120, fact42 9] :=
  ⟨by decide, by decide,
    upsertToSheet_idempotent host [HEADER, rowUS, rowAcme] [factUS 120, fact42 9] (by decide)⟩

/-! ## C2: key uniqueness -/

/-- C2, what the code does not do: (1) a stored row with account `1`, region
`US` and an empty day is not indexed, so an incoming fact with the same three
values is appended next to it; (2) the identifiers `act_act_1` and `act_1`
give two facts with different keys that the reconciler keys alike, and both
are appended to an empty store. -/
theorem upsert_breaks_key_uniqueness :
    normalize host recNoDay = some factNoDay ∧
    normalizeAccountId host factNoDay.values.accountId = "1".toList ∧
    upsertToSheet host [HEADER, factNoDay.values] [factNoDay] =
      [HEADER, factNoDay.values, factNoDay.values] ∧
    normalizeAll host [recTwice, recUS (.num (.fin 120))] = some [factTwice, factUS 120] ∧
    upsertToSheet host [HEADER] [factTwice, factUS 120] =
      [HEADER, factTwice.values, (factUS 120).values] ∧
    rowIdKey host factTwice.values = some "1|US|2024-03-01".toList ∧
    rowIdKey host (factUS 120).values = some "1|US|2024-03-01".toList := by
  decide

/-- C2, amended: if no two data rows that the reconciler indexes by
identifier (non-empty account id, non-empty day) share the identifier key
`accountId|region|day`, and the facts of the batch are canonical, then the
same holds of the data rows after the run. -/
theorem key_uniqueness_preserved (P : Platform) (data : List Row) (rows : List Fact)
    (hu : KeyUnique P data) (hc : ∀ f ∈ rows, Canonical P f) :
    KeyUnique P ((upsertToSheet P (HEADER :: data) rows).drop 1) := by
  obtain ⟨W, hW, hk, _⟩ := upsert_rows_of_batch P data rows hc
  rw [hW]
  exact hk hu

/-- A run of the amended C2: one indexed row and one row known by name; the
batch updates the first and promotes the second. -/
theorem key_uniqueness_preserved_witness :
    KeyUnique host [rowUS, rowAcme] ∧
    (upsertToSheet host [HEADER, rowUS, rowAcme] [factUS 120, fact42 9]).drop 1 =
      [(factUS 120).values, (fact42 9).values] ∧
    KeyUnique host
      ((upsertToSheet host [HEADER, rowUS, rowAcme] [factUS 120, fact42 9]).drop 1) :=
  have hu : KeyUnique host [rowUS, rowAcme] := by
    have e : [rowUS, rowAcme].map (rowIdKey host) = [some "1|US|2024-03-01".toList, none] := by
      decide
    unfold KeyUnique
    rw [e]
    intro i j k hi hj
    rcases i with _ | _ | i
    · rcases j with _ | _ | j
      · rfl
      · simp at hj
      · simp at hj
    · simp at hi
    · simp at hi
  ⟨hu, by decide,
    key_uniqueness_preserved host [rowUS, rowAcme] [factUS 120, fact42 9] hu (by decide)⟩

/-! ## C3: the deduplicator keeps the last fact of each key -/

/-- C3: `dedupeIncoming` returns facts with pairwise distinct keys, its keys
are exactly the keys that occur in the input, and each returned fact is the
last fact of the input that carries its key (no later fact has that key). -/
theorem dedupeIncoming_last_wins (rows : List Fact) :
    ((dedupeIncoming rows).map Fact.key).Nodup ∧
    (∀ k, k ∈ (dedupeIncoming rows).map Fact.key ↔ k ∈ rows.map Fact.key) ∧
    (∀ f ∈ dedupeIncoming rows,
      ∃ pre post, rows = pre ++ f :: post ∧ ∀ g ∈ post, g.key ≠ f.key) := by
  refine ⟨?_, ?_, ?_⟩
  · rw [dedupeIncoming_keys]
    exact seenAfter_keys_nodup rows [] List.nodup_nil
  · intro k
    rw [dedupeIncoming_keys, seenAfter_mem_keys]
    simp
  · intro f hf
    exact (lastWithKey_some rows f.key f ((dedupeIncoming_mem rows f).1 hf)).2

/-! ## C4: of two facts with one key, the later one counts -/

/-- C4, what the code does not do: when the later of two facts with one key
has spend `0`, nothing is written for the key; the stored row keeps its amount
`100.5` and no row holds the later fact's values. -/
theorem later_dropped_fact_writes_nothing :
    (factUS 5).key = (factUS 0).key ∧ (factUS 5).spend ≠ (factUS 0).spend ∧
    upsertToSheet host [HEADER, rowUS] [factUS 5, factUS 0] = [HEADER, rowUS] ∧
    rowUS ≠ (factUS 0).values ∧
    upsertToSheet host [HEADER] [factUS 5, factUS 0] = [HEADER] := by
  decide

/-- C4, amended: let two facts of a batch of canonical facts share a key, the
later one being the last fact with that key and having finite positive spend.
After the run the row that the index holds for that key carries exactly the
later fact's values, and the run does not depend on the earlier fact: any
other fact with the same key in its place gives the same store. -/
theorem later_fact_wins (P : Platform) (data : List Row) (pre mid post : List Fact)
    (e l : Fact) (hk : e.key = l.key) (hpost : ∀ g ∈ post, g.key ≠ l.key)
    (hd : dropped l = false)
    (hc : ∀ f ∈ pre ++ e :: (mid ++ l :: post), Canonical P f) :
    (∃ j,
      JSMap.get (buildIndex P
          (upsertToSheet P (HEADER :: data) (pre ++ e :: (mid ++ l :: post)))).byId l.key =
        some (j + 2) ∧
      (upsertToSheet P (HEADER :: data) (pre ++ e :: (mid ++ l :: post)))[j + 1]? =
        some l.values) ∧
    (∀ e', e'.key = e.key →
      upsertToSheet P (HEADER :: data) (pre ++ e' :: (mid ++ l :: post)) =
        upsertToSheet P (HEADER :: data) (pre ++ e :: (mid ++ l :: post))) := by
  constructor
  · have hmem : l ∈ dedupeIncoming (pre ++ e :: (mid ++ l :: post)) := by
      rw [dedupeIncoming_mem]
      have : pre ++ e :: (mid ++ l :: post) = (pre ++ e :: mid) ++ l :: post := by simp
      rw [this]
      exact lastWithKey_append_cons _ post l hpost
    obtain ⟨W, hW, _, hfix⟩ := upsert_rows_of_batch P data _ hc
    obtain ⟨j, hl, hv⟩ := hfix l hmem hd
    have hkey := (hc l (by simp)).rowIdKey_eq hd
    rw [rowIdKey_some_idKeyOf P l.values l.key hkey] at hl
    refine ⟨j, ?_, ?_⟩
    · rw [hW, buildIndex_byId, hl]
      rfl
    · rw [hW]
      simpa using hv
  · intro e' hk'
    simp only [upsertToSheet, upsertCore, dedupeIncoming_shadowed pre mid post e e' l hk hk']

/-- A run of the amended C4: spend `5` and then spend `120` for account `1`,
`US`, `2024-03-01`, with another fact in between; row 2 ends with amount `120`. -/
theorem later_fact_wins_witness :
    (∃ j,
      JSMap.get (buildIndex host
          (upsertToSheet host (HEADER :: [rowUS])
            ([] ++ factUS 5 :: ([fact42 9] ++ factUS 120 :: [])))).byId (factUS 120).key =
        some (j + 2) ∧
      (upsertToSheet host (HEADER :: [rowUS])
          ([] ++ factUS 5 :: ([fact42 9] ++ factUS 120 :: [])))[j + 1]? =
        some (factUS 120).values) ∧
    upsertToSheet host [HEADER, rowUS] [factUS 5, fact42 9, factUS 120] =
      [HEADER, (factUS 120).values, (fact42 9).values] :=
  ⟨(later_fact_wins host [rowUS] [] [fact42 9] [] (factUS 5) (factUS 120) (by decide)
      (by decide) (by decide) (by decide)).1, by decide⟩

/-! ## C5: facts with a non-finite or non-positive spend are skipped -/

/-- C5: a fact whose spend is not finite or is `<= 0` leaves the loop state
as it is (no queued update, no queued append, both maps unchanged); the
classification of a batch is that of the batch without such facts; and a
batch made only of such facts leaves the store unchanged. -/
theorem dropped_fact_no_write (P : Platform) (data : List Row) (rows : List Fact)
    (st : LoopState) (f : Fact) :
    (dropped f = true → classifyStep P st f = st) ∧
    classify P st (dedupeIncoming rows) =
      classify P st ((dedupeIncoming rows).filter (fun g => !dropped g)) ∧
    ((∀ g ∈ rows, dropped g = true) →
      upsertToSheet P (HEADER :: data) rows = HEADER :: data) := by
  refine ⟨classifyStep_dropped P st f, classify_filter P st _, ?_⟩
  intro h
  rw [upsertToSheet_header, upsertCore_data]
  rw [classify_all_dropped P _ _ (fun g hg => h g (dedupeIncoming_subset rows g hg))]
  rw [(buildIndex_queues P data).1, (buildIndex_queues P data).2]
  simp [applyData]

/-- A run of C5: spend `0`, spend `-5` and a `NaN` spend against a store with
one data row. -/
theorem dropped_fact_no_write_witness :
    (classifyStep host (buildIndex host [HEADER, rowUS]) (factUS 0) =
      buildIndex host [HEADER, rowUS]) ∧
    upsertToSheet host [HEADER, rowUS]
        [factUS 0, factUS (-5), { factUS 0 with spend := .nan }] = [HEADER, rowUS] :=
  ⟨(dropped_fact_no_write host [rowUS] [] (buildIndex host [HEADER, rowUS]) (factUS 0)).1
      (by decide),
   (dropped_fact_no_write host [rowUS] [factUS 0, factUS (-5), { factUS 0 with spend := .nan }]
      emptyState (factUS 0)).2.2 (by decide)⟩

/-! ## C6: the update path -/

/-- C6, what the code does not do: with two data rows that carry the
identifier key of the incoming fact, only the last one is overwritten; row 2,
whose key equals the fact's, keeps its amount `100.5`. -/
theorem update_skips_earlier_duplicate :
    rowIdKey host rowUS = some (idKeyOf host (factUS 120).values) ∧
    dropped (factUS 120) = false ∧
    upsertToSheet host [HEADER, rowUS, rowUS] [factUS 120] =
      [HEADER, rowUS, (factUS 120).values] ∧
    rowUS ≠ (factUS 120).values := by
  decide

/-- C6, amended: when the store contains a data row with non-empty account
id and day whose identifier key is that of an incoming fact with finite
positive spend, the fact is queued as an update of the last such row (the one
`byId` holds) and not as an append; a batch made of that fact overwrites the
eight cells of that row with the fact's values and leaves every other row and
the row count unchanged; and the fact is queued in the same way after any
facts `pre` the loop has classified before it. -/
theorem update_path (P : Platform) (data : List Row) (f : Fact) (j : Nat) (r : Row)
    (hd : dropped f = false) (hj : data[j]? = some r)
    (hk : rowIdKey P r = some (idKeyOf P f.values))
    (hlast : ∀ j' r', j < j' → data[j']? = some r' →
      rowIdKey P r' ≠ some (idKeyOf P f.values)) :
    classifyStep P (buildIndex P (HEADER :: data)) f =
      { buildIndex P (HEADER :: data) with toUpdate := [(j + 2, f.values)] } ∧
    upsertToSheet P (HEADER :: data) [f] = HEADER :: data.set j f.values ∧
    (upsertToSheet P (HEADER :: data) [f]).length = (HEADER :: data).length ∧
    (∀ pre : List Fact,
      classifyStep P (classify P (buildIndex P (HEADER :: data)) pre) f =
        { classify P (buildIndex P (HEADER :: data)) pre with
          toUpdate := (classify P (buildIndex P (HEADER :: data)) pre).toUpdate ++
            [(j + 2, f.values)] }) := by
  have hg : JSMap.get (buildIndex P (HEADER :: data)).byId (idKeyOf P f.values) = some (j + 2) := by
    rw [buildIndex_byId, lastIdx_map_of_last (rowIdKey P) _ data j r hj hk hlast]
    rfl
  have hs := classifyStep_update P (buildIndex P (HEADER :: data)) f (j + 2) hd hg (by omega)
  rw [(buildIndex_queues P data).2, List.nil_append] at hs
  have hrun : upsertToSheet P (HEADER :: data) [f] = HEADER :: data.set j f.values := by
    rw [upsertToSheet_header, upsertCore_data, dedupeIncoming_singleton]
    have hc : classify P (buildIndex P (HEADER :: data)) [f] =
        classifyStep P (buildIndex P (HEADER :: data)) f := rfl
    rw [hc, hs]
    simp [applyData, (buildIndex_queues P data).1]
  refine ⟨hs, hrun, ?_, ?_⟩
  · rw [hrun]
    simp
  · intro pre
    exact classifyStep_update P _ f (j + 2) hd
      (classify_byId_stable P pre _ _ _ (by omega) hg) (by omega)

/-- A run of the amended C6: the store holds account `1`, `US`, `2024-03-01`
with amount `100.5`; the same key with spend `120` turns the amount into `120`
and adds no row, also when the fact comes second in the batch. -/
theorem update_path_witness :
    classifyStep host (buildIndex host [HEADER, rowUS]) (factUS 120) =
      { buildIndex host [HEADER, rowUS] with toUpdate := [(2, (factUS 120).values)] } ∧
    upsertToSheet host [HEADER, rowUS] [factUS 120] =
      [HEADER, { rowUS with amount := .num (.fin 120) }] ∧
    (upsertToSheet host [HEADER, rowUS] [factUS 120]).length = 2 ∧
    classifyStep host (classify host (buildIndex host (HEADER :: [rowUS])) [fact42 9])
        (factUS 120) =
      { classify host (buildIndex host (HEADER :: [rowUS])) [fact42 9] with
        toUpdate := (classify host (buildIndex host (HEADER :: [rowUS])) [fact42 9]).toUpdate ++
          [(0 + 2, (factUS 120).values)] } :=
  have h := update_path host [rowUS] (factUS 120) 0 rowUS (by decide) (by decide) (by decide)
    (by
      intro j' r' hlt hj'
      have : j' = j' - 1 + 1 := by omega
      rw [this] at hj'
      simp at hj')
  ⟨h.1, h.2.1, h.2.2.1, h.2.2.2 [fact42 9]⟩

/-! ## C7: promotion of a row matched by name -/

/-- C7, what the code does not do.  With two data rows that have an empty
account id and the name, region and day of the incoming fact, only the last
one is promoted; row 2 keeps its empty account id.  And with one such row and
no row indexed under either identifier key, of two incoming facts with that
name, region and day, only the first is written into the row: the name key is
gone when the second one for account `act_43` comes, which is appended as a
new row. -/
theorem promotion_skips_earlier_duplicate :
    normalize host rec42 = some (fact42 9) ∧
    rowNameKey host rowAcme = some (nameKeyOf host (fact42 9).values) ∧
    (∀ k, JSMap.get (buildIndex host [HEADER, rowAcme, rowAcme]).byId k = none) ∧
    upsertToSheet host [HEADER, rowAcme, rowAcme] [fact42 9] =
      [HEADER, rowAcme, (fact42 9).values] ∧
    rowAcme ≠ (fact42 9).values ∧
    normalize host { rec42 with account_id := .str "act_43".toList, spend := .num (.fin 11) } =
      some (fact43 11) ∧
    rowNameKey host rowAcme = some (nameKeyOf host (fact43 11).values) ∧
    (∀ k, JSMap.get (buildIndex host [HEADER, rowAcme]).byId k = none) ∧
    upsertToSheet host [HEADER, rowAcme] [fact42 9, fact43 11] =
      [HEADER, (fact42 9).values, (fact43 11).values] := by
  refine ⟨by decide, by decide, ?_, by decide, by decide, by decide, by decide, ?_, by decide⟩
  · intro k
    have : (buildIndex host [HEADER, rowAcme, rowAcme]).byId = [] := by decide
    rw [this]
    rfl
  · intro k
    have : (buildIndex host [HEADER, rowAcme]).byId = [] := by decide
    rw [this]
    rfl

/-- C7, amended: let row `j + 2` be the last data row with a non-empty day,
an empty account id, a non-empty name and a non-empty region whose name key
is that of the incoming fact `f` (finite positive spend), let no data row be
indexed under the identifier key of `f`, and let no fact with finite positive
spend that the loop classifies before `f` (the facts `pre` of the deduplicated
batch) carry the name key or the identifier key of `f`.  Then, wherever `f`
stands in the batch, the loop queues `f` as an update of that row, with the
values of `f`, and queues no append; the step sets `byId` at the identifier
key of `f` to that row and removes the name key from `byName`; at the end of
the run of any batch whose later facts have other identifier keys, that row of
the sheet holds the values of `f`; a batch made of `f` rewrites that row only;
the written values are those of `f` whenever its account id cell is a string,
as the normalizer makes it; and any later fact `g` of the batch with the
identifier key of `f` is queued as an update of the same row. -/
theorem promotion_path (P : Platform) (data : List Row) (pre : List Fact) (f : Fact) (j : Nat)
    (r : Row)
    (hd : dropped f = false) (hj : data[j]? = some r)
    (hn : rowNameKey P r = some (nameKeyOf P f.values))
    (hlast : ∀ j' r', j < j' → data[j']? = some r' →
      rowNameKey P r' ≠ some (nameKeyOf P f.values))
    (hnoid : ∀ r' ∈ data, rowIdKey P r' ≠ some (idKeyOf P f.values))
    (hpre : ∀ g ∈ pre, dropped g = false →
      nameKeyOf P g.values ≠ nameKeyOf P f.values ∧ idKeyOf P g.values ≠ idKeyOf P f.values) :
    classifyStep P (classify P (buildIndex P (HEADER :: data)) pre) f =
      { byId := JSMap.set (classify P (buildIndex P (HEADER :: data)) pre).byId
          (idKeyOf P f.values) (j + 2)
        byName := JSMap.delete (classify P (buildIndex P (HEADER :: data)) pre).byName
          (nameKeyOf P f.values)
        toAppend := (classify P (buildIndex P (HEADER :: data)) pre).toAppend
        toUpdate := (classify P (buildIndex P (HEADER :: data)) pre).toUpdate ++
          [(j + 2, promoteWrite P f.values)] } ∧
    (∀ (rows post : List Fact), dedupeIncoming rows = pre ++ f :: post →
      (∀ g ∈ post, dropped g = false → idKeyOf P g.values ≠ idKeyOf P f.values) →
      (upsertToSheet P (HEADER :: data) rows)[j + 1]? = some (promoteWrite P f.values)) ∧
    upsertToSheet P (HEADER :: data) [f] = HEADER :: data.set j (promoteWrite P f.values) ∧
    (∀ s, f.values.accountId = .str s → promoteWrite P f.values = f.values) ∧
    (∀ (mid : List Fact) (g : Fact), dropped g = false →
      idKeyOf P g.values = idKeyOf P f.values →
      classifyStep P
          (classify P (classifyStep P (classify P (buildIndex P (HEADER :: data)) pre) f) mid) g =
        { classify P (classifyStep P (classify P (buildIndex P (HEADER :: data)) pre) f) mid with
          toUpdate :=
            (classify P (classifyStep P (classify P (buildIndex P (HEADER :: data)) pre) f)
              mid).toUpdate ++ [(j + 2, g.values)] }) := by
  have hid0 : JSMap.get (buildIndex P (HEADER :: data)).byId (idKeyOf P f.values) = none := by
    rw [buildIndex_byId]
    have : lastIdx (idKeyOf P f.values) (data.map (rowIdKey P)) = none := by
      rw [lastIdx_none]
      intro x hx
      obtain ⟨r', hr', e⟩ := List.mem_map.mp hx
      rw [← e]
      exact hnoid r' hr'
    rw [this]
    rfl
  have hnm0 : JSMap.get (buildIndex P (HEADER :: data)).byName (nameKeyOf P f.values) =
      some (j + 2) := by
    rw [buildIndex_byName, lastIdx_map_of_last (rowNameKey P) _ data j r hj hn hlast]
    rfl
  have hid : JSMap.get (classify P (buildIndex P (HEADER :: data)) pre).byId
      (idKeyOf P f.values) = none := by
    rw [classify_byId_keep P pre _ _ (fun g hg hdg => (hpre g hg hdg).2)]
    exact hid0
  have hnm : JSMap.get (classify P (buildIndex P (HEADER :: data)) pre).byName
      (nameKeyOf P f.values) = some (j + 2) := by
    rw [classify_byName_keep P pre _ _ (fun g hg hdg => (hpre g hg hdg).1)]
    exact hnm0
  have hidf : rowTruthy (JSMap.get (classify P (buildIndex P (HEADER :: data)) pre).byId
      (idKeyOf P f.values)) = false := by rw [hid]; rfl
  have hs := classifyStep_promote P (classify P (buildIndex P (HEADER :: data)) pre) f (j + 2) hd
    hidf hnm (by omega)
  have hjlt : j < data.length := (List.getElem?_eq_some.mp hj).1
  refine ⟨hs, ?_, ?_, promoteWrite_of_str P f.values, ?_⟩
  · intro rows post hb hpost
    have hinv := classify_nameInv P pre _ (buildIndex_nameInv P data)
    have hret := promote_retires P _ f (j + 2) hinv hd hidf hnm (by omega)
    obtain ⟨vs, hvs, hne⟩ := classify_toUpdate_retired P post _ (j + 2) _ hret hpost
    have hsplit : classify P (buildIndex P (HEADER :: data)) (pre ++ f :: post) =
        classify P (classifyStep P (classify P (buildIndex P (HEADER :: data)) pre) f) post := by
      rw [classify_append, classify_cons]
    have hu : (classifyStep P (classify P (buildIndex P (HEADER :: data)) pre) f).toUpdate =
        (classify P (buildIndex P (HEADER :: data)) pre).toUpdate ++
          [(j + 2, promoteWrite P f.values)] := by rw [hs]
    have ht := classify_targets P data (pre ++ f :: post) _ (buildIndex_targets P data)
    have hall : (classify P (buildIndex P (HEADER :: data)) (pre ++ f :: post)).toUpdate =
        (classify P (buildIndex P (HEADER :: data)) pre).toUpdate ++
          (j + 2, promoteWrite P f.values) :: vs := by
      rw [hsplit, hvs, hu]
      simp
    rw [upsertToSheet_header, upsertCore_data, hb, List.getElem?_cons_succ,
      List.getElem?_append_left (by rw [applyData_length]; exact hjlt), hall]
    apply applyData_last_target data _ vs j _ hjlt
    intro u hu' e
    have hb2 := (ht.2.2 u (by rw [hall]; simp [hu'])).bounds
    exact hne u hu' (by omega)
  · have hs0 := classifyStep_promote P (buildIndex P (HEADER :: data)) f (j + 2) hd
      (by rw [hid0]; rfl) hnm0 (by omega)
    rw [(buildIndex_queues P data).1, (buildIndex_queues P data).2, List.nil_append] at hs0
    rw [upsertToSheet_header, upsertCore_data, dedupeIncoming_singleton]
    have hc : classify P (buildIndex P (HEADER :: data)) [f] =
        classifyStep P (buildIndex P (HEADER :: data)) f := rfl
    rw [hc, hs0]
    simp [applyData]
  · intro mid g hg hkey
    apply classifyStep_update P _ g (j + 2) hg _ (by omega)
    rw [hkey]
    apply classify_byId_stable P mid _ _ _ (by omega)
    rw [hs]
    simp [JSMap.get_set]

/-- A run of the amended C7: in the batch made of a fact for account `1`, the
fact normalized from `act_42` and a fact for account `43`, the second one is
promoted onto the row `Acme`, `CA`, `2024-01-01` without account id, whose
account id cell becomes `42`; the two others are appended; and a later fact
with the identifier key `42|CA|2024-01-01` is queued for row 2. -/
theorem promotion_path_witness :
    normalize host rec42 = some (fact42 9) ∧
    (upsertToSheet host (HEADER :: [rowAcme]) [factUS 120, fact42 9, fact43 11])[0 + 1]? =
      some (promoteWrite host (fact42 9).values) ∧
    upsertToSheet host [HEADER, rowAcme] [factUS 120, fact42 9, fact43 11] =
      [HEADER, (fact42 9).values, (factUS 120).values, (fact43 11).values] ∧
    upsertToSheet host (HEADER :: [rowAcme]) [fact42 9] =
      HEADER :: [rowAcme].set 0 (promoteWrite host (fact42 9).values) ∧
    promoteWrite host (fact42 9).values =
      { rowAcme with accountId := .str "42".toList, amount := .num (.fin 9) } ∧
    classifyStep host
        (classify host (classifyStep host
          (classify host (buildIndex host (HEADER :: [rowAcme])) [factUS 120]) (fact42 9)) [])
        { fact42 11 with key := "act_42|CA|2024-01-01".toList } =
      { classify host (classifyStep host
          (classify host (buildIndex host (HEADER :: [rowAcme])) [factUS 120]) (fact42 9)) [] with
        toUpdate :=
          (classify host (classifyStep host
            (classify host (buildIndex host (HEADER :: [rowAcme])) [factUS 120]) (fact42 9))
            []).toUpdate ++ [(0 + 2, (fact42 11).values)] } :=
  have h := promotion_path host [rowAcme] [factUS 120] (fact42 9) 0 rowAcme (by decide)
    (by decide) (by decide)
    (by
      intro j' r' hlt hj'
      have : j' = j' - 1 + 1 := by omega
      rw [this] at hj'
      simp at hj')
    (by decide) (by decide)
  ⟨by decide, h.2.1 [factUS 120, fact42 9, fact43 11] [fact43 11] (by decide) (by decide),
    by decide, h.2.2.1, by decide,
    h.2.2.2.2 [] { fact42 11 with key := "act_42|CA|2024-01-01".toList } (by decide)
      (by decide)⟩

/-! ## C8: the append path -/

/-- C8: on a store whose last row is `L = data.length + 1`, the facts of the
deduplicated batch that are not dropped and, at their turn, match neither
`byId` nor `byName` are written as the rows `L+1, L+2, ...`: the rows after
row `L` are exactly the values of those facts, one row per fact, in batch
order, and rows `1..L` keep their number. -/
theorem upsertToSheet_append_path (P : Platform) (data : List Row) (rows : List Fact) :
    (upsertToSheet P (HEADER :: data) rows).length =
      (data.length + 1) +
        (appendedFacts P (buildIndex P (HEADER :: data)) (dedupeIncoming rows)).length ∧
    (upsertToSheet P (HEADER :: data) rows).drop (data.length + 1) =
      (appendedFacts P (buildIndex P (HEADER :: data)) (dedupeIncoming rows)).map Fact.values ∧
    (∀ i f, (appendedFacts P (buildIndex P (HEADER :: data)) (dedupeIncoming rows))[i]? = some f →
      (upsertToSheet P (HEADER :: data) rows)[data.length + 1 + i]? = some f.values) := by
  have ha := classify_toAppend P data (dedupeIncoming rows) _ (buildIndex_targets P data)
  rw [(buildIndex_queues P data).1, List.nil_append] at ha
  have hdrop : (upsertToSheet P (HEADER :: data) rows).drop (data.length + 1) =
      (appendedFacts P (buildIndex P (HEADER :: data)) (dedupeIncoming rows)).map Fact.values := by
    rw [upsertToSheet_header, upsertCore_data, ha]
    simp only [List.drop_succ_cons]
    rw [List.drop_append_of_le_length (by rw [applyData_length])]
    rw [List.drop_of_length_le (by rw [applyData_length])]
    rfl
  refine ⟨?_, hdrop, ?_⟩
  · rw [upsertToSheet_header, upsertCore_data, ha]
    simp only [List.length_cons, List.length_append, applyData_length, List.length_map]
    omega
  · intro i f hf
    have : ((upsertToSheet P (HEADER :: data) rows).drop (data.length + 1))[i]? =
        some f.values := by
      rw [hdrop, List.getElem?_map, hf]
      rfl
    rw [List.getElem?_drop] at this
    exact this

/-! ## C9: no row is removed, the header is not written, unmatched rows keep their cells -/

/-- C9: on a store made of the header and any data rows, every update of a
run targets a row number between 2 and the previous last row, the row count
after the run is the count before plus the number of queued appends, the
header row is still the header, and every data row that is no update target
keeps its eight cells. -/
theorem upsertToSheet_frame (P : Platform) (data : List Row) (rows : List Fact) :
    (∀ u ∈ (classify P (buildIndex P (HEADER :: data)) (dedupeIncoming rows)).toUpdate,
      2 ≤ u.1 ∧ u.1 ≤ getLastRow (HEADER :: data)) ∧
    getLastRow (upsertToSheet P (HEADER :: data) rows) =
      getLastRow (HEADER :: data) +
        (classify P (buildIndex P (HEADER :: data)) (dedupeIncoming rows)).toAppend.length ∧
    (upsertToSheet P (HEADER :: data) rows)[0]? = some HEADER ∧
    (∀ j r, data[j]? = some r →
      (∀ u ∈ (classify P (buildIndex P (HEADER :: data)) (dedupeIncoming rows)).toUpdate,
        u.1 ≠ j + 2) →
      (upsertToSheet P (HEADER :: data) rows)[j + 1]? = some r) := by
  have ht := classify_targets P data (dedupeIncoming rows) _ (buildIndex_targets P data)
  rw [upsertToSheet_header, upsertCore_data]
  refine ⟨?_, ?_, ?_, ?_⟩
  · intro u hu
    have := (ht.2.2 u hu).bounds
    simpa [getLastRow] using this
  · simp only [getLastRow, List.length_cons, List.length_append, applyData_length]
    omega
  · simp
  · intro j r hj hnt
    have := upsertToSheet_untouched P data rows j r hj hnt
    rwa [upsertToSheet_header, upsertCore_data] at this

/-! ## C10: rows without a usable day -/

/-- C10, what the code does not do: a data row whose Day cell is the
non-empty string `garbage`, which the host cannot parse as a date, is entered
into `byId` under the key `1|US|garbage` (the day is kept as it is), and an
incoming fact with that day is matched to the row and overwrites it. -/
theorem unparseable_day_row_is_indexed :
    host.parseDate "garbage".toList = none ∧
    toDayISO host (.str "garbage".toList) = "garbage".toList ∧
    JSMap.get (buildIndex host [HEADER, { rowUS with day := .str "garbage".toList }]).byId
      "1|US|garbage".toList = some 2 ∧
    (normalize host { recUS (.num (.fin 7)) with date_start := .str "garbage".toList }).map
      (fun f => upsertToSheet host [HEADER, { rowUS with day := .str "garbage".toList }] [f]) =
      some [HEADER,
        { rowUS with
            day := .str "garbage".toList, amount := .num (.fin 7)
            start := .str "garbage".toList }] := by
  decide

/-- C10, amended: a data row whose Day cell normalizes to the empty string
(an empty, falsy or blank cell) is entered into neither `byId` nor `byName`,
no fact of any batch is matched to it, and the run leaves its cells as they
are. -/
theorem empty_day_row_skipped (P : Platform) (data : List Row) (rows : List Fact)
    (j : Nat) (r : Row) (hj : data[j]? = some r) (hday : toDayISO P r.day = []) :
    (∀ k, JSMap.get (buildIndex P (HEADER :: data)).byId k ≠ some (j + 2)) ∧
    (∀ k, JSMap.get (buildIndex P (HEADER :: data)).byName k ≠ some (j + 2)) ∧
    (∀ u ∈ (classify P (buildIndex P (HEADER :: data)) (dedupeIncoming rows)).toUpdate,
      u.1 ≠ j + 2) ∧
    (upsertToSheet P (HEADER :: data) rows)[j + 1]? = some r := by
  have hno : ¬ Indexed P data (j + 2) := by
    rintro ⟨j', r', e, hj', hk⟩
    have : j' = j := by omega
    subst this
    rw [hj] at hj'
    cases hj'
    simp [rowIdKey, rowNameKey, hday] at hk
  have h0 := buildIndex_targets P data
  have ht := classify_targets P data (dedupeIncoming rows) _ h0
  have h3 : ∀ u ∈ (classify P (buildIndex P (HEADER :: data)) (dedupeIncoming rows)).toUpdate,
      u.1 ≠ j + 2 := fun u hu e => hno (e ▸ ht.2.2 u hu)
  refine ⟨fun k e => hno (h0.1 k _ e), fun k e => hno (h0.2.1 k _ e), h3, ?_⟩
  exact upsertToSheet_untouched P data rows j r hj h3

/-- A run of the amended C10: the first data row has a blank Day cell and the
same account and region as the incoming fact; it is left alone and the fact
is appended. -/
theorem empty_day_row_skipped_witness :
    (∀ k, JSMap.get (buildIndex host [HEADER, { rowUS with day := .str " ".toList }]).byId k ≠
      some 2) ∧
    (∀ k, JSMap.get (buildIndex host [HEADER, { rowUS with day := .str " ".toList }]).byName k ≠
      some 2) ∧
    (∀ u ∈ (classify host (buildIndex host [HEADER, { rowUS with day := .str " ".toList }])
        (dedupeIncoming [factUS 7])).toUpdate, u.1 ≠ 2) ∧
    (upsertToSheet host [HEADER, { rowUS with day := .str " ".toList }] [factUS 7])[1]? =
      some { rowUS with day := .str " ".toList } :=
  empty_day_row_skipped host [{ rowUS with day := .str " ".toList }] [factUS 7] 0
    { rowUS with day := .str " ".toList } (by decide) (by decide)

/-! ## C11: a response without transient signal ends the call at once -/

/-- C11: let the first `k` attempts (`k < 5`) of a call get transient non-200
responses and attempt `k` a non-200 response whose JSON error code is not 4,
17 or 32 and whose status is not a `5xx` value.  Then `backoffFetch` throws at
that attempt the error `HTTP <status> <body text>`; it has issued `k + 1`
requests and no further one, and it has slept only after the `k` earlier
attempts, not after this one. -/
theorem backoffFetch_fails_fast {σ : Type} (P : Platform) (W : Web σ) (url : Str) (s : σ)
    (k : Nat) (hk : k < 5)
    (hprev : ∀ i, i < k → (responseAt W url i s).code ≠ 200 ∧
      isTransient (responseAt W url i s) = true)
    (h200 : (responseAt W url k s).code ≠ 200)
    (herr : errOf (responseAt W url k s) ≠ .num (.fin 4) ∧
      errOf (responseAt W url k s) ≠ .num (.fin 17) ∧
      errOf (responseAt W url k s) ≠ .num (.fin 32))
    (hcode : ¬ (500 ≤ (responseAt W url k s).code ∧ (responseAt W url k s).code ≤ 599)) :
    backoffFetch P W url (fresh s) =
      (.thrown ("HTTP ".toList ++ P.numToString (.fin (responseAt W url k s).code) ++
          ' ' :: (responseAt W url k s).text),
        { state := stateAfter W url (k + 1) s
          requests := List.replicate (k + 1) url
          sleeps := WAITS.take k }) := by
  have hnt : isTransient (responseAt W url k s) = false := by
    cases h : isTransient (responseAt W url k s) with
    | false => rfl
    | true =>
      rcases (isTransient_iff _).1 h with h1 | h1
      · rcases h1 with h1 | h1 | h1
        · exact absurd h1 herr.1
        · exact absurd h1 herr.2.1
        · exact absurd h1 herr.2.2
      · exfalso
        apply hcode
        omega
  unfold backoffFetch
  rw [backoffLoop_transient_run P W url k WAITS (fresh s) (by simp [WAITS]; omega) hprev]
  obtain ⟨w, ws, hw⟩ : ∃ w ws, WAITS.drop k = w :: ws := by
    have : (WAITS.drop k).length ≠ 0 := by simp [WAITS]; omega
    cases h : WAITS.drop k with
    | nil => rw [h] at this; simp at this
    | cons w ws => exact ⟨w, ws, rfl⟩
  rw [hw]
  rw [responseAt_eq] at h200 hnt
  rw [backoffLoop_thrown P W url w ws _ h200 hnt]
  simp [fresh, httpError, responseAt_eq, stateAfter_succ, List.replicate_succ']

/-- A run of C11: two rate-limited responses, then status `401`; the call
throws `HTTP 401 denied` after three requests and two sleeps. -/
theorem backoffFetch_fails_fast_witness :
    backoffFetch host (scripted (statusOnly 200)) "u".toList
        (fresh [rateLimited, rateLimited, denied, statusOnly 200]) =
      (.thrown "HTTP 401 denied".toList,
        { state := [statusOnly 200]
          requests := ["u".toList, "u".toList, "u".toList]
          sleeps := [0, 500] }) :=
  backoffFetch_fails_fast host (scripted (statusOnly 200)) "u".toList
    [rateLimited, rateLimited, denied, statusOnly 200] 2 (by decide) (by decide) (by decide)
    (by decide) (by decide)

/-! ## C12: which responses are retried -/

/-- C12, what the code does not do: a response with status `501`, a `5xx`
value outside the list `[500,502,503,504]`, and without a listed error code
is not retried; the call throws `HTTP 501 ` at the first attempt without
sleeping, although the next response would have been a `200`.  The same holds
of status `599`. -/
theorem backoffFetch_501_not_retried :
    isTransient (statusOnly 501) = false ∧
    backoffFetch host (scripted (statusOnly 200)) "u".toList
        (fresh [statusOnly 501, statusOnly 200]) =
      (.thrown "HTTP 501 ".toList,
        { state := [statusOnly 200], requests := ["u".toList], sleeps := [] }) ∧
    isTransient (statusOnly 599) = false := by
  decide

/-- C12, amended: at every attempt, a non-200 response is treated as transient
exactly when its status is 500, 502, 503 or 504 or its JSON error body carries
the code 4, 17 or 32.  Then the loop does not throw the HTTP error, sleeps for
the delay of this attempt and goes on with the waits that are left (so it
requests again while attempts remain).  Otherwise, whatever the status, a
`5xx` value such as 501 or 599 included, the loop throws the HTTP error at
once, without sleeping and without a further request. -/
theorem backoffLoop_retries_transient {σ : Type} (P : Platform) (W : Web σ) (url : Str)
    (w : Nat) (ws : List Nat) (e : Effects σ)
    (h200 : (W.fetch e.state url).1.code ≠ 200) :
    ((((W.fetch e.state url).1.code = 500 ∨ (W.fetch e.state url).1.code = 502 ∨
          (W.fetch e.state url).1.code = 503 ∨ (W.fetch e.state url).1.code = 504) ∨
        (errOf (W.fetch e.state url).1 = .num (.fin 4) ∨
          errOf (W.fetch e.state url).1 = .num (.fin 17) ∨
          errOf (W.fetch e.state url).1 = .num (.fin 32))) →
      backoffLoop P W url (w :: ws) e =
        backoffLoop P W url ws
          { state := (W.fetch e.state url).2
            requests := e.requests ++ [url]
            sleeps := e.sleeps ++ [w] }) ∧
    (¬ (((W.fetch e.state url).1.code = 500 ∨ (W.fetch e.state url).1.code = 502 ∨
          (W.fetch e.state url).1.code = 503 ∨ (W.fetch e.state url).1.code = 504) ∨
        (errOf (W.fetch e.state url).1 = .num (.fin 4) ∨
          errOf (W.fetch e.state url).1 = .num (.fin 17) ∨
          errOf (W.fetch e.state url).1 = .num (.fin 32))) →
      backoffLoop P W url (w :: ws) e =
        (.thrown ("HTTP ".toList ++ P.numToString (.fin (W.fetch e.state url).1.code) ++
            ' ' :: (W.fetch e.state url).1.text),
          { state := (W.fetch e.state url).2
            requests := e.requests ++ [url]
            sleeps := e.sleeps })) := by
  constructor
  · intro ht
    exact backoffLoop_retry P W url w ws e h200 ((isTransient_iff _).2 (Or.symm ht))
  · intro hnt
    have hf : isTransient (W.fetch e.state url).1 = false := by
      cases h : isTransient (W.fetch e.state url).1 with
      | false => rfl
      | true => exact absurd (Or.symm ((isTransient_iff _).1 h)) hnt
    rw [backoffLoop_thrown P W url w ws e h200 hf]
    rfl

/-- Runs of the amended C12: status `503` is retried after a sleep of `0`;
status `599` with the error code `17` is retried as well; status `599`
without a listed code throws at once. -/
theorem backoffLoop_retries_transient_witness :
    backoffLoop host (scripted (statusOnly 200)) "u".toList (0 :: [500])
        (fresh [statusOnly 503, statusOnly 200]) =
      backoffLoop host (scripted (statusOnly 200)) "u".toList [500]
        { state := [statusOnly 200], requests := [] ++ ["u".toList], sleeps := [] ++ [0] } ∧
    backoffLoop host (scripted (statusOnly 200)) "u".toList (0 :: [500])
        (fresh [{ rateLimited with code := 599 }, statusOnly 200]) =
      backoffLoop host (scripted (statusOnly 200)) "u".toList [500]
        { state := [statusOnly 200], requests := [] ++ ["u".toList], sleeps := [] ++ [0] } ∧
    backoffLoop host (scripted (statusOnly 200)) "u".toList (0 :: [500])
        (fresh [statusOnly 599, statusOnly 200]) =
      (.thrown ("HTTP ".toList ++ host.numToString (.fin 599) ++ ' ' :: []),
        { state := [statusOnly 200], requests := [] ++ ["u".toList], sleeps := [] }) :=
  ⟨(backoffLoop_retries_transient host (scripted (statusOnly 200)) "u".toList 0 [500]
      (fresh [statusOnly 503, statusOnly 200]) (by decide)).1 (by decide),
    (backoffLoop_retries_transient host (scripted (statusOnly 200)) "u".toList 0 [500]
      (fresh [{ rateLimited with code := 599 }, statusOnly 200]) (by decide)).1 (by decide),
    (backoffLoop_retries_transient host (scripted (statusOnly 200)) "u".toList 0 [500]
      (fresh [statusOnly 599, statusOnly 200]) (by decide)).2 (by decide)⟩

/-! ## C13: the retry loop is bounded -/

/-- C13: `backoffFetch` issues at most 5 requests, one per entry of the wait
schedule `0, 500, 1500, 3000, 6000`, which is non-decreasing; when all 5
attempts get transient non-200 responses it issues exactly 5 requests, sleeps
after each of them and throws `Retries exhausted: ` followed by the URL. -/
theorem backoffFetch_bounded {σ : Type} (P : Platform) (W : Web σ) (url : Str) (s : σ) :
    (backoffFetch P W url (fresh s)).2.requests.length ≤ 5 ∧
    WAITS = [0, 500, 1500, 3000, 6000] ∧ WAITS.Pairwise (· ≤ ·) ∧
    ((∀ i, i < 5 → (responseAt W url i s).code ≠ 200 ∧
        isTransient (responseAt W url i s) = true) →
      backoffFetch P W url (fresh s) =
        (.thrown ("Retries exhausted: ".toList ++ url),
          { state := stateAfter W url 5 s
            requests := List.replicate 5 url
            sleeps := [0, 500, 1500, 3000, 6000] })) := by
  refine ⟨?_, rfl, by decide, ?_⟩
  · have := backoffLoop_requests_le P W url WAITS (fresh s)
    simpa [backoffFetch, fresh, WAITS] using this
  · intro h
    unfold backoffFetch
    rw [backoffLoop_transient_run P W url 5 WAITS (fresh s) (by simp [WAITS]) h]
    simp [WAITS, backoffLoop, fresh, exhaustedError]

/-- A run of C13: five rate-limited or `500` responses; the call gives up after
the fifth request although a `200` would have come next. -/
theorem backoffFetch_bounded_witness :
    backoffFetch host (scripted (statusOnly 200)) "u".toList
        (fresh [rateLimited, statusOnly 500, rateLimited, statusOnly 504, rateLimited]) =
      (.thrown "Retries exhausted: u".toList,
        { state := stateAfter (scripted (statusOnly 200)) "u".toList 5
            [rateLimited, statusOnly 500, rateLimited, statusOnly 504, rateLimited]
          requests := List.replicate 5 "u".toList
          sleeps := [0, 500, 1500, 3000, 6000] }) :=
  (backoffFetch_bounded host (scripted (statusOnly 200)) "u".toList
    [rateLimited, statusOnly 500, rateLimited, statusOnly 504, rateLimited]).2.2.2 (by decide)

/-! ## C14: pagination -/

/-- C14: let every account have a finite chain of pages on a service without
state: every page answers with status 200 at the first attempt, each page
but the last carries `paging.next`, the last carries none.  With enough fuel
for the longest chain, `fetchInsightsForAccounts` returns the concatenation,
in account order and then page order, of the `data` arrays of all pages (a
page with absent or empty `data` adds nothing); it requests exactly the URLs
of the pages, each once and in order, stopping for an account at its first
page without `paging.next`, and it never sleeps. -/
theorem fetchInsightsForAccounts_pages (P : Platform) (api : Str → Response)
    (firstUrl : Str → Str) (pagesOf : Str → List (Str × Body)) (fuel : Nat)
    (accounts : List Str)
    (hc : ∀ a ∈ accounts, Chain api (firstUrl a) (pagesOf a))
    (hf : ∀ a ∈ accounts, (pagesOf a).length < fuel) :
    fetchInsightsForAccounts P (stateless api) firstUrl fuel accounts () =
      some (.returned
          (accounts.flatMap (fun a => (pagesOf a).flatMap (fun p => pageData p.2))),
        { state := ()
          requests := accounts.flatMap (fun a => (pagesOf a).map Prod.fst)
          sleeps := [] }) ∧
    (∀ a ∈ accounts, ∀ p, (pagesOf a).getLast? = some p → p.2.next.getD [] = []) ∧
    (∀ b : Body, (b.data = none ∨ b.data = some []) → pageData b = []) := by
  refine ⟨?_, ?_, ?_⟩
  · unfold fetchInsightsForAccounts
    rw [accountsLoop_chain P api firstUrl pagesOf fuel accounts hc hf]
    simp
  · intro a ha p hp
    have := (hc a ha).last_has_no_next p hp
    unfold nextUrl at this
    cases h : p.2.next with
    | none => rfl
    | some s =>
      rw [h] at this
      simpa using this
  · rintro b (h | h) <;> simp [pageData, h]

/-- A run of C14: account `a` with three pages, the second without `data`,
and account `b` with one page whose `data` is empty. -/
theorem fetchInsightsForAccounts_pages_witness :
    fetchInsightsForAccounts host (stateless sampleApi) sampleUrl 4
        ["a".toList, "b".toList] () =
      some (.returned [recOf "r1".toList, recOf "r2".toList, recOf "r3".toList],
        { state := ()
          requests := ["a1".toList, "a2".toList, "a3".toList, "b1".toList]
          sleeps := [] }) :=
  have hc : ∀ a ∈ ["a".toList, "b".toList], Chain sampleApi (sampleUrl a) (samplePages a) := by
    intro a ha
    simp only [List.mem_cons, List.mem_singleton, List.not_mem_nil, or_false] at ha
    rcases ha with rfl | rfl
    · exact Chain.page _ _ _ (by decide) (by decide) (by decide)
        (Chain.page _ _ _ (by decide) (by decide) (by decide)
          (Chain.page _ _ _ (by decide) (by decide) (by decide) Chain.stop))
    · exact Chain.page _ _ _ (by decide) (by decide) (by decide) Chain.stop
  (fetchInsightsForAccounts_pages host sampleApi sampleUrl samplePages 4
    ["a".toList, "b".toList] hc (by decide)).1

/-! ## C15: the normalized region -/

/-- C15, what the code does not do: a region made only of white space is
truthy, so the sentinel is not substituted, and trimming leaves the empty
string as the normalized region. -/
theorem blank_region_not_unknown :
    (normalize host { recUS (.num (.fin 5)) with region := .str " ".toList }).map
      (fun f => f.values.region) = some (.str []) := by
  decide

/-- C15, amended: for every raw record the normalizer accepts, the normalized
region is the sentinel `Unknown` when the record's region is absent or falsy
(in particular the empty string), and it is the record's region with
surrounding white space removed when that region is a non-empty string; so a
region made only of white space gives the empty string. -/
theorem normalize_region (P : Platform) (r : Record) (f : Fact)
    (h : normalize P r = some f) :
    (r.region.truthy = false → f.values.region = .str "Unknown".toList) ∧
    (∀ s, r.region = .str s → s ≠ [] → f.values.region = .str (trim s)) ∧
    (∀ s, r.region = .str s → s ≠ [] → trim s = [] → f.values.region = .str []) := by
  obtain ⟨region, rawId, h1, _, _, _, _, h6, _, _⟩ := normalize_some P r f h
  have hs : ∀ s, r.region = .str s → s ≠ [] → f.values.region = .str (trim s) := by
    intro s hs hne
    have ht : r.region.truthy = true := by
      rw [hs]
      cases s with
      | nil => exact absurd rfl hne
      | cons c cs => rfl
    rw [JSVal.or, if_pos ht, hs] at h1
    simp only [trimVal, Option.some.injEq] at h1
    rw [h6, h1]
  refine ⟨?_, hs, ?_⟩
  · intro hf
    rw [JSVal.or, hf] at h1
    simp only [Bool.false_eq_true, if_false, trimVal, Option.some.injEq] at h1
    rw [h6, ← h1]
    decide
  · intro s h1 h2 h3
    rw [hs s h1 h2, h3]

/-- Runs of the amended C15: a region with surrounding blanks is trimmed, and
an absent region becomes `Unknown`. -/
theorem normalize_region_witness :
    normalize host { recUS (.num (.fin 5)) with region := .str " US ".toList } =
      some (factUS 5) ∧
    (factUS 5).values.region = .str (trim " US ".toList) ∧
    (normalize host { recUS (.num (.fin 5)) with region := .undefined }).map
      (fun f => f.values.region) = some (.str "Unknown".toList) :=
  ⟨by decide,
    (normalize_region host { recUS (.num (.fin 5)) with region := .str " US ".toList }
      (factUS 5) (by decide)).2.1 " US ".toList rfl (by decide),
    by decide⟩

/-! ## C16: the normalized spend -/

/-- C16, what the code does not do: a spend that is a non-numeric string is
truthy, so it reaches `Number`, which gives `NaN` and not `0`; the reconciler
then drops the fact. -/
theorem invalid_spend_is_nan :
    host.strToNumber "abc".toList = .nan ∧
    (normalize host (recUS (.str "abc".toList))).map (fun f => f.spend) = some .nan ∧
    (normalize host (recUS (.str "abc".toList))).map (fun f => dropped f) = some true := by
  decide

/-- C16, amended: for every raw record the normalizer accepts, the normalized
spend is `0` when the spend field is missing or falsy, it is the field itself
when that is a truthy number, and it is what `Number` gives when the field is
a non-empty string; the amount cell carries the same number, and a spend that
comes out as `NaN` makes the reconciler drop the fact. -/
theorem normalize_spend (P : Platform) (r : Record) (f : Fact)
    (h : normalize P r = some f) :
    (r.spend.truthy = false → f.spend = .fin 0) ∧
    (∀ x, r.spend = .num x → x.truthy = true → f.spend = x) ∧
    (∀ s, r.spend = .str s → s ≠ [] → f.spend = P.strToNumber s) ∧
    f.values.amount = .num f.spend ∧
    (f.spend = .nan → dropped f = true) := by
  obtain ⟨region, rawId, _, _, _, h4, _, _, _, h8⟩ := normalize_some P r f h
  refine ⟨?_, ?_, ?_, h8, ?_⟩
  · intro hf
    rw [h4, JSVal.or, hf]
    rfl
  · intro x hx ht
    rw [h4, JSVal.or, hx]
    simp [JSVal.truthy, ht, toNumber]
  · intro s hs hne
    have ht : (JSVal.str s).truthy = true := by
      cases s with
      | nil => exact absurd rfl hne
      | cons c cs => rfl
    rw [h4, JSVal.or, hs, if_pos ht]
    rfl
  · intro hn
    simp [dropped, hn, JSNum.isFinite]

/-- Runs of the amended C16: a missing spend gives `0`, the number `120` gives
`120`, and the string `abc` gives what `Number` makes of it. -/
theorem normalize_spend_witness :
    (normalize host (recUS .undefined)).map (fun f => f.spend) = some (.fin 0) ∧
    normalize host (recUS (.num (.fin 120))) = some (factUS 120) ∧
    (factUS 120).spend = .fin 120 ∧
    (normalize host (recUS (.str "abc".toList))).map (fun f => f.spend) =
      some (host.strToNumber "abc".toList) :=
  ⟨by decide, by decide,
    (normalize_spend host (recUS (.num (.fin 120))) (factUS 120) (by decide)).2.1 (.fin 120)
      rfl (by decide),
    by decide⟩

/-! ## C17: how canonical a normalized account id is -/

/-- C17, what the code does not do: the prefix is removed once, after
trimming.  `act_act_1` gives `act_1`, which begins with the prefix and
normalizes further to `1`; `act_ 1` gives ` 1`, with a leading blank; and for
the fact normalized from `act_act_1` the reconciler recomputes the identifier
key `1|US|2024-03-01`, not the dedup key `act_1|US|2024-03-01`. -/
theorem normalizeAccountId_not_idempotent :
    normalizeAccountId host (.str "act_act_1".toList) = "act_1".toList ∧
    normalizeAccountId host (.str (normalizeAccountId host (.str "act_act_1".toList))) =
      "1".toList ∧
    normalizeAccountId host (.str "act_ 1".toList) = " 1".toList ∧
    normalize host recTwice = some factTwice ∧
    idKeyOf host factTwice.values = "1|US|2024-03-01".toList ∧
    factTwice.key = "act_1|US|2024-03-01".toList := by
  decide

/-- C17, amended: for every string `s`, `normalizeAccountId(s)` is the
trimmed `s` with one leading `act_` removed and has no trailing white space;
when it also has no leading white space and does not begin with `act_` (so
whenever the trimmed `s` does not begin with `act_`), normalizing again
returns it unchanged; and for a normalized fact whose account id is unchanged
by `normalizeAccountId` and whose day is unchanged by `toDayISO` (as every day
of the form `YYYY-MM-DD` is), the identifier key the reconciler recomputes from
the fact's values equals the fact's dedup key. -/
theorem normalizeAccountId_canonical (P : Platform) :
    (∀ s, normalizeAccountId P (.str s) = stripAct (trim s)) ∧
    (∀ s c, (normalizeAccountId P (.str s)).getLast? = some c → isJSSpace c = false) ∧
    (∀ s, (∀ c, (normalizeAccountId P (.str s)).head? = some c → isJSSpace c = false) →
      stripAct (normalizeAccountId P (.str s)) = normalizeAccountId P (.str s) →
      normalizeAccountId P (.str (normalizeAccountId P (.str s))) =
        normalizeAccountId P (.str s)) ∧
    (∀ s, stripAct (trim s) = trim s →
      normalizeAccountId P (.str (normalizeAccountId P (.str s))) =
        normalizeAccountId P (.str s)) ∧
    (∀ r f a d, normalize P r = some f → f.values.accountId = .str a →
      f.values.day = .str d → normalizeAccountId P (.str a) = a →
      toDayISO P (.str d) = d → idKeyOf P f.values = f.key) ∧
    (∀ d, isDayISO d = true → toDayISO P (.str d) = d) := by
  have hlast : ∀ s c, (normalizeAccountId P (.str s)).getLast? = some c →
      isJSSpace c = false := by
    intro s c h
    rw [normalizeAccountId_str] at h
    exact trim_getLast_not s c (stripAct_getLast _ c h)
  have hidem : ∀ s,
      (∀ c, (normalizeAccountId P (.str s)).head? = some c → isJSSpace c = false) →
      stripAct (normalizeAccountId P (.str s)) = normalizeAccountId P (.str s) →
      normalizeAccountId P (.str (normalizeAccountId P (.str s))) =
        normalizeAccountId P (.str s) := by
    intro s h1 h2
    rw [normalizeAccountId_str P (normalizeAccountId P (.str s))]
    rw [trim_of_clean _ h1 (hlast s), h2]
  refine ⟨normalizeAccountId_str P, hlast, hidem, ?_, ?_, toDayISO_iso P⟩
  · intro s hs
    apply hidem s
    · intro c hc
      rw [normalizeAccountId_str, hs] at hc
      exact trim_head_not s c hc
    · rw [normalizeAccountId_str, hs, hs]
  · intro r f a d h ha hd hna hnd
    exact idKeyOf_normalized P r f a d h ha hd hna hnd

/-- Runs of the amended C17: `act_1` normalizes to `1`, which normalizes to
itself, and the fact normalized from `act_1`, `US`, `2024-03-01` has the
identifier key the reconciler recomputes as its key. -/
theorem normalizeAccountId_canonical_witness :
    normalizeAccountId host (.str " act_1 ".toList) = "1".toList ∧
    normalizeAccountId host (.str (normalizeAccountId host (.str "1".toList))) =
      normalizeAccountId host (.str "1".toList) ∧
    idKeyOf host (factUS 120).values = (factUS 120).key :=
  ⟨by decide,
    (normalizeAccountId_canonical host).2.2.2.1 "1".toList (by decide),
    (normalizeAccountId_canonical host).2.2.2.2.1 (recUS (.num (.fin 120))) (factUS 120)
      "1".toList "2024-03-01".toList (by decide) rfl rfl (by decide) (by decide)⟩

/-! ## C18: a name key matches once -/

/-- C18, what the code does not do: after `fact42` has been promoted onto the
row known by name, the later fact for account `43`, with the same name, region
and day, is not appended: its identifier key is held by row 3, which it
updates; the store keeps its three rows. -/
theorem later_fact_updates_own_row :
    nameKeyOf host (fact43 11).values = nameKeyOf host (fact42 9).values ∧
    idKeyOf host (fact43 11).values ≠ idKeyOf host (fact42 9).values ∧
    upsertToSheet host [HEADER, rowAcme, row43] [fact42 9, fact43 11] =
      [HEADER, (fact42 9).values, (fact43 11).values] := by
  decide

/-- C18, amended: let the fact `f` be promoted onto row `n` through its name
key, at any point of a run.  From then on no key of `byName` holds row `n`, and
the name key of `f` is absent from `byName`, for every later fact of the
batch.  A later fact `g` with that name key is therefore never matched through
the name index: it is classified by its identifier key alone, appended as a
new row when `byId` does not hold that key, and queued as an update of the row
`byId` holds for it otherwise; that row is not the promoted row when the
identifier key of `g` differs from that of `f`. -/
theorem name_key_retired (P : Platform) (data : List Row) (pre mid : List Fact)
    (f g : Fact) (n : Nat) (hd : dropped f = false)
    (hid : rowTruthy (JSMap.get (classify P (buildIndex P (HEADER :: data)) pre).byId
      (idKeyOf P f.values)) = false)
    (hm : JSMap.get (classify P (buildIndex P (HEADER :: data)) pre).byName
      (nameKeyOf P f.values) = some n)
    (hg : dropped g = false) (hname : nameKeyOf P g.values = nameKeyOf P f.values) :
    (∀ k, JSMap.get (classify P (classify P (buildIndex P (HEADER :: data)) (pre ++ [f]))
      mid).byName k ≠ some n) ∧
    JSMap.get (classify P (classify P (buildIndex P (HEADER :: data)) (pre ++ [f]))
      mid).byName (nameKeyOf P f.values) = none ∧
    (JSMap.get (classify P (classify P (buildIndex P (HEADER :: data)) (pre ++ [f]))
        mid).byId (idKeyOf P g.values) = none →
      classify P (buildIndex P (HEADER :: data)) (pre ++ [f] ++ mid ++ [g]) =
        { classify P (buildIndex P (HEADER :: data)) (pre ++ [f] ++ mid) with
          toAppend := (classify P (buildIndex P (HEADER :: data))
            (pre ++ [f] ++ mid)).toAppend ++ [g.values] }) ∧
    (∀ m, JSMap.get (classify P (classify P (buildIndex P (HEADER :: data)) (pre ++ [f]))
        mid).byId (idKeyOf P g.values) = some m →
      classify P (buildIndex P (HEADER :: data)) (pre ++ [f] ++ mid ++ [g]) =
        { classify P (buildIndex P (HEADER :: data)) (pre ++ [f] ++ mid) with
          toUpdate := (classify P (buildIndex P (HEADER :: data))
            (pre ++ [f] ++ mid)).toUpdate ++ [(m, g.values)] } ∧
      (idKeyOf P g.values ≠ idKeyOf P f.values → m ≠ n)) := by
  have ht0 := classify_targets P data pre _ (buildIndex_targets P data)
  have hn : n ≠ 0 := by
    have := (ht0.2.1 _ n hm).bounds
    omega
  have hinv := classify_nameInv P pre _ (buildIndex_nameInv P data)
  have hstep : classify P (buildIndex P (HEADER :: data)) (pre ++ [f]) =
      classifyStep P (classify P (buildIndex P (HEADER :: data)) pre) f := by
    rw [classify_append]
    rfl
  have hret1 := promote_retires P _ f n hinv hd hid hm hn
  rw [← hstep] at hret1
  have hret := classify_retired P mid _ n _ hret1
  have hnone1 : JSMap.get (classify P (buildIndex P (HEADER :: data)) (pre ++ [f])).byName
      (nameKeyOf P f.values) = none := by
    rw [hstep, classifyStep_promote P _ f n hd hid hm hn]
    simp [JSMap.get_delete]
  have hnone := classify_byName_none P mid _ _ hnone1
  have ht2 := classify_targets P data (pre ++ [f] ++ mid) _ (buildIndex_targets P data)
  have hsplit : classify P (buildIndex P (HEADER :: data)) (pre ++ [f] ++ mid) =
      classify P (classify P (buildIndex P (HEADER :: data)) (pre ++ [f])) mid :=
    classify_append P _ _ _
  have hlast : classify P (buildIndex P (HEADER :: data)) (pre ++ [f] ++ mid ++ [g]) =
      classifyStep P (classify P (buildIndex P (HEADER :: data)) (pre ++ [f] ++ mid)) g := by
    rw [classify_append]
    rfl
  refine ⟨hret.noName, hnone, ?_, ?_⟩
  · intro hnoid
    rw [hlast]
    rw [← hsplit] at hnoid hnone
    apply classifyStep_append P _ g hg
    · rw [hnoid]; rfl
    · rw [hname, hnone]; rfl
  · intro m hmid
    rw [hlast]
    rw [← hsplit] at hmid
    have hm0 : m ≠ 0 := by
      have := (ht2.1 _ m hmid).bounds
      omega
    refine ⟨classifyStep_update P _ g m hg hmid hm0, ?_⟩
    intro hne e
    subst e
    rw [hsplit] at hmid
    exact hne (hret.onlyId _ hmid)

/-- A run of the amended C18: `fact42` is promoted onto row 2; the later fact
for account `43`, with the same name, region and day, finds its name key gone
and its identifier key in no row, and is appended as row 3. -/
theorem name_key_retired_witness :
    JSMap.get (classify host (classify host (buildIndex host (HEADER :: [rowAcme]))
      ([] ++ [fact42 9])) []).byName (nameKeyOf host (fact42 9).values) = none ∧
    classify host (buildIndex host (HEADER :: [rowAcme]))
        ([] ++ [fact42 9] ++ [] ++ [fact43 11]) =
      { classify host (buildIndex host (HEADER :: [rowAcme])) ([] ++ [fact42 9] ++ []) with
        toAppend := (classify host (buildIndex host (HEADER :: [rowAcme]))
          ([] ++ [fact42 9] ++ [])).toAppend ++ [(fact43 11).values] } ∧
    upsertToSheet host [HEADER, rowAcme] [fact42 9, fact43 11] =
      [HEADER, (fact42 9).values, (fact43 11).values] :=
  have h := name_key_retired host [rowAcme] [] [] (fact42 9) (fact43 11) 2 (by decide)
    (by decide) (by decide) (by decide) (by decide)
  ⟨h.2.1, h.2.2.1 (by decide), by decide⟩

/-! ## C19: the order of the deduplicated batch -/

/-- C19: `dedupeIncoming` lists the distinct keys of its input in the order
of their first occurrence, each with the last fact that carries it; a batch
whose keys are pairwise distinct is returned unchanged; deduplicating twice is
deduplicating once; and the facts queued for appending, hence the appended
rows, follow that order. -/
theorem dedupeIncoming_first_occurrence_order (P : Platform) (st : LoopState)
    (rows : List Fact) :
    (dedupeIncoming rows).map Fact.key = firstKeys (rows.map Fact.key) ∧
    (∀ f ∈ dedupeIncoming rows, lastWithKey rows f.key = some f) ∧
    ((rows.map Fact.key).Nodup → dedupeIncoming rows = rows) ∧
    dedupeIncoming (dedupeIncoming rows) = dedupeIncoming rows ∧
    ((appendedFacts P st (dedupeIncoming rows)).map Fact.key).Sublist
      (firstKeys (rows.map Fact.key)) := by
  refine ⟨dedupeIncoming_keys_order rows, ?_, dedupeIncoming_of_nodup rows,
    dedupeIncoming_idem rows, ?_⟩
  · intro f hf
    exact (dedupeIncoming_mem rows f).1 hf
  · rw [← dedupeIncoming_keys_order]
    exact (appendedFacts_sublist P _ st).map Fact.key

/-- A run of C19: the keys `1|US|…`, `42|CA|…`, `1|US|…` come out as
`1|US|…`, `42|CA|…`, the first with its last fact; and a batch with distinct
keys is returned as it is. -/
theorem dedupeIncoming_first_occurrence_order_witness :
    dedupeIncoming [factUS 5, fact42 9, factUS 120] = [factUS 120, fact42 9] ∧
    dedupeIncoming [fact42 9, factUS 120] = [fact42 9, factUS 120] :=
  ⟨by decide,
    (dedupeIncoming_first_occurrence_order host emptyState [fact42 9, factUS 120]).2.2.1
      (by decide)⟩

/-! ## C20: several stored rows with one identifier key -/

/-- C20: when several data rows are indexed under the identifier key of an
incoming fact with finite positive spend, row `j + 2` being the last of them,
a batch made of that fact overwrites row `j + 2` with the fact's values, leaves
every other data row, the earlier rows with that key among them, as it is, and
appends no row. -/
theorem duplicate_rows_last_overwritten (P : Platform) (data : List Row) (f : Fact)
    (j : Nat) (r : Row) (hd : dropped f = false) (hj : data[j]? = some r)
    (hk : rowIdKey P r = some (idKeyOf P f.values))
    (hlast : ∀ j' r', j < j' → data[j']? = some r' →
      rowIdKey P r' ≠ some (idKeyOf P f.values)) :
    (upsertToSheet P (HEADER :: data) [f])[j + 1]? = some f.values ∧
    (∀ i ri, i ≠ j → data[i]? = some ri →
      (upsertToSheet P (HEADER :: data) [f])[i + 1]? = some ri) ∧
    (upsertToSheet P (HEADER :: data) [f]).length = (HEADER :: data).length := by
  have hlt : j < data.length := (List.getElem?_eq_some.mp hj).1
  rw [upsert_single_update P data f j r hd hj hk hlast]
  refine ⟨?_, ?_, by simp⟩
  · simp only [List.getElem?_cons_succ]
    exact List.getElem?_set_self hlt
  · intro i ri hne hi
    simp only [List.getElem?_cons_succ]
    rw [List.getElem?_set_ne (fun e => hne e.symm)]
    exact hi

/-- A run of C20: rows 2 and 3 both hold account `1`, `US`, `2024-03-01`; the
fact with spend `120` overwrites row 3, row 2 keeps its amount `100.5`, and the
row count stays 3. -/
theorem duplicate_rows_last_overwritten_witness :
    (upsertToSheet host (HEADER :: [rowUS, rowUS]) [factUS 120])[1 + 1]? =
      some (factUS 120).values ∧
    (upsertToSheet host (HEADER :: [rowUS, rowUS]) [factUS 120])[0 + 1]? = some rowUS ∧
    (upsertToSheet host (HEADER :: [rowUS, rowUS]) [factUS 120]).length = 3 :=
  have h := duplicate_rows_last_overwritten host [rowUS, rowUS] (factUS 120) 1 rowUS
    (by decide) (by decide) (by decide)
    (by
      intro j' r' hlt hj'
      have : j' = j' - 2 + 2 := by omega
      rw [this] at hj'
      simp at hj')
  ⟨h.1, h.2.1 0 rowUS (by decide) (by decide), h.2.2⟩

end MetaAds
